import Mathlib

/-!
# avrdude `config.c`: escape codec, string interning, comment tracker, `hexnumber`

A shallow embedding of the string codec (`tohex`, `wc_to_utf8str`,
`cfg_unescapeu`, `cfg_escape`), of the interning cache (`strhash`,
`cache_string`), of the comment tracker (`capture_comment_str`,
`capture_lvalue_kw`, `cfg_move_comments`, `cfg_pop_comms`,
`locate_comment`) and of `hexnumber` of `config.c`, with theorems about
them.

Bytes are natural numbers (an `unsigned char` is a `Nat` below 256), C
strings are lists of bytes followed by a `0` byte in memory, and pointers
are indices into a flat memory `List Nat`.  An access outside the object a
pointer points into is undefined behaviour in C; the embedding reports it
as a `Fault`.  Allocation always succeeds: `cfg_malloc`, `cfg_realloc` and
`cfg_strdup` end the process when memory runs out, which is outside the
embedding.

Definitions come first: the codec, the reference notions its claims are
stated with, `cfg_escape`, the cache, the comment tracker, `hexnumber`.
The theorems follow, the ones that settle a claim carrying its number in
their name.
-/

namespace Avrdude

/-! ## Results of memory-accessing code -/

/-- Reasons for which a run of the embedded code has no defined result. -/
inductive Fault where
  /-- A read through the source pointer outside the source object. -/
  | srcOverrun
  /-- A write through the destination pointer outside the destination object. -/
  | dstOverrun
  /-- The iteration budget of the embedding ran out (never happens, see `cfg_unescapeu_ne_outOfFuel`). -/
  | outOfFuel
  deriving DecidableEq, Repr

/-- Either a value or a fault. -/
inductive Res (α : Type) where
  | ok (a : α)
  | fault (f : Fault)
  deriving DecidableEq, Repr

namespace Res

/-- Sequencing: a fault stops the computation. -/
def bind {α β : Type} (x : Res α) (f : α → Res β) : Res β :=
  match x with
  | ok a => f a
  | fault e => fault e

/-- Apply a function to the value of a result. -/
def map {α β : Type} (f : α → β) (x : Res α) : Res β :=
  match x with
  | ok a => ok (f a)
  | fault e => fault e

end Res

/-! ## Character classes and `tohex` -/

/-- The C library's `isxdigit` in the "C" locale. -/
def isxdigit (c : Nat) : Bool :=
  (48 ≤ c && c ≤ 57) || (97 ≤ c && c ≤ 102) || (65 ≤ c && c ≤ 70)

/-- The test `c >= '0' && c <= '7'` of the octal case. -/
def isodigit (c : Nat) : Bool := 48 ≤ c && c ≤ 55

/-- The summand of `tohex` for one character, as a 32-bit pattern:
`c >= '0' && c <= '9'? c - '0': c >= 'a' && c <= 'f'? c - 'a' + 10: c - 'A' + 10`. -/
def hexdigit (c : Nat) : Nat :=
  if 48 ≤ c ∧ c ≤ 57 then c - 48
  else if 97 ≤ c ∧ c ≤ 102 then c - 97 + 10
  else (c + (2 ^ 32 - 65) + 10) % 2 ^ 32

/-- The loop of `tohex`: `ret *= 16; c = *s++; ret += ...`, on the bytes the
pointer walks over, the `int` accumulator kept as a 32-bit pattern. -/
def tohexAcc : Nat → List Nat → Nat
  | ret, [] => ret
  | ret, c :: cs => tohexAcc ((ret * 16 % 2 ^ 32 + hexdigit c) % 2 ^ 32) cs

/-- `tohex(s, n)`, given the `n` bytes at `s`: the result as `unsigned int`. -/
def tohex (digits : List Nat) : Nat := tohexAcc 0 digits

/-! ## `wc_to_utf8str` -/

/-- `wc_to_utf8str(wc, str)` for a 32-bit `wc`: the bytes stored through
`str`, in order; the C function returns their number. -/
def wc_to_utf8str (wc : Nat) : List Nat :=
  if wc &&& (0xffffffff ^^^ 0x7f) = 0 then
    [wc % 256]
  else if wc &&& (0xffffffff ^^^ 0x7ff) = 0 then
    [((wc >>> 6) ||| 0xc0) % 256,
     ((wc &&& 0x3f) ||| 0x80) % 256]
  else if wc &&& (0xffffffff ^^^ 0xffff) = 0 then
    [((wc >>> 12) ||| 0xe0) % 256,
     (((wc >>> 6) &&& 0x3f) ||| 0x80) % 256,
     ((wc &&& 0x3f) ||| 0x80) % 256]
  else if wc &&& (0xffffffff ^^^ 0x1fffff) = 0 then
    [((wc >>> 18) ||| 0xf0) % 256,
     (((wc >>> 12) &&& 0x3f) ||| 0x80) % 256,
     (((wc >>> 6) &&& 0x3f) ||| 0x80) % 256,
     ((wc &&& 0x3f) ||| 0x80) % 256]
  else if wc &&& (0xffffffff ^^^ 0x3ffffff) = 0 then
    [((wc >>> 24) ||| 0xf8) % 256,
     (((wc >>> 18) &&& 0x3f) ||| 0x80) % 256,
     (((wc >>> 12) &&& 0x3f) ||| 0x80) % 256,
     (((wc >>> 6) &&& 0x3f) ||| 0x80) % 256,
     ((wc &&& 0x3f) ||| 0x80) % 256]
  else if wc &&& (0xffffffff ^^^ 0x7fffffff) = 0 then
    [((wc >>> 30) ||| 0xfc) % 256,
     (((wc >>> 24) &&& 0x3f) ||| 0x80) % 256,
     (((wc >>> 18) &&& 0x3f) ||| 0x80) % 256,
     (((wc >>> 12) &&& 0x3f) ||| 0x80) % 256,
     (((wc >>> 6) &&& 0x3f) ||| 0x80) % 256,
     ((wc &&& 0x3f) ||| 0x80) % 256]
  else
    []

/-! ## `cfg_unescapeu` on a flat memory -/

/-- The ends (exclusive) of the objects the source pointer `s` and the
destination pointer `d` point into. -/
structure Limits where
  slim : Nat
  dlim : Nat
  deriving DecidableEq, Repr

/-- The machine state of `cfg_unescapeu`: memory and the two pointers. -/
structure UState where
  mem : List Nat
  d : Nat
  s : Nat
  deriving DecidableEq, Repr

/-- The bytes of the source object from index `i` on. -/
def view (L : Limits) (m : List Nat) (i : Nat) : List Nat := (m.take L.slim).drop i

/-- Read the byte at index `i` through the source pointer. -/
def rd (L : Limits) (m : List Nat) (i : Nat) : Res Nat :=
  match (m.take L.slim)[i]? with
  | some v => .ok v
  | none => .fault .srcOverrun

/-- Store byte `v` at index `i` through the destination pointer. -/
def wr (L : Limits) (m : List Nat) (i v : Nat) : Res (List Nat) :=
  if i < L.dlim ∧ i < m.length then .ok (m.set i v) else .fault .dstOverrun

/-- Store bytes one after the other (`*str++ = ...`). -/
def wrs (L : Limits) (m : List Nat) (i : Nat) : List Nat → Res (List Nat)
  | [] => .ok m
  | b :: bs => (wr L m i b).bind fun m1 => wrs L m1 (i + 1) bs

/-- Read `n` bytes one after the other (`c = *s++`). -/
def rds (L : Limits) (m : List Nat) (i : Nat) : Nat → Res (List Nat)
  | 0 => .ok []
  | n + 1 => (rd L m i).bind fun c => (rds L m (i + 1) n).bind fun cs => .ok (c :: cs)

/-- The counting loop `for(k = 0; isxdigit(s[k + 1]); k++)`, given the bytes
of the source object from `s + 1` on: reading past them is a fault. -/
def countHex : List Nat → Res Nat
  | [] => .fault .srcOverrun
  | c :: cs => if isxdigit c then (countHex cs).bind fun k => .ok (k + 1) else .ok 0

/-- The short-circuit conjunction `isxdigit(s[1]) && ... && isxdigit(s[n])`,
reading from index `i` on. -/
def allHex (L : Limits) (m : List Nat) (i : Nat) : Nat → Res Bool
  | 0 => .ok true
  | n + 1 => (rd L m i).bind fun c => if isxdigit c then allHex L m (i + 1) n else .ok false

/-- The one-byte escapes of the inner `switch`: `*d = ...` for
`n t a b e f r v ? backquote " ' \`. -/
def escByte (c : Nat) : Option Nat :=
  if c = 110 then some 10
  else if c = 116 then some 9
  else if c = 97 then some 7
  else if c = 98 then some 8
  else if c = 101 then some 27
  else if c = 102 then some 12
  else if c = 114 then some 13
  else if c = 118 then some 11
  else if c = 63 then some 63
  else if c = 96 then some 96
  else if c = 34 then some 34
  else if c = 39 then some 39
  else if c = 92 then some 92
  else none

/-- `*d++ = '\\'; *d = c;` followed by the common `d++; s++`, with `s` the
index of the character after the backslash. -/
def keepEscape (L : Limits) (m : List Nat) (d s c : Nat) : Res UState :=
  (wr L m d 92).bind fun m1 =>
  (wr L m1 (d + 1) c).bind fun m2 =>
  .ok { mem := m2, d := d + 2, s := s + 1 }

/-- The `\u` and `\U` cases with `n` hex digits: `s` is the index of the
letter `c`. -/
def unicodeEscape (L : Limits) (m : List Nat) (d s c n : Nat) : Res UState :=
  (allHex L m (s + 1) n).bind fun hex =>
  if hex then
    (rds L m (s + 1) n).bind fun digits =>
    let u := wc_to_utf8str (tohex digits)
    (wrs L m d u).bind fun m1 =>
    if u.length ≠ 0 then
      .ok { mem := m1, d := d + (u.length - 1) + 1, s := s + n + 1 }
    else
      keepEscape L m1 d s c
  else
    keepEscape L m d s c

/-- The inner `switch (*++s)`, `s` already incremented, up to and including
the `d++; s++` that end the iteration. -/
def unescEscape (L : Limits) (m : List Nat) (d s : Nat) : Res UState :=
  (rd L m s).bind fun c =>
  if c = 10 ∨ c = 13 then
    -- `--d`, then the common `d++`
    .ok { mem := m, d := d, s := s + 1 }
  else match escByte c with
  | some b => (wr L m d b).bind fun m1 => .ok { mem := m1, d := d + 1, s := s + 1 }
  | none =>
    if isodigit c then
      -- `n = *s - '0'`, then at most two more octal characters
      (rd L m (s + 1)).bind fun c1 =>
      if isodigit c1 then
        (rd L m (s + 2)).bind fun c2 =>
        if isodigit c2 then
          (wr L m d ((((c - 48) * 8 + (c1 - 48)) * 8 + (c2 - 48)) % 256)).bind fun m1 =>
          .ok { mem := m1, d := d + 1, s := s + 3 }
        else
          (wr L m d (((c - 48) * 8 + (c1 - 48)) % 256)).bind fun m1 =>
          .ok { mem := m1, d := d + 1, s := s + 2 }
      else
        (wr L m d ((c - 48) % 256)).bind fun m1 =>
        .ok { mem := m1, d := d + 1, s := s + 1 }
    else if c = 120 then
      (countHex (view L m (s + 1))).bind fun k =>
      if 0 < k then
        (rds L m (s + 1) k).bind fun digits =>
        (wr L m d (tohex digits % 256)).bind fun m1 =>
        .ok { mem := m1, d := d + 1, s := s + k + 1 }
      else
        keepEscape L m d s 120
    else if c = 117 then
      unicodeEscape L m d s 117 4
    else if c = 85 then
      unicodeEscape L m d s 85 6
    else
      -- `*d++ = '\\'; *d = *s;`
      (wr L m d 92).bind fun m1 =>
      (rd L m1 s).bind fun c' =>
      (wr L m1 (d + 1) c').bind fun m2 =>
      .ok { mem := m2, d := d + 2, s := s + 1 }

/-- One iteration of the `while(*s)` loop: the outer `switch (*s)` and the
`d++; s++` after it. -/
def unescBody (L : Limits) (st : UState) : Res UState :=
  (rd L st.mem st.s).bind fun c =>
  if c = 92 then
    unescEscape L st.mem st.d (st.s + 1)
  else
    (wr L st.mem st.d c).bind fun m1 =>
    .ok { mem := m1, d := st.d + 1, s := st.s + 1 }

/-- The loop `while(*s) { ... }` and the final `*d = *s`, with an iteration
budget. -/
def unescLoop (L : Limits) : Nat → UState → Res UState
  | 0, _ => .fault .outOfFuel
  | fuel + 1, st =>
    (rd L st.mem st.s).bind fun c =>
    if c = 0 then
      (wr L st.mem st.d c).bind fun m1 => .ok { st with mem := m1 }
    else
      (unescBody L st).bind fun st1 => unescLoop L fuel st1

/-- `cfg_unescapeu(d, s)` on memory `m`: the final state, whose `d` is the
index of the terminator the function wrote. Every iteration advances `s`,
so `L.slim + 1` iterations are enough (`cfg_unescapeu_ne_outOfFuel`). -/
def cfg_unescapeu (L : Limits) (m : List Nat) (d s : Nat) : Res UState :=
  unescLoop L (L.slim + 1) { mem := m, d := d, s := s }

/-- The bytes a run emitted before its terminator: memory from the initial
destination index `d0` up to the final one. -/
def emitted (d0 : Nat) (st : UState) : List Nat :=
  (st.mem.drop d0).take (st.d - d0)

/-- Decoding the source object `src` into a separate destination object of
the same size, placed after it in memory. -/
def decodeSeparate (src : List Nat) : Res (List Nat) :=
  (cfg_unescapeu { slim := src.length, dlim := 2 * src.length }
    (src ++ List.replicate src.length 0) src.length 0).map (emitted src.length)

/-- Decoding the object `src` in place: destination and source are the same
storage. -/
def decodeInPlace (src : List Nat) : Res (List Nat) :=
  (cfg_unescapeu { slim := src.length, dlim := src.length } src 0 0).map (emitted 0)

/-- The codec's `decode`: `cfg_unescapeu` applied to the NUL-terminated
string with content `x`, the source object being exactly `x` and its
terminator. -/
def decode (x : List Nat) : Res (List Nat) := decodeSeparate (x ++ [0])

/-! ### The same pass, on the bytes still to be read

`escView`, `iterView` and `scanView` compute what one escape, one iteration
and the whole loop emit and consume, from the bytes of the source object
that lie at and after the source pointer.  `unescLoop_eq_scanView` shows
that the memory machine above computes exactly this, whether or not the
destination shares storage with the source. -/

/-- The list form of `allHex`. -/
def allHexL : List Nat → Nat → Res Bool
  | _, 0 => .ok true
  | [], _ + 1 => .fault .srcOverrun
  | c :: cs, n + 1 => if isxdigit c then allHexL cs n else .ok false

/-- The list form of `unicodeEscape`: `t` are the bytes after the letter `c`. -/
def uniView (t : List Nat) (c n : Nat) : Res (List Nat × Nat) :=
  (allHexL t n).bind fun hex =>
  if hex then
    let u := wc_to_utf8str (tohex (t.take n))
    if u.length ≠ 0 then .ok (u, n + 1) else .ok ([92, c], 1)
  else .ok ([92, c], 1)

/-- The list form of `unescEscape`: the bytes emitted and the number of
bytes consumed, `t` being the bytes after the backslash. -/
def escView (t : List Nat) : Res (List Nat × Nat) :=
  match t with
  | [] => .fault .srcOverrun
  | c :: t1 =>
    if c = 10 ∨ c = 13 then .ok ([], 1)
    else match escByte c with
    | some b => .ok ([b], 1)
    | none =>
      if isodigit c then
        match t1 with
        | [] => .fault .srcOverrun
        | c1 :: t2 =>
          if isodigit c1 then
            match t2 with
            | [] => .fault .srcOverrun
            | c2 :: _ =>
              if isodigit c2 then
                .ok ([(((c - 48) * 8 + (c1 - 48)) * 8 + (c2 - 48)) % 256], 3)
              else .ok ([((c - 48) * 8 + (c1 - 48)) % 256], 2)
          else .ok ([(c - 48) % 256], 1)
      else if c = 120 then
        (countHex t1).bind fun k =>
        if 0 < k then .ok ([tohex (t1.take k) % 256], k + 1) else .ok ([92, 120], 1)
      else if c = 117 then uniView t1 117 4
      else if c = 85 then uniView t1 85 6
      else .ok ([92, c], 1)

/-- The list form of `unescBody`. -/
def iterView (v : List Nat) : Res (List Nat × Nat) :=
  match v with
  | [] => .fault .srcOverrun
  | c :: t =>
    if c = 92 then (escView t).bind fun r => .ok (r.1, r.2 + 1)
    else .ok ([c], 1)

/-- The list form of `unescLoop`: all bytes emitted before the terminator. -/
def scanView : Nat → List Nat → Res (List Nat)
  | 0, _ => .fault .outOfFuel
  | _ + 1, [] => .fault .srcOverrun
  | fuel + 1, c :: t =>
    if c = 0 then .ok []
    else (iterView (c :: t)).bind fun r =>
      (scanView fuel ((c :: t).drop r.2)).bind fun out => .ok (r.1 ++ out)

/-- Memory `m` with the bytes `bs` stored from index `i` on. -/
def blit (m : List Nat) (i : Nat) : List Nat → List Nat
  | [] => m
  | b :: bs => blit (m.set i b) (i + 1) bs

/-- What the pass emits before its terminator, from the bytes of the source
object at and after the source pointer. -/
def scan (v : List Nat) : Res (List Nat) := scanView (v.length + 1) v

/-- The invariant of the loop of `cfg_unescapeu`: both objects lie in
memory, the destination has room for what is left of the source, and the
destination index is at most the source index unless the destination lies
outside the source object. -/
def Inv (L : Limits) (st : UState) : Prop :=
  L.dlim ≤ st.mem.length ∧ L.slim ≤ st.mem.length ∧
  st.d + (L.slim - st.s) ≤ L.dlim ∧ (st.d ≤ st.s ∨ L.slim ≤ st.d)

/-- States at the head of the `while(*s)` loop: the state after `k` complete
iterations, if the loop runs that long. -/
def loopHead (L : Limits) : Nat → UState → Option UState
  | 0, st => some st
  | k + 1, st =>
    match rd L st.mem st.s with
    | .ok c =>
      if c = 0 then none
      else match unescBody L st with
        | .ok st1 => loopHead L k st1
        | .fault _ => none
    | .fault _ => none

/-! ### Reference notions the claims are stated with -/

/-- The value of one hexadecimal digit character. -/
def hexVal (c : Nat) : Nat :=
  if 48 ≤ c ∧ c ≤ 57 then c - 48 else if 97 ≤ c ∧ c ≤ 102 then c - 87 else c - 55

/-- The base-16 value of a digit string, most significant digit first. -/
def hexValue (h : List Nat) : Nat := h.foldl (fun acc c => acc * 16 + hexVal c) 0

/-- The base-8 value of a digit string, most significant digit first. -/
def octValue (o : List Nat) : Nat := o.foldl (fun acc c => acc * 8 + (c - 48)) 0

/-- All characters are hexadecimal digits. -/
def AllHex (h : List Nat) : Prop := ∀ c ∈ h, isxdigit c = true

/-- All characters are octal digits. -/
def AllOct (o : List Nat) : Prop := ∀ c ∈ o, isodigit c = true

/-- The text does not start with a character of the given class. -/
def NotStartsWith (p : Nat → Bool) (rest : List Nat) : Prop :=
  ∀ c, rest.head? = some c → p c = false

/-- UTF-8 by arithmetic, as in RFC 3629 (one to four bytes) and its
predecessor RFC 2279 (five and six bytes, up to 31 bits): a lead byte that
carries the top bits, then continuation bytes `0x80 + ` six bits each. -/
def utf8Std (wc : Nat) : List Nat :=
  if wc < 0x80 then [wc]
  else if wc < 0x800 then [0xc0 + wc / 64, 0x80 + wc % 64]
  else if wc < 0x10000 then [0xe0 + wc / 4096, 0x80 + wc / 64 % 64, 0x80 + wc % 64]
  else if wc < 0x200000 then
    [0xf0 + wc / 262144, 0x80 + wc / 4096 % 64, 0x80 + wc / 64 % 64, 0x80 + wc % 64]
  else if wc < 0x4000000 then
    [0xf8 + wc / 16777216, 0x80 + wc / 262144 % 64, 0x80 + wc / 4096 % 64,
     0x80 + wc / 64 % 64, 0x80 + wc % 64]
  else if wc < 0x80000000 then
    [0xfc + wc / 1073741824, 0x80 + wc / 16777216 % 64, 0x80 + wc / 262144 % 64,
     0x80 + wc / 4096 % 64, 0x80 + wc / 64 % 64, 0x80 + wc % 64]
  else []

/-- The table of single-character escapes as the specification words it:
what a backslash followed by `c` decodes to. -/
def escTable (c : Nat) : List Nat :=
  if c = 110 then [10]        -- \n
  else if c = 116 then [9]    -- \t
  else if c = 97 then [7]     -- \a
  else if c = 98 then [8]     -- \b
  else if c = 102 then [12]   -- \f
  else if c = 114 then [13]   -- \r
  else if c = 118 then [11]   -- \v
  else if c = 101 then [27]   -- \e
  else if c = 63 ∨ c = 96 ∨ c = 34 ∨ c = 39 ∨ c = 92 then [c]
  else if c = 10 ∨ c = 13 then []
  else [92, c]

/-! ## `cfg_escape` -/

/-- The size of `buf` in `cfg_escape`: `50*1024` bytes. -/
def escBufSize : Nat := 50 * 1024

/-- The value of a byte read through a `char` pointer, `char` being signed. -/
def scharVal (c : Nat) : Int := if c < 128 then (c : Int) else (c : Int) - 256

/-- What `sprintf(d, "\\%03o", c)` prints for `c` below 512: a backslash and
three octal digits. -/
def octalEscape (c : Nat) : List Nat := [92, 48 + c / 64 % 8, 48 + c / 8 % 8, 48 + c % 8]

/-- Append bytes to the buffer (`*d++ = ...`), the buffer being the bytes
stored so far; a store past the end of `buf` is a fault. -/
def store (buf bs : List Nat) : Res (List Nat) :=
  if buf.length + bs.length ≤ escBufSize then .ok (buf ++ bs) else .fault .dstOverrun

/-- The `switch(*s)` of `cfg_escape` for the character `c`: the characters
it stores, and whether it prints them with `sprintf` (the `default` case
for control characters). -/
def escapeChar (c : Nat) : List Nat × Bool :=
  if c = 10 then ([92, 110], false)
  else if c = 9 then ([92, 116], false)
  else if c = 7 then ([92, 97], false)
  else if c = 8 then ([92, 98], false)
  else if c = 12 then ([92, 102], false)
  else if c = 13 then ([92, 114], false)
  else if c = 11 then ([92, 118], false)
  else if c = 34 then ([92, 34], false)
  else if c = 0x7f ∨ (0 ≤ scharVal c ∧ scharVal c < 32) then (octalEscape c, true)
  else ([c], false)

/-- One iteration of the loop of `cfg_escape`. `sprintf` also stores a
terminator after its characters; `d += strlen(d)` then steps over the
characters only. -/
def escapeStep (buf : List Nat) (c : Nat) : Res (List Nat) :=
  if (escapeChar c).2 then
    (store buf ((escapeChar c).1 ++ [0])).bind fun b =>
      .ok (b.take (buf.length + (escapeChar c).1.length))
  else store buf (escapeChar c).1

/-- The loop `for(; *s && d-buf < sizeof buf-7; s++)`, on the bytes at `s`
(the end of the list standing for the terminator). -/
def escapeLoop : List Nat → List Nat → Res (List Nat)
  | [], buf => .ok buf
  | c :: s, buf =>
    if c ≠ 0 ∧ buf.length < escBufSize - 7 then
      (escapeStep buf c).bind fun b => escapeLoop s b
    else .ok buf

/-- The C string at the start of a buffer: the bytes before its first NUL. -/
def cstr (buf : List Nat) : List Nat := buf.takeWhile (fun c => c != 0)

/-- `cfg_escape(s)`: the string `cfg_strdup` copies out of `buf`. -/
def cfg_escape (s : List Nat) : Res (List Nat) :=
  (store [] [34]).bind fun b0 =>
  (escapeLoop s b0).bind fun b1 =>
  (store b1 [34]).bind fun b2 =>
  (store b2 [0]).bind fun b3 =>
  .ok (cstr b3)

/-- The escaping of one byte as the specification words it. -/
def escapeSpec (c : Nat) : List Nat :=
  if c = 10 then [92, 110]       -- newline: \n
  else if c = 9 then [92, 116]   -- tab: \t
  else if c = 7 then [92, 97]    -- bell: \a
  else if c = 8 then [92, 98]    -- backspace: \b
  else if c = 12 then [92, 102]  -- form feed: \f
  else if c = 13 then [92, 114]  -- carriage return: \r
  else if c = 11 then [92, 118]  -- vertical tab: \v
  else if c = 34 then [92, 34]   -- double quote
  else if c < 32 ∨ c = 0x7f then [92, 48 + c / 64, 48 + c / 8 % 8, 48 + c % 8]
  else [c]

/-! ## `strhash` and `cache_string` -/

/-- The loop of `strhash`:
`while((c = (unsigned char) *str++) && n++ < 20) hash = 33*hash ^ c;` in
32-bit `unsigned` arithmetic, on the bytes at `str` (the end of the list
standing for the terminator). -/
def strhashLoop : List Nat → Nat → Nat → Nat
  | [], hash, _ => hash
  | c :: cs, hash, n =>
    if c ≠ 0 ∧ n < 20 then strhashLoop cs ((33 * hash % 2 ^ 32) ^^^ c) (n + 1) else hash

/-- `strhash(str)`. -/
def strhash (str : List Nat) : Nat := strhashLoop str 5381 0

/-- The number of entries of `hstrings`: `1<<12`. -/
def nBuckets : Nat := 2 ^ 12

/-- The state of the interning cache.  Pointers are natural numbers, `0`
being `NULL`; the string `cfg_strdup` returned at address `a` is
`heap[a - 1]`.  An entry of `hstrings` is `none` for `NULL` and otherwise
the array of slots it points to, whose length is the allocated capacity. -/
structure Cache where
  heap : List (List Nat)
  hstrings : List (Option (List Nat))
  deriving DecidableEq, Repr

/-- The cache before the first call: every entry of `hstrings` is `NULL`. -/
def Cache.empty : Cache := { heap := [], hstrings := List.replicate nBuckets none }

/-- The text `"(NULL)"` that stands for a null argument. -/
def nullText : List Nat := [40, 78, 85, 76, 76, 41]

/-- The loop `for(k=0; hs[k]; k++) if(*p == *hs[k] && !strcmp(p, hs[k])) return hs[k];`
on the slots from index `k` on: the pointer found, or the index of the
first `NULL` slot.  Reading past the last slot is a fault. -/
def scanSlots (heap : List (List Nat)) (p : List Nat) : List Nat → Nat → Res (Nat ⊕ Nat)
  | [], _ => .fault .srcOverrun
  | q :: rest, k =>
    if q = 0 then .ok (.inr k)
    else match heap[q - 1]? with
      | none => .fault .srcOverrun
      | some str =>
        if p.headD 0 = str.headD 0 ∧ p = str then .ok (.inl q)
        else scanSlots heap p rest (k + 1)

/-- `realloc` of a slot array to `n` slots: the old slots are kept, the new
ones hold whatever `junk` the allocator left there. -/
def reallocSlots (junk : Nat → Nat) (hs : List Nat) (n : Nat) : List Nat :=
  (hs ++ (List.range (n - hs.length)).map fun i => junk (hs.length + i)).take n

/-- The store `hstrings[h][i] = v`. -/
def setSlot (arr : List Nat) (i v : Nat) : Res (List Nat) :=
  if i < arr.length then .ok (arr.set i v) else .fault .dstOverrun

/-- `cache_string(p)`: the pointer returned and the cache afterwards.  A
null `p` is `none`. -/
def cache_string (junk : Nat → Nat) (p : Option (List Nat)) (c : Cache) : Res (Nat × Cache) :=
  let p := p.getD nullText
  let h := strhash p % nBuckets
  -- `if(!(hs=hstrings[h])) hs = hstrings[h] = cfg_realloc(NULL, (16+1)*...)`, which is `calloc`
  let hs := (c.hstrings.getD h none).getD (List.replicate (16 + 1) 0)
  let c1 : Cache := { c with hstrings := c.hstrings.set h (some hs) }
  (scanSlots c1.heap p hs 0).bind fun r =>
  match r with
  | .inl q => .ok (q, c1)
  | .inr k =>
    let arr := if k ≠ 0 ∧ k % 16 = 0 then reallocSlots junk hs (k + 16 + 1) else hs
    (setSlot arr (k + 1) 0).bind fun arr1 =>
    (setSlot arr1 k (c1.heap.length + 1)).bind fun arr2 =>
    .ok (c1.heap.length + 1,
      { heap := c1.heap ++ [p], hstrings := c1.hstrings.set h (some arr2) })

/-- A sequence of `cache_string` calls: the pointers returned, in order,
and the cache afterwards. -/
def internAll (junk : Nat → Nat) : List (Option (List Nat)) → Cache → Res (List Nat × Cache)
  | [], c => .ok ([], c)
  | p :: ps, c =>
    (cache_string junk p c).bind fun r =>
    (internAll junk ps r.2).bind fun rs => .ok (r.1 :: rs.1, rs.2)

/-- The pointers a slot array holds: its slots before the first `NULL`. -/
def liveOf (arr : List Nat) : List Nat := arr.takeWhile fun q => q != 0

/-- A well-formed slot array of bucket `h`: its pointers are followed by a
`NULL` slot, the capacity is `17 + 16 * floor((k - 1) / 16)` for `k`
pointers, and every pointer is the address of a string whose hash selects
bucket `h`. -/
def BucketOK (heap : List (List Nat)) (h : Nat) (arr : List Nat) : Prop :=
  (∃ rest : List Nat, arr = liveOf arr ++ 0 :: rest) ∧
  arr.length = 17 + 16 * (((liveOf arr).length - 1) / 16) ∧
  ∀ q ∈ liveOf arr, ∃ str, heap[q - 1]? = some str ∧ strhash str % nBuckets = h

/-- The invariant of the cache: 4096 buckets, each of them well formed, no
string allocated twice, and every allocated string reachable from the
bucket its hash selects. -/
def CacheInv (c : Cache) : Prop :=
  c.hstrings.length = nBuckets ∧
  (∀ h arr, c.hstrings[h]? = some (some arr) → BucketOK c.heap h arr) ∧
  c.heap.Nodup ∧
  (∀ a str, c.heap[a]? = some str →
    ∃ arr, c.hstrings[strhash str % nBuckets]? = some (some arr) ∧ a + 1 ∈ liveOf arr)


/-! ## The comment tracker

`cfg_strctcomms` and `cfg_pushedcomms` hold addresses of list objects, and
after `cfg_pop_comms` both hold the same address, so the lists of comment
records live in a store and `ladd` changes the store.  A list of comment
lines has one owner at a time (every assignment that copies `cfg_comms` is
followed by `cfg_comms = NULL`, and a list is not changed once it has been
moved into a record or into `cfg_prologue`), so these lists are values. -/

/-- Modelled from the spec: the list library (`lcreat`, `ladd`, `lfirst`,
`lnext`, `ldata`) is not in `config.c`.  A `LISTID` is `NULL` (`none`) or
the address of a list object. -/
abbrev LISTID := Option Nat

/-- Modelled from the spec: the list objects created so far, in the order
of their creation; the address of a list object is its index. -/
abbrev Store (α : Type) := List (List α)

/-- Modelled from the spec: `lcreat(NULL, 0)` makes a new empty list object
and returns its address. -/
def lcreat {α : Type} (hp : Store α) : Nat × Store α := (hp.length, hp ++ [[]])

/-- Modelled from the spec: `ladd(l, x)` appends `x` at the end of the list
object at address `l`. -/
def ladd {α : Type} : Store α → Nat → α → Store α
  | [], _, _ => []
  | xs :: rest, 0, x => (xs ++ [x]) :: rest
  | xs :: rest, l + 1, x => xs :: ladd rest l x

/-- Modelled from the spec: the data that `lfirst`, `lnext` and `ldata`
walk through in the list `l`, first to last; `none` when `l` is `NULL` or
not the address of a list object. -/
def items {α : Type} (hp : Store α) : LISTID → Option (List α)
  | none => none
  | some l => hp[l]?

/-- Modelled from the spec: a list of comment lines, `NULL` or the lines in
order (the result of `lcreat` followed by calls of `ladd`). -/
abbrev LINES := Option (List String)

/-- Modelled from the spec: the `COMMENT` record of `config.h`, which is not
in `config.c`: the keyword `kw` (`NULL` or a string), the side `rhs`
(`0` before the keyword, `1` to the right of its assignment) and the
comment lines `comms`. -/
structure COMMENT where
  kw : Option String
  rhs : Int
  comms : LINES
  deriving DecidableEq, Repr

/-- The file-scope variables of the comment tracker, and the store of the
lists of comment records. -/
structure Tracker where
  heap : Store (Option COMMENT)
  cfg_comms : LINES
  cfg_prologue : LINES
  lkw : Option String
  lkw_lineno : Int
  cfg_strctcomms : LISTID
  cfg_pushedcomms : LISTID
  cfg_pushed : Bool
  deriving DecidableEq, Repr

/-- The state at program start: every variable is zero, no list exists. -/
def Tracker.init : Tracker :=
  { heap := [], cfg_comms := none, cfg_prologue := none, lkw := none, lkw_lineno := 0,
    cfg_strctcomms := none, cfg_pushedcomms := none, cfg_pushed := false }

/-- The loop of `locate_comment` over the data of the list nodes. -/
def locateFrom (where_ : String) (rhs : Int) : List (Option COMMENT) → Option COMMENT
  | [] => none
  | n :: rest =>
    match n with
    | some c =>
      if rhs = c.rhs ∧ c.kw.isSome ∧ c.kw = some where_ then some c
      else locateFrom where_ rhs rest
    | none => locateFrom where_ rhs rest

/-- `locate_comment(comments, where, rhs)`. -/
def locate_comment (hp : Store (Option COMMENT)) (comments : LISTID) (where_ : String)
    (rhs : Int) : Option COMMENT :=
  match items hp comments with
  | none => none
  | some xs => locateFrom where_ rhs xs

/-- `addcomment(rhs)`. -/
def addcomment (rhs : Int) (st : Tracker) : Tracker :=
  match st.lkw with
  | none => st
  | some k =>
    let node : COMMENT := { rhs := rhs, kw := some k, comms := st.cfg_comms }
    let st1 := { st with cfg_comms := none }
    match st1.cfg_strctcomms with
    | none =>
      let r := lcreat st1.heap
      { st1 with cfg_strctcomms := some r.1, heap := ladd r.2 r.1 (some node) }
    | some l => { st1 with heap := ladd st1.heap l (some node) }

/-- `cfg_capture_prologue()`. -/
def cfg_capture_prologue (st : Tracker) : Tracker :=
  { st with cfg_prologue := st.cfg_comms, cfg_comms := none }

/-- `capture_comment_str(com, lineno)`. -/
def capture_comment_str (com : String) (lineno : Int) (st : Tracker) : Tracker :=
  let l : List String := match st.cfg_comms with
    | none => []
    | some xs => xs
  let st1 := { st with cfg_comms := some (l ++ [com]) }
  if st1.lkw.isSome ∧ st1.lkw_lineno = lineno then addcomment 1 st1 else st1

/-- `capture_lvalue_kw(kw, lineno)`. -/
def capture_lvalue_kw (kw : String) (lineno : Int) (st : Tracker) : Tracker :=
  let st1 :=
    if kw = "memory" then
      if ¬ st.cfg_pushed then
        { st with cfg_pushed := true, cfg_pushedcomms := st.cfg_strctcomms,
                  cfg_strctcomms := none }
      else st
    else st
  let kw1 := if kw = "programmer" ∨ kw = "part" ∨ kw = "memory" then "*" else kw
  let st2 := { st1 with lkw := some kw1, lkw_lineno := lineno }
  if st2.cfg_comms.isSome then addcomment 0 st2 else st2

/-- `cfg_move_comments()`: the returned list and the state after the call. -/
def cfg_move_comments (st : Tracker) : LISTID × Tracker :=
  let st1 := capture_lvalue_kw ";" (-1) st
  (st1.cfg_strctcomms, { st1 with cfg_strctcomms := none })

/-- `cfg_pop_comms()`. -/
def cfg_pop_comms (st : Tracker) : Tracker :=
  if st.cfg_pushed then { st with cfg_pushed := false, cfg_strctcomms := st.cfg_pushedcomms }
  else st

/-- The calls that the lexer and the grammar make into the tracker. -/
inductive Event where
  | comment (text : String) (line : Int)
  | keyword (kw : String) (line : Int)
  | structureEnd
  | prologue
  | memoryEnd
  deriving DecidableEq, Repr

/-- The state after one call. -/
def Event.apply (e : Event) (st : Tracker) : Tracker :=
  match e with
  | .comment text line => capture_comment_str text line st
  | .keyword kw line => capture_lvalue_kw kw line st
  | .structureEnd => (cfg_move_comments st).2
  | .prologue => cfg_capture_prologue st
  | .memoryEnd => cfg_pop_comms st

/-- The state after a sequence of calls. -/
def runEvents : List Event → Tracker → Tracker
  | [], st => st
  | e :: es, st => runEvents es (e.apply st)

/-- The keyword under which `capture_lvalue_kw` records: `*` for the three
structure keywords, the keyword itself otherwise. -/
def normKw (kw : String) : String :=
  if kw = "programmer" ∨ kw = "part" ∨ kw = "memory" then "*" else kw

/-- The comment records of the current structure, `none` when
`cfg_strctcomms` is `NULL`. -/
def Tracker.current (st : Tracker) : Option (List (Option COMMENT)) :=
  items st.heap st.cfg_strctcomms

/-- The comment records of the saved list, `none` when `cfg_pushedcomms` is
`NULL`. -/
def Tracker.saved (st : Tracker) : Option (List (Option COMMENT)) :=
  items st.heap st.cfg_pushedcomms

/-- A `LISTID` is `NULL` or the address of a list object of the store. -/
def handleOK {α : Type} (hp : Store α) : LISTID → Prop
  | none => True
  | some l => l < hp.length

instance {α : Type} (hp : Store α) (l : LISTID) : Decidable (handleOK hp l) := by
  cases l
  · exact instDecidableTrue
  · exact Nat.decLt _ _

/-- Both list variables hold `NULL` or the address of a list object, and
while a save is active the current list is not the saved one. -/
def Tracker.WF (st : Tracker) : Prop :=
  handleOK st.heap st.cfg_strctcomms ∧ handleOK st.heap st.cfg_pushedcomms ∧
  (st.cfg_pushed = true → st.cfg_strctcomms = none ∨ st.cfg_strctcomms ≠ st.cfg_pushedcomms)

instance (st : Tracker) : Decidable st.WF := by
  unfold Tracker.WF
  exact inferInstance

/-- The state `st2` is the state `st` after the record `r` has been added at
the end of the current list and the pending lines have been moved away:
the current list is the old one (a new one if there was none) followed by
`r`, and no other variable and no other list object has changed. -/
structure Attaches (st st2 : Tracker) (r : COMMENT) : Prop where
  current : st2.current = some (st.current.getD [] ++ [some r])
  handle : st2.cfg_strctcomms = some (st.cfg_strctcomms.getD st.heap.length)
  pending : st2.cfg_comms = none
  prologue : st2.cfg_prologue = st.cfg_prologue
  lkw : st2.lkw = st.lkw
  lineno : st2.lkw_lineno = st.lkw_lineno
  pushedcomms : st2.cfg_pushedcomms = st.cfg_pushedcomms
  pushed : st2.cfg_pushed = st.cfg_pushed
  others : ∀ l, l < st.heap.length → st.cfg_strctcomms ≠ some l → st2.heap[l]? = st.heap[l]?
  length : st.heap.length ≤ st2.heap.length ∧ st2.heap.length ≤ st.heap.length + 1

/-- A save is active: the state is well formed, `cfg_pushed` is set, the
saved list is `P` and holds the records `X`. -/
def Saved (P : LISTID) (X : Option (List (Option COMMENT))) (st : Tracker) : Prop :=
  st.WF ∧ st.cfg_pushed = true ∧ st.cfg_pushedcomms = P ∧ st.saved = X

/-! ## `hexnumber` -/

/-- Modelled from the spec: the C library's `isspace` in the "C" locale
(space, `\t`, `\n`, `\v`, `\f`, `\r`), which is not in `config.c`. -/
def isspace (c : Nat) : Bool := c = 32 || (9 ≤ c && c ≤ 13)

/-- Modelled from the spec: the value `strtoul` gives to a digit character
(`0`-`9`, then the letters of either case from 10 on), 36 for every other
character; a character is a digit of base 16 when its value is below 16. -/
def digitValue (c : Nat) : Nat :=
  if 48 ≤ c ∧ c ≤ 57 then c - 48
  else if 97 ≤ c ∧ c ≤ 122 then c - 97 + 10
  else if 65 ≤ c ∧ c ≤ 90 then c - 65 + 10
  else 36

/-- Modelled from the spec: the step of `strtoul` over an optional sign
`+` or `-`, on the characters at the cursor. -/
def skipSign (r : List Nat) : List Nat :=
  if r.head? = some 43 ∨ r.head? = some 45 then r.tail else r

/-- Modelled from the spec: the step of `strtoul` in base 16 over an
optional `0x` or `0X`, which is taken only when a hexadecimal digit follows
it. -/
def skipHexMark (r : List Nat) : List Nat :=
  match r with
  | 48 :: x :: d :: rest => if (x = 120 ∨ x = 88) ∧ digitValue d < 16 then d :: rest else r
  | _ => r

/-- Modelled from the spec: the C library's `strtoul(text, &e, 16)`, which
is not in `config.c`, as ISO C words it: leading white space is skipped, a
sign may follow, then `0x` or `0X`, then the longest run of hexadecimal
digits.  The result is the value and the index of `e` in `text`.  With no
digit nothing is converted: the value is 0 and `e` is `text`.  A value above
`ulongMax` gives `ulongMax`; otherwise a `-` negates the value in the
unsigned type. -/
def strtoul16 (ulongMax : Nat) (text : List Nat) : Nat × Nat :=
  let r1 := text.dropWhile isspace
  let r3 := skipHexMark (skipSign r1)
  let ds := r3.takeWhile fun c => decide (digitValue c < 16)
  if ds = [] then (0, 0)
  else
    let v := ds.foldl (fun acc c => acc * 16 + digitValue c) 0
    let u :=
      if ulongMax < v then ulongMax
      else if r1.head? = some 45 then (ulongMax + 1 - v) % (ulongMax + 1)
      else v
    (u, text.length - (r3.length - ds.length))

/-- The conversion of an `unsigned long` to the `int` member `number`
(32 bits, two's complement). -/
def toInt32 (v : Nat) : Int := ((v + 2 ^ 31) % 2 ^ 32 : Nat) - 2 ^ 31

/-- Modelled from the spec: the token codes of `config_gram.h`, which is not
in `config.c`; only `TKN_NUMBER` and `TKN_STRING` are named here. -/
inductive TokenCode where
  | TKN_NUMBER
  | TKN_STRING
  | other (code : Int)
  deriving DecidableEq, Repr

/-- Modelled from the spec: the value types of `config.h`, which is not in
`config.c`. -/
inductive ValueType where
  | V_NONE
  | V_NUM
  | V_NUM_REAL
  | V_STR
  deriving DecidableEq, Repr

/-- Modelled from the spec: the `TOKEN` of `config.h`, which is not in
`config.c`, with the members `hexnumber` sets: `primary`, `value.type` and
`value.number`. -/
structure TOKEN where
  primary : TokenCode
  type : ValueType
  number : Int
  deriving DecidableEq, Repr

/-- What `yyerror` hands to `avrdude_message`: the file name `cfg_infile`,
the line `cfg_lineno` and the formatted message. -/
structure Diag where
  infile : Option (List Nat)
  lineno : Int
  message : List Nat
  deriving DecidableEq, Repr

/-- `new_token(primary)`: a zeroed token with the given code. -/
def new_token (primary : TokenCode) : TOKEN :=
  { primary := primary, type := .V_NONE, number := 0 }

/-- The bytes of `can't scan hex number "`, the format of `hexnumber` up to
its `%s`. -/
def scanMessageHead : List Nat :=
  [99, 97, 110, 39, 116, 32, 115, 99, 97, 110, 32, 104, 101, 120, 32, 110, 117, 109, 98,
   101, 114, 32, 34]

/-- `yyerror("can't scan hex number \"%s\"", text)`: the message is cut to
the 511 bytes that fit `message[512]`. -/
def yyerror (cfg_infile : Option (List Nat)) (cfg_lineno : Int) (text : List Nat) : Diag :=
  { infile := cfg_infile, lineno := cfg_lineno,
    message := (scanMessageHead ++ text ++ [34]).take 511 }

/-- `hexnumber(text)` for the string `text` (the bytes before its
terminator), with `unsigned long` of `w` bits: the returned token (`none`
for `NULL`) and the errors reported. -/
def hexnumber (w : Nat) (cfg_infile : Option (List Nat)) (cfg_lineno : Int) (text : List Nat) :
    Option TOKEN × List Diag :=
  let tkn := new_token .TKN_NUMBER
  let r := strtoul16 (2 ^ w - 1) text
  let tkn := { tkn with type := .V_NUM, number := toInt32 r.1 }
  if r.2 = 0 ∨ (text ++ [0]).getD r.2 0 ≠ 0 then
    (none, [yyerror cfg_infile cfg_lineno text])
  else (some tkn, [])

/-! ## `cfg_unescape` -/

/-- `cfg_unescape(d, s)`: `cfg_unescapeu` on the same bytes (the casts
between `char *` and `unsigned char *` change no byte). -/
def cfg_unescape (L : Limits) (m : List Nat) (d s : Nat) : Res UState :=
  cfg_unescapeu L m d s
/-! ## The memory machine computes the list form

`cfg_unescapeu_eq_scan`: from every state that satisfies `Inv`, the run of
`cfg_unescapeu` on memory emits what `scan` computes from the bytes of the
source object at and after the source pointer. -/

@[simp] theorem Res.bind_ok {α β : Type} (a : α) (f : α → Res β) : (Res.ok a).bind f = f a := rfl
@[simp] theorem Res.bind_fault {α β : Type} (e : Fault) (f : α → Res β) :
    (Res.fault e : Res α).bind f = .fault e := rfl
@[simp] theorem Res.map_ok {α β : Type} (a : α) (f : α → β) : (Res.ok a).map f = .ok (f a) := rfl
@[simp] theorem Res.map_fault {α β : Type} (e : Fault) (f : α → β) :
    (Res.fault e : Res α).map f = .fault e := rfl

theorem view_succ {L : Limits} {m : List Nat} {s c : Nat} {t : List Nat}
    (h : view L m s = c :: t) : view L m (s + 1) = t := by
  unfold view at *
  rw [← List.tail_drop, h]; rfl

theorem rd_cons {L : Limits} {m : List Nat} {s c : Nat} {t : List Nat}
    (h : view L m s = c :: t) : rd L m s = .ok c := by
  unfold view at h
  have : (List.take L.slim m)[s]? = some c := by
    have := congrArg (fun l => l[0]?) h
    simpa [List.getElem?_drop] using this
  simp [rd, this]

theorem rd_nil {L : Limits} {m : List Nat} {s : Nat}
    (h : view L m s = []) : rd L m s = .fault .srcOverrun := by
  unfold view at h
  have : (List.take L.slim m)[s]? = none := by
    have := congrArg (fun l => l[0]?) h
    simpa [List.getElem?_drop] using this
  simp [rd, this]

theorem view_length (L : Limits) (m : List Nat) (s : Nat) (h : L.slim ≤ m.length) :
    (view L m s).length = L.slim - s := by
  simp [view, List.length_take, Nat.min_eq_left h]

theorem view_set {L : Limits} {m : List Nat} {d s b : Nat} (h : d < s ∨ L.slim ≤ d) :
    view L (m.set d b) s = view L m s := by
  unfold view
  apply List.ext_getElem?
  intro i
  simp only [List.getElem?_drop, List.getElem?_take, List.getElem?_set]
  split
  · rename_i h1
    have : d ≠ s + i := by omega
    simp [this]
  · rfl

theorem wr_ok {L : Limits} {m : List Nat} {d b : Nat} (h1 : d < L.dlim) (h2 : L.dlim ≤ m.length) :
    wr L m d b = .ok (m.set d b) := by
  have : d < m.length := by omega
  simp [wr, h1, this]

theorem rds_view {L : Limits} {m : List Nat} (n : Nat) : ∀ (s : Nat) (v : List Nat),
    view L m s = v → n ≤ v.length → rds L m s n = .ok (v.take n) := by
  induction n with
  | zero => intro s v _ _; simp [rds]
  | succ n ih =>
    intro s v hv hn
    cases v with
    | nil => simp at hn
    | cons c t =>
      simp only [List.length_cons, Nat.add_le_add_iff_right] at hn
      simp [rds, rd_cons hv, ih (s + 1) t (view_succ hv) hn]

theorem allHex_view {L : Limits} {m : List Nat} (n : Nat) : ∀ (s : Nat) (v : List Nat),
    view L m s = v → allHex L m s n = allHexL v n := by
  induction n with
  | zero => intro s v _; cases v <;> simp [allHex, allHexL]
  | succ n ih =>
    intro s v hv
    cases v with
    | nil => simp [allHex, allHexL, rd_nil hv]
    | cons c t =>
      simp only [allHex, allHexL, rd_cons hv, Res.bind_ok]
      rw [ih (s + 1) t (view_succ hv)]

theorem blit_length (bs : List Nat) : ∀ (m : List Nat) (i : Nat), (blit m i bs).length = m.length := by
  induction bs with
  | nil => intro m i; rfl
  | cons b bs ih => intro m i; simp [blit, ih]

theorem blit_append (a : List Nat) : ∀ (m : List Nat) (i : Nat) (b : List Nat),
    blit m i (a ++ b) = blit (blit m i a) (i + a.length) b := by
  induction a with
  | nil => intro m i b; simp [blit]
  | cons x a ih =>
    intro m i b
    show blit (m.set i x) (i + 1) (a ++ b) = blit (blit (m.set i x) (i + 1) a) (i + (a.length + 1)) b
    rw [ih, show i + 1 + a.length = i + (a.length + 1) by omega]

theorem wrs_ok {L : Limits} (bs : List Nat) : ∀ (m : List Nat) (d : Nat),
    d + bs.length ≤ L.dlim → L.dlim ≤ m.length → wrs L m d bs = .ok (blit m d bs) := by
  induction bs with
  | nil => intro m d _ _; rfl
  | cons b bs ih =>
    intro m d h1 h2
    simp only [List.length_cons] at h1
    have hw : wr L m d b = .ok (m.set d b) := wr_ok (by omega) h2
    simp only [wrs, hw, Res.bind_ok, blit]
    exact ih _ _ (by omega) (by simpa using h2)

theorem view_blit {L : Limits} (bs : List Nat) : ∀ (m : List Nat) (d s : Nat),
    (d + bs.length ≤ s ∨ L.slim ≤ d) → view L (blit m d bs) s = view L m s := by
  induction bs with
  | nil => intro m d s _; rfl
  | cons b bs ih =>
    intro m d s h
    simp only [List.length_cons] at h
    simp only [blit]
    rw [ih _ _ _ (by omega), view_set (by omega)]

theorem keepEscape_ok {L : Limits} {m : List Nat} {d s c : Nat}
    (hlen : L.dlim ≤ m.length) (hroom : d + 2 ≤ L.dlim) :
    keepEscape L m d s c = .ok ⟨blit m d [92, c], d + 2, s + 1⟩ := by
  have h1 : wr L m d 92 = .ok (m.set d 92) := wr_ok (by omega) hlen
  have h2 : wr L (m.set d 92) (d + 1) c = .ok ((m.set d 92).set (d + 1) c) :=
    wr_ok (by omega) (by simpa using hlen)
  simp [keepEscape, h1, h2, blit]

theorem allHexL_true_length : ∀ (n : Nat) (t : List Nat), allHexL t n = .ok true → n ≤ t.length := by
  intro n
  induction n with
  | zero => intro t _; exact Nat.zero_le _
  | succ n ih =>
    intro t h
    cases t with
    | nil => simp [allHexL] at h
    | cons c cs =>
      simp only [allHexL] at h
      split at h
      · have := ih cs h
        simp only [List.length_cons]; omega
      · simp at h

theorem countHex_le : ∀ (t : List Nat) (k : Nat), countHex t = .ok k → k < t.length := by
  intro t
  induction t with
  | nil => intro k h; simp [countHex] at h
  | cons c cs ih =>
    intro k h
    simp only [countHex] at h
    split at h
    · cases hc : countHex cs with
      | ok k1 =>
        rw [hc] at h
        simp only [Res.bind_ok, Res.ok.injEq] at h
        have := ih k1 hc
        simp only [List.length_cons]; omega
      | fault e => rw [hc] at h; simp at h
    · simp only [Res.ok.injEq] at h
      simp only [List.length_cons]; omega

theorem wc_to_utf8str_length_le (wc : Nat) : (wc_to_utf8str wc).length ≤ 6 := by
  unfold wc_to_utf8str
  split_ifs <;> simp

theorem unicodeEscape_sim {L : Limits} {m : List Nat} {d s c n : Nat} {t : List Nat}
    (hv : view L m (s + 1) = t) (hlen : L.dlim ≤ m.length)
    (hroom : d + 2 + t.length ≤ L.dlim)
    (hn4 : 4 ≤ n) :
    unicodeEscape L m d s c n
      = (uniView t c n).bind fun r => .ok ⟨blit m d r.1, d + r.1.length, s + r.2⟩ := by
  unfold unicodeEscape uniView
  rw [allHex_view n (s + 1) t hv]
  cases hA : allHexL t n with
  | fault e => simp
  | ok hex =>
    cases hex with
    | false => simp [keepEscape_ok hlen (show d + 2 ≤ L.dlim by omega)]
    | true =>
      have hn := allHexL_true_length n t hA
      simp only [Res.bind_ok, if_true, rds_view n (s + 1) t hv hn]
      have hul := wc_to_utf8str_length_le (tohex (t.take n))
      rw [wrs_ok _ _ _ (by omega) hlen]
      simp only [Res.bind_ok]
      split
      · rename_i h0
        simp only [Res.bind_ok]
        congr 2
        omega
      · rename_i h0
        have h0' : wc_to_utf8str (tohex (t.take n)) = [] := by
          simpa using h0
        simp [h0', blit, keepEscape_ok hlen (show d + 2 ≤ L.dlim by omega)]

theorem unescEscape_sim {L : Limits} {m : List Nat} {d s : Nat} {t : List Nat}
    (hv : view L m s = t) (hlen : L.dlim ≤ m.length)
    (hroom : d + 1 + t.length ≤ L.dlim) (hdis : d < s ∨ L.slim ≤ d) :
    unescEscape L m d s
      = (escView t).bind fun r => .ok ⟨blit m d r.1, d + r.1.length, s + r.2⟩ := by
  cases t with
  | nil => simp [unescEscape, escView, rd_nil hv]
  | cons c t1 =>
    have hv1 := view_succ hv
    simp only [List.length_cons] at hroom
    have hw : ∀ b, wr L m d b = .ok (m.set d b) := fun b => wr_ok (by omega) hlen
    simp only [unescEscape, escView, rd_cons hv, Res.bind_ok]
    by_cases hnl : c = 10 ∨ c = 13
    · simp [hnl, blit]
    · simp only [hnl, if_false]
      cases hE : escByte c with
      | some b => simp [hw, blit]
      | none =>
        simp only []
        by_cases ho : isodigit c = true
        · simp only [ho, if_true]
          cases t1 with
          | nil => simp [rd_nil hv1]
          | cons c1 t2 =>
            have hv2 := view_succ hv1
            simp only [rd_cons hv1, Res.bind_ok]
            by_cases ho1 : isodigit c1 = true
            · simp only [ho1, if_true]
              cases t2 with
              | nil => simp [rd_nil hv2]
              | cons c2 t3 =>
                simp only [rd_cons hv2, Res.bind_ok]
                by_cases ho2 : isodigit c2 = true
                · simp [ho2, hw, blit]
                · simp [ho2, hw, blit]
            · simp [ho1, hw, blit]
        · simp only [ho, if_false]
          by_cases hx : c = 120
          · simp only [hx, if_true, hv1]
            cases hC : countHex t1 with
            | fault e => simp
            | ok k =>
              have hk := countHex_le t1 k hC
              simp only [Res.bind_ok]
              by_cases hk0 : 0 < k
              · simp only [hk0, if_true, rds_view k (s + 1) t1 hv1 (by omega), Res.bind_ok, hw]
                simp [blit]; omega
              · simp [hk0, keepEscape_ok hlen (show d + 2 ≤ L.dlim by omega)]
          · simp only [hx, if_false]
            by_cases hu : c = 117
            · simp only [hu, if_true]
              exact unicodeEscape_sim hv1 hlen (by omega) (by omega)
            · simp only [hu, if_false]
              by_cases hU : c = 85
              · simp only [hU, if_true]
                exact unicodeEscape_sim hv1 hlen (by omega) (by omega)
              · simp only [hU, if_false, hw, Res.bind_ok]
                have hvs : view L (m.set d 92) s = c :: t1 := by rw [view_set hdis]; exact hv
                have hw2 : wr L (m.set d 92) (d + 1) c = .ok ((m.set d 92).set (d + 1) c) :=
                  wr_ok (by omega) (by simpa using hlen)
                simp [rd_cons hvs, hw2, blit]

theorem unescBody_sim {L : Limits} {st : UState} {v : List Nat}
    (hv : view L st.mem st.s = v) (hlen : L.dlim ≤ st.mem.length)
    (hroom : st.d + v.length ≤ L.dlim) (hdis : st.d ≤ st.s ∨ L.slim ≤ st.d) :
    unescBody L st
      = (iterView v).bind fun r =>
          .ok ⟨blit st.mem st.d r.1, st.d + r.1.length, st.s + r.2⟩ := by
  cases v with
  | nil => simp [unescBody, iterView, rd_nil hv]
  | cons c t =>
    simp only [List.length_cons] at hroom
    simp only [unescBody, iterView, rd_cons hv, Res.bind_ok]
    by_cases hc : c = 92
    · simp only [hc, if_true]
      rw [unescEscape_sim (view_succ hv) hlen (by omega) (by omega)]
      cases escView t with
      | fault e => simp
      | ok r => simp; omega
    · simp only [hc, if_false]
      rw [wr_ok (by omega) hlen]
      simp [blit]

theorem uniView_bounds {t : List Nat} {c n : Nat} {r : List Nat × Nat} (hn4 : 4 ≤ n)
    (h : uniView t c n = .ok r) : 1 ≤ r.2 ∧ r.2 ≤ t.length + 1 ∧ r.1.length ≤ r.2 + 1 := by
  unfold uniView at h
  cases hA : allHexL t n with
  | fault e => rw [hA] at h; simp at h
  | ok hex =>
    rw [hA] at h
    cases hex with
    | false => simp at h; subst h; simp
    | true =>
      have hn := allHexL_true_length n t hA
      have hl := wc_to_utf8str_length_le (tohex (t.take n))
      simp only [Res.bind_ok, if_true] at h
      split at h
      · simp only [Res.ok.injEq] at h; subst h
        simp only
        omega
      · simp at h; subst h; simp

theorem escView_bounds {t : List Nat} {r : List Nat × Nat}
    (h : escView t = .ok r) : 1 ≤ r.2 ∧ r.2 ≤ t.length ∧ r.1.length ≤ r.2 + 1 := by
  unfold escView at h
  split at h
  · simp at h
  · rename_i c t1
    simp only [List.length_cons]
    split at h
    · simp at h; subst h; simp
    · split at h
      · simp at h; subst h; simp
      · split at h
        · split at h
          · simp at h
          · rename_i c1 t2
            split at h
            · split at h
              · simp at h
              · split at h <;> (simp at h; subst h; simp)
            · simp at h; subst h; simp
        · split at h
          · cases hC : countHex t1 with
            | fault e => rw [hC] at h; simp at h
            | ok k =>
              have := countHex_le t1 k hC
              rw [hC] at h
              simp only [Res.bind_ok] at h
              split at h <;> (simp at h; subst h; simp; try omega)
          · split at h
            · have := uniView_bounds (by omega) h; omega
            · split at h
              · have := uniView_bounds (by omega) h; omega
              · simp at h; subst h; simp

theorem iterView_bounds {v : List Nat} {r : List Nat × Nat}
    (h : iterView v = .ok r) : 1 ≤ r.2 ∧ r.2 ≤ v.length ∧ r.1.length ≤ r.2 := by
  unfold iterView at h
  split at h
  · simp at h
  · rename_i c t
    simp only [List.length_cons]
    split at h
    · cases hE : escView t with
      | fault e => rw [hE] at h; simp at h
      | ok r1 =>
        have := escView_bounds hE
        rw [hE] at h
        simp at h; subst h; simp; omega
    · simp at h; subst h; simp

theorem view_add (L : Limits) (m : List Nat) (s j : Nat) :
    view L m (s + j) = (view L m s).drop j := by
  simp [view, List.drop_drop, Nat.add_comm]

theorem unescLoop_eq_scanView (L : Limits) : ∀ (fuel : Nat) (st : UState), Inv L st →
    (unescLoop L fuel st).map (fun st1 => (st1.mem, st1.d))
      = (scanView fuel (view L st.mem st.s)).map
          fun out => (blit st.mem st.d (out ++ [0]), st.d + out.length) := by
  intro fuel
  induction fuel with
  | zero => intro st _; simp [unescLoop, scanView]
  | succ fuel ih =>
    intro st hI
    obtain ⟨hd, hs, hroom, hdis⟩ := hI
    have hvl := view_length L st.mem st.s hs
    cases hv : view L st.mem st.s with
    | nil => simp [unescLoop, scanView, rd_nil hv]
    | cons c t =>
      rw [hv] at hvl
      simp only [List.length_cons] at hvl
      simp only [unescLoop, scanView, rd_cons hv, Res.bind_ok]
      by_cases hc : c = 0
      · simp only [hc, if_true]
        rw [wr_ok (by omega) hd]
        simp [blit]
      · simp only [hc, if_false]
        rw [unescBody_sim hv hd (by simp only [List.length_cons]; omega) hdis]
        cases hit : iterView (c :: t) with
        | fault e => simp
        | ok r =>
          obtain ⟨h1, h2, h3⟩ := iterView_bounds hit
          simp only [List.length_cons] at h2
          simp only [Res.bind_ok]
          have hI1 : Inv L ⟨blit st.mem st.d r.1, st.d + r.1.length, st.s + r.2⟩ := by
            refine ⟨?_, ?_, ?_, ?_⟩
            · simpa [blit_length] using hd
            · simpa [blit_length] using hs
            · simp only; omega
            · simp only; omega
          rw [ih _ hI1]
          simp only
          rw [view_blit _ _ _ _ (by omega), view_add, hv]
          cases scanView fuel (List.drop r.2 (c :: t)) with
          | fault e => simp
          | ok out =>
            simp only [Res.bind_ok, Res.map_ok]
            simp only [List.append_assoc, blit_append, List.length_append, Nat.add_assoc]

theorem scanView_fuel : ∀ (f g : Nat) (v : List Nat), v.length + 1 ≤ f → v.length + 1 ≤ g →
    scanView f v = scanView g v := by
  intro f
  induction f with
  | zero => intro g v h _; omega
  | succ f ih =>
    intro g v hf hg
    cases g with
    | zero => omega
    | succ g =>
      cases v with
      | nil => rfl
      | cons c t =>
        simp only [scanView]
        split
        · rfl
        · cases hit : iterView (c :: t) with
          | fault e => rfl
          | ok r =>
            obtain ⟨h1, h2, _⟩ := iterView_bounds hit
            simp only [List.length_cons] at h2 hf hg
            simp only [Res.bind_ok]
            rw [ih g (List.drop r.2 (c :: t))
              (by simp only [List.length_drop, List.length_cons]; omega)
              (by simp only [List.length_drop, List.length_cons]; omega)]

theorem scan_nil : scan [] = .fault .srcOverrun := rfl

theorem scan_zero (t : List Nat) : scan (0 :: t) = .ok [] := by
  simp [scan, scanView]

theorem scan_step {v : List Nat} {c : Nat} {t : List Nat} (hv : v = c :: t) (hc : c ≠ 0) :
    scan v = (iterView v).bind fun r => (scan (v.drop r.2)).bind fun out => .ok (r.1 ++ out) := by
  subst hv
  simp only [scan, List.length_cons, scanView, hc, if_false]
  cases hit : iterView (c :: t) with
  | fault e => rfl
  | ok r =>
    obtain ⟨h1, h2, _⟩ := iterView_bounds hit
    simp only [List.length_cons] at h2
    simp only [Res.bind_ok]
    rw [scanView_fuel (t.length + 1) ((List.drop r.2 (c :: t)).length + 1) _
      (by simp only [List.length_drop, List.length_cons]; omega) (Nat.le_refl _)]

theorem countHex_fault {t : List Nat} {e : Fault} (h : countHex t = .fault e) :
    e = .srcOverrun := by
  induction t with
  | nil => simp [countHex] at h; exact h.symm
  | cons c cs ih =>
    simp only [countHex] at h
    split at h
    · cases hc : countHex cs with
      | ok k => rw [hc] at h; simp at h
      | fault e1 => rw [hc] at h; simp at h; subst h; exact ih hc
    · simp at h

theorem allHexL_fault : ∀ (n : Nat) (t : List Nat) (e : Fault), allHexL t n = .fault e →
    e = .srcOverrun := by
  intro n
  induction n with
  | zero => intro t e h; simp [allHexL] at h
  | succ n ih =>
    intro t e h
    cases t with
    | nil => simp [allHexL] at h; exact h.symm
    | cons c cs =>
      simp only [allHexL] at h
      split at h
      · exact ih cs e h
      · simp at h

theorem uniView_fault {t : List Nat} {c n : Nat} {e : Fault} (h : uniView t c n = .fault e) :
    e = .srcOverrun := by
  unfold uniView at h
  cases hA : allHexL t n with
  | fault e1 => rw [hA] at h; simp at h; subst h; exact allHexL_fault n t _ hA
  | ok hex =>
    rw [hA] at h
    simp only [Res.bind_ok] at h
    split at h
    · split at h <;> simp at h
    · simp at h

theorem escView_fault {t : List Nat} {e : Fault} (h : escView t = .fault e) :
    e = .srcOverrun := by
  unfold escView at h
  split at h
  · simp at h; exact h.symm
  · rename_i c t1
    split at h
    · simp at h
    · split at h
      · simp at h
      · split at h
        · split at h
          · simp at h; exact h.symm
          · split at h
            · split at h
              · simp at h; exact h.symm
              · split at h <;> simp at h
            · simp at h
        · split at h
          · cases hC : countHex t1 with
            | fault e1 => rw [hC] at h; simp at h; subst h; exact countHex_fault hC
            | ok k =>
              rw [hC] at h
              simp only [Res.bind_ok] at h
              split at h <;> simp at h
          · split at h
            · exact uniView_fault h
            · split at h
              · exact uniView_fault h
              · simp at h

theorem iterView_fault {v : List Nat} {e : Fault} (h : iterView v = .fault e) :
    e = .srcOverrun := by
  unfold iterView at h
  split at h
  · simp at h; exact h.symm
  · split at h
    · rename_i c t _
      cases hE : escView t with
      | fault e1 => rw [hE] at h; simp at h; subst h; exact escView_fault hE
      | ok r => rw [hE] at h; simp at h
    · simp at h

theorem scan_ne_outOfFuel : ∀ (n : Nat) (v : List Nat), v.length ≤ n →
    scan v ≠ .fault .outOfFuel := by
  intro n
  induction n with
  | zero =>
    intro v hv
    have : v = [] := List.eq_nil_of_length_eq_zero (by omega)
    subst this; simp [scan_nil]
  | succ n ih =>
    intro v hv
    cases v with
    | nil => simp [scan_nil]
    | cons c t =>
      by_cases hc : c = 0
      · subst hc; simp [scan_zero]
      · rw [scan_step rfl hc]
        cases hit : iterView (c :: t) with
        | fault e =>
          have : e = .srcOverrun := iterView_fault hit
          subst this; simp
        | ok r =>
          obtain ⟨h1, h2, _⟩ := iterView_bounds hit
          simp only [List.length_cons] at h2 hv
          have := ih (List.drop r.2 (c :: t)) (by simp only [List.length_drop, List.length_cons]; omega)
          simp only [Res.bind_ok]
          cases hs : scan (List.drop r.2 (c :: t)) with
          | fault e => rw [hs] at this; simpa using this
          | ok out => simp

theorem scan_length_lt : ∀ (n : Nat) (v out : List Nat), v.length ≤ n →
    scan v = .ok out → out.length < v.length := by
  intro n
  induction n with
  | zero =>
    intro v out hv h
    have : v = [] := List.eq_nil_of_length_eq_zero (by omega)
    subst this; simp [scan_nil] at h
  | succ n ih =>
    intro v out hv h
    cases v with
    | nil => simp [scan_nil] at h
    | cons c t =>
      by_cases hc : c = 0
      · subst hc; simp [scan_zero] at h; subst h; simp
      · rw [scan_step rfl hc] at h
        cases hit : iterView (c :: t) with
        | fault e => rw [hit] at h; simp at h
        | ok r =>
          obtain ⟨h1, h2, h3⟩ := iterView_bounds hit
          rw [hit] at h
          simp only [List.length_cons] at h2 hv
          simp only [Res.bind_ok] at h
          cases hs : scan (List.drop r.2 (c :: t)) with
          | fault e => rw [hs] at h; simp at h
          | ok o =>
            have := ih _ o (by simp only [List.length_drop, List.length_cons]; omega) hs
            rw [hs] at h
            simp only [Res.bind_ok, Res.ok.injEq] at h
            subst h
            simp only [List.length_drop, List.length_cons, List.length_append] at *
            omega

theorem blit_getElem? (bs : List Nat) : ∀ (m : List Nat) (d i : Nat),
    (blit m d bs)[i]? =
      if d ≤ i ∧ i < d + bs.length ∧ i < m.length then bs[i - d]? else m[i]? := by
  induction bs with
  | nil =>
    intro m d i
    have : ¬ (d ≤ i ∧ i < d + 0 ∧ i < m.length) := by omega
    simp only [blit, List.length_nil, this, if_false]
  | cons b bs ih =>
    intro m d i
    simp only [blit, ih, List.length_set, List.length_cons, List.getElem?_set]
    by_cases h1 : d + 1 ≤ i ∧ i < d + 1 + bs.length ∧ i < m.length
    · have h2 : d ≤ i ∧ i < d + (bs.length + 1) ∧ i < m.length := by omega
      obtain ⟨k, hk⟩ : ∃ k, i - d = k + 1 := ⟨i - d - 1, by omega⟩
      have hk2 : i - (d + 1) = k := by omega
      simp only [h1, h2, and_self, if_true, hk, hk2, List.getElem?_cons_succ]
    · simp only [h1, if_false]
      by_cases hdi : d = i
      · subst hdi
        by_cases hl : d < m.length
        · simp [hl]
        · have : m[d]? = none := List.getElem?_eq_none (by omega)
          simp [hl, this]
      · have h2 : ¬ (d ≤ i ∧ i < d + (bs.length + 1) ∧ i < m.length) := by omega
        simp only [hdi, h2, if_false]

theorem blit_take_drop (bs : List Nat) (m : List Nat) (d : Nat) (h : d + bs.length ≤ m.length) :
    ((blit m d bs).drop d).take bs.length = bs := by
  apply List.ext_getElem?
  intro i
  simp only [List.getElem?_take, List.getElem?_drop, blit_getElem?]
  by_cases hi : i < bs.length
  · have : d ≤ d + i ∧ d + i < d + bs.length ∧ d + i < m.length := by omega
    simp [hi, this]
  · simp only [hi, if_false]
    exact (List.getElem?_eq_none (by omega)).symm

theorem blit_take_drop_left (a b : List Nat) (m : List Nat) (d : Nat)
    (h : d + (a ++ b).length ≤ m.length) :
    ((blit m d (a ++ b)).drop d).take a.length = a := by
  have := blit_take_drop (a ++ b) m d h
  have h2 := congrArg (List.take a.length) this
  simpa [List.take_take] using h2

/-- The memory machine run from a state satisfying the invariant emits
what `scan` computes from the bytes still to be read. -/
theorem cfg_unescapeu_eq_scan (L : Limits) (m : List Nat) (d s : Nat)
    (hI : Inv L ⟨m, d, s⟩) :
    (cfg_unescapeu L m d s).map (emitted d) = scan (view L m s) := by
  have hfuel : scanView (L.slim + 1) (view L m s) = scan (view L m s) := by
    apply scanView_fuel
    · rw [view_length L m s hI.2.1]; omega
    · exact Nat.le_refl _
  have hsim := unescLoop_eq_scanView L (L.slim + 1) ⟨m, d, s⟩ hI
  rw [hfuel] at hsim
  unfold cfg_unescapeu
  cases hs : scan (view L m s) with
  | fault e =>
    rw [hs] at hsim
    cases hl : unescLoop L (L.slim + 1) ⟨m, d, s⟩ with
    | fault e1 => rw [hl] at hsim; simpa using hsim
    | ok st => rw [hl] at hsim; simp at hsim
  | ok out =>
    rw [hs] at hsim
    cases hl : unescLoop L (L.slim + 1) ⟨m, d, s⟩ with
    | fault e1 => rw [hl] at hsim; simp at hsim
    | ok st =>
      rw [hl] at hsim
      simp only [Res.map_ok, Res.ok.injEq, Prod.mk.injEq] at hsim
      obtain ⟨hm, hd⟩ := hsim
      have hlt := scan_length_lt _ _ _ (Nat.le_refl _) hs
      rw [view_length L m s hI.2.1] at hlt
      obtain ⟨h1, h2, h3, h4⟩ := hI
      simp only at h1 h2 h3 h4
      simp only [Res.map_ok, emitted, hm, hd, Nat.add_sub_cancel_left]
      rw [blit_take_drop_left out [0] m d (by simp only [List.length_append, List.length_singleton]; omega)]

theorem decodeSeparate_eq_scan (src : List Nat) : decodeSeparate src = scan src := by
  unfold decodeSeparate
  rw [cfg_unescapeu_eq_scan]
  · simp [view]
  · refine ⟨?_, ?_, ?_, ?_⟩ <;> simp <;> omega

theorem decodeInPlace_eq_scan (src : List Nat) : decodeInPlace src = scan src := by
  unfold decodeInPlace
  rw [cfg_unescapeu_eq_scan]
  · simp [view]
  · refine ⟨?_, ?_, ?_, ?_⟩ <;> simp

/-! ### `decode` unfolded one escape at a time -/

theorem Res.bind_ok_map {α β : Type} (x : Res α) (f : α → β) :
    (x.bind fun a => .ok (f a)) = x.map f := by
  cases x <;> rfl

theorem decode_eq_scan (x : List Nat) : decode x = scan (x ++ [0]) :=
  decodeSeparate_eq_scan _

theorem scan_plain {c : Nat} (t : List Nat) (h0 : c ≠ 0) (h92 : c ≠ 92) :
    scan (c :: t) = (scan t).map (fun out => c :: out) := by
  rw [scan_step rfl h0]
  simp [iterView, h92, Res.bind_ok_map]

theorem scan_escape {t bs : List Nat} {j : Nat} (h : escView t = .ok (bs, j)) :
    scan (92 :: t) = (scan (t.drop j)).map (fun out => bs ++ out) := by
  rw [scan_step rfl (by decide)]
  simp [iterView, h, Res.bind_ok_map]

theorem scan_escape_fault {t : List Nat} {e : Fault} (h : escView t = .fault e) :
    scan (92 :: t) = .fault e := by
  rw [scan_step rfl (by decide)]
  simp [iterView, h]

theorem allHexL_append {h : List Nat} (hh : AllHex h) (t : List Nat) :
    allHexL (h ++ t) h.length = .ok true := by
  induction h with
  | nil => cases t <;> rfl
  | cons c cs ih =>
    have hc : isxdigit c = true := hh c (List.mem_cons_self _ _)
    simp only [List.cons_append, List.length_cons, allHexL, hc, if_true]
    exact ih (fun x hx => hh x (List.mem_cons_of_mem _ hx))

theorem allHexL_false : ∀ (n : Nat) (rest : List Nat),
    ¬ (n ≤ rest.length ∧ AllHex (rest.take n)) → allHexL (rest ++ [0]) n = .ok false := by
  intro n
  induction n with
  | zero => intro rest h; exact absurd ⟨Nat.zero_le _, by intro c hc; simp at hc⟩ h
  | succ n ih =>
    intro rest h
    cases rest with
    | nil => simp [allHexL, isxdigit]
    | cons c cs =>
      simp only [List.cons_append, allHexL]
      by_cases hc : isxdigit c = true
      · simp only [hc, if_true]
        apply ih
        intro ⟨h1, h2⟩
        apply h
        refine ⟨by simp only [List.length_cons]; omega, ?_⟩
        intro x hx
        simp only [List.take_succ_cons, List.mem_cons] at hx
        rcases hx with rfl | hx
        · exact hc
        · exact h2 x hx
      · simp [hc]

theorem countHex_append {h : List Nat} (hh : AllHex h) {t : List Nat}
    (ht : NotStartsWith isxdigit t) : countHex (h ++ t ++ [0]) = .ok h.length := by
  induction h with
  | nil =>
    cases t with
    | nil => simp [countHex, isxdigit]
    | cons c cs =>
      have : isxdigit c = false := ht c rfl
      simp [countHex, this]
  | cons c cs ih =>
    have hc : isxdigit c = true := hh c (List.mem_cons_self _ _)
    have e := ih (fun x hx => hh x (List.mem_cons_of_mem _ hx))
    show countHex (c :: (cs ++ t ++ [0])) = _
    simp only [countHex, hc, if_true, List.length_cons, e, Res.bind_ok]

theorem hexdigit_eq_hexVal {c : Nat} (hc : isxdigit c = true) : hexdigit c = hexVal c := by
  simp only [isxdigit, Bool.or_eq_true, Bool.and_eq_true, decide_eq_true_eq] at hc
  unfold hexdigit hexVal
  split_ifs with h1 h2
  · rfl
  · omega
  · have h3 : 65 ≤ c ∧ c ≤ 70 := by omega
    obtain ⟨k, rfl⟩ : ∃ k, c = 65 + k := ⟨c - 65, by omega⟩
    have : k ≤ 5 := by omega
    interval_cases k <;> rfl

theorem hexVal_lt {c : Nat} (hc : isxdigit c = true) : hexVal c < 16 := by
  simp only [isxdigit, Bool.or_eq_true, Bool.and_eq_true, decide_eq_true_eq] at hc
  unfold hexVal
  split_ifs <;> omega

theorem hexFold_mod (cs : List Nat) : ∀ (a : Nat),
    cs.foldl (fun acc c => acc * 16 + hexVal c) (a % 2 ^ 32) % 2 ^ 32
      = cs.foldl (fun acc c => acc * 16 + hexVal c) a % 2 ^ 32 := by
  induction cs with
  | nil => intro a; simp
  | cons c cs ih =>
    intro a
    simp only [List.foldl_cons]
    rw [← ih (a % 2 ^ 32 * 16 + hexVal c), ← ih (a * 16 + hexVal c)]
    congr 2
    omega

theorem tohexAcc_eq {h : List Nat} (hh : AllHex h) : ∀ (r : Nat), r < 2 ^ 32 →
    tohexAcc r h = h.foldl (fun acc c => acc * 16 + hexVal c) r % 2 ^ 32 := by
  induction h with
  | nil => intro r hr; simpa [tohexAcc] using (Nat.mod_eq_of_lt hr).symm
  | cons c cs ih =>
    intro r hr
    have hc : isxdigit c = true := hh c (List.mem_cons_self _ _)
    simp only [tohexAcc, List.foldl_cons, hexdigit_eq_hexVal hc]
    rw [ih (fun x hx => hh x (List.mem_cons_of_mem _ hx)) _ (Nat.mod_lt _ (by norm_num)),
      hexFold_mod]
    rw [← hexFold_mod cs (r * 16 % 2 ^ 32 + hexVal c), ← hexFold_mod cs (r * 16 + hexVal c)]
    congr 2
    omega

/-- On hexadecimal digits `tohex` is the base-16 value modulo `2^32`. -/
theorem tohex_eq_hexValue {h : List Nat} (hh : AllHex h) : tohex h = hexValue h % 2 ^ 32 :=
  tohexAcc_eq hh 0 (by norm_num)

theorem hexFold_lt (cs : List Nat) (hh : AllHex cs) : ∀ (a b : Nat), a < b →
    cs.foldl (fun acc c => acc * 16 + hexVal c) a < b * 16 ^ cs.length := by
  induction cs with
  | nil => intro a b h; simpa using h
  | cons c cs ih =>
    intro a b h
    have hc := hexVal_lt (hh c (List.mem_cons_self _ _))
    simp only [List.foldl_cons, List.length_cons]
    have := ih (fun x hx => hh x (List.mem_cons_of_mem _ hx)) (a * 16 + hexVal c) (b * 16) (by omega)
    calc _ < b * 16 * 16 ^ cs.length := this
      _ = b * 16 ^ (cs.length + 1) := by ring

theorem hexValue_lt {h : List Nat} (hh : AllHex h) : hexValue h < 16 ^ h.length := by
  have := hexFold_lt h hh 0 1 (by norm_num)
  simpa [hexValue] using this

/-! ### `wc_to_utf8str` against UTF-8 by arithmetic -/

theorem testBit_hiMask (k i : Nat) (hk : k ≤ 32) :
    (2 ^ 32 - 2 ^ k).testBit i = (decide (i < 32) && !decide (i < k)) := by
  have h1 : 2 ^ k - 1 < 2 ^ 32 := by
    have : 2 ^ k ≤ 2 ^ 32 := Nat.pow_le_pow_right (by norm_num) hk
    have : 0 < 2 ^ k := Nat.two_pow_pos k
    omega
  have h2 := Nat.testBit_two_pow_sub_succ h1 i
  have h3 : 2 ^ k - 1 + 1 = 2 ^ k := by
    have : 0 < 2 ^ k := Nat.two_pow_pos k
    omega
  rw [h3] at h2
  rw [h2, Nat.testBit_two_pow_sub_one]

theorem and_hiMask_eq_zero (wc k : Nat) (hk : k ≤ 32) (hwc : wc < 2 ^ 32) :
    wc &&& (2 ^ 32 - 2 ^ k) = 0 ↔ wc < 2 ^ k := by
  constructor
  · intro h
    by_contra hge
    obtain ⟨i, hi, hbit⟩ := Nat.ge_two_pow_implies_high_bit_true (Nat.le_of_not_lt hge)
    have hi32 : i < 32 := by
      by_contra h32
      have : wc < 2 ^ i := lt_of_lt_of_le hwc (Nat.pow_le_pow_right (by norm_num) (by omega))
      rw [Nat.testBit_lt_two_pow this] at hbit
      exact absurd hbit (by decide)
    have := congrArg (fun x => x.testBit i) h
    simp only [Nat.testBit_and, testBit_hiMask k i hk, hbit, Nat.zero_testBit] at this
    have hik : ¬ i < k := by omega
    simp [hi32, hik] at this
  · intro h
    apply Nat.eq_of_testBit_eq
    intro i
    simp only [Nat.testBit_and, testBit_hiMask k i hk, Nat.zero_testBit]
    by_cases hik : i < k
    · simp [hik]
    · have : wc < 2 ^ i := lt_of_lt_of_le h (Nat.pow_le_pow_right (by norm_num) (by omega))
      simp [Nat.testBit_lt_two_pow this]

theorem cont_byte (a : Nat) : ((a &&& 0x3f) ||| 0x80) % 256 = 0x80 + a % 64 := by
  have h1 : a &&& 0x3f = a % 64 := Nat.and_pow_two_sub_one_eq_mod a 6
  have h2 : ∀ b, b < 64 → (b ||| 0x80) % 256 = 0x80 + b := by decide
  rw [h1]
  exact h2 _ (Nat.mod_lt _ (by norm_num))

/-- For every 32-bit value `wc_to_utf8str` stores the UTF-8 encoding given
by arithmetic, and nothing when bit 31 is set. -/
theorem wc_to_utf8str_eq_utf8Std (wc : Nat) (hwc : wc < 2 ^ 32) :
    wc_to_utf8str wc = utf8Std wc := by
  have m7 := and_hiMask_eq_zero wc 7 (by norm_num) hwc
  have m11 := and_hiMask_eq_zero wc 11 (by norm_num) hwc
  have m16 := and_hiMask_eq_zero wc 16 (by norm_num) hwc
  have m21 := and_hiMask_eq_zero wc 21 (by norm_num) hwc
  have m26 := and_hiMask_eq_zero wc 26 (by norm_num) hwc
  have m31 := and_hiMask_eq_zero wc 31 (by norm_num) hwc
  have e7 : (0xffffffff ^^^ 0x7f) = 2 ^ 32 - 2 ^ 7 := by decide
  have e11 : (0xffffffff ^^^ 0x7ff) = 2 ^ 32 - 2 ^ 11 := by decide
  have e16 : (0xffffffff ^^^ 0xffff) = 2 ^ 32 - 2 ^ 16 := by decide
  have e21 : (0xffffffff ^^^ 0x1fffff) = 2 ^ 32 - 2 ^ 21 := by decide
  have e26 : (0xffffffff ^^^ 0x3ffffff) = 2 ^ 32 - 2 ^ 26 := by decide
  have e31 : (0xffffffff ^^^ 0x7fffffff) = 2 ^ 32 - 2 ^ 31 := by decide
  have l2 : ∀ b, b < 32 → (b ||| 0xc0) % 256 = 0xc0 + b := by decide
  have l3 : ∀ b, b < 16 → (b ||| 0xe0) % 256 = 0xe0 + b := by decide
  have l4 : ∀ b, b < 8 → (b ||| 0xf0) % 256 = 0xf0 + b := by decide
  have l5 : ∀ b, b < 4 → (b ||| 0xf8) % 256 = 0xf8 + b := by decide
  have l6 : ∀ b, b < 2 → (b ||| 0xfc) % 256 = 0xfc + b := by decide
  unfold wc_to_utf8str utf8Std
  simp only [e7, e11, e16, e21, e26, e31, m7, m11, m16, m21, m26, m31, cont_byte,
    Nat.shiftRight_eq_div_pow]
  norm_num
  split_ifs with h1 h2 h3 h4 h5 h6
  · simp; omega
  · simp [l2 (wc / 64) (by omega)]
  · simp [l3 (wc / 4096) (by omega)]
  · simp [l4 (wc / 262144) (by omega)]
  · simp [l5 (wc / 16777216) (by omega)]
  · simp [l6 (wc / 1073741824) (by omega)]
  · rfl

theorem wc_to_utf8str_ne_nil {wc : Nat} (h : wc < 2 ^ 31) : (wc_to_utf8str wc).length ≠ 0 := by
  rw [wc_to_utf8str_eq_utf8Std wc (by omega)]
  unfold utf8Std
  split_ifs <;> simp
  omega

/-! ### `wc_to_utf8str` against the UTF-8 encoder of Lean's library -/

theorem u8_toNat_and (a b : UInt8) : (a &&& b).toNat = a.toNat &&& b.toNat := by
  show (a.toBitVec &&& b.toBitVec).toNat = _
  rw [BitVec.toNat_and]; rfl

theorem u8_toNat_or (a b : UInt8) : (a ||| b).toNat = a.toNat ||| b.toNat := by
  show (a.toBitVec ||| b.toBitVec).toNat = _
  rw [BitVec.toNat_or]; rfl

theorem u32_toUInt8_toNat (v : UInt32) : v.toUInt8.toNat = v.toNat % 256 := by
  show (BitVec.ofNat 8 v.toNat).toNat = _
  simp [BitVec.toNat_ofNat]

theorem u32_toNat_shr (v k : UInt32) (hk : k.toNat < 32) :
    (v >>> k).toNat = v.toNat / 2 ^ k.toNat := by
  show (v.toBitVec >>> (UInt32.mod k 32).toBitVec).toNat = _
  have : (UInt32.mod k 32).toBitVec.toNat = k.toNat := by
    show (k.toBitVec % (32 : UInt32).toBitVec).toNat = _
    rw [BitVec.toNat_umod]
    exact Nat.mod_eq_of_lt hk
  rw [BitVec.ushiftRight_eq', BitVec.toNat_ushiftRight, this, Nat.shiftRight_eq_div_pow]
  rfl

theorem u32_le_iff (v : UInt32) (k : Nat) (hk : k < 2 ^ 32) :
    v ≤ UInt32.ofNat k ↔ v.toNat ≤ k := by
  show v.toBitVec.toNat ≤ (BitVec.ofNat 32 k).toNat ↔ _
  rw [BitVec.toNat_ofNat, Nat.mod_eq_of_lt hk]; rfl

set_option maxRecDepth 100000 in
/-- On every Unicode scalar value (a `Char`) the bytes of `wc_to_utf8str`
are those of the UTF-8 encoder of Lean's library. -/
theorem wc_to_utf8str_eq_utf8EncodeChar (c : Char) :
    wc_to_utf8str c.val.toNat = (String.utf8EncodeChar c).map UInt8.toNat := by
  have hv : c.val.toNat < 0x110000 := by
    rcases c.valid with h | ⟨_, h⟩
    · exact lt_trans h (by norm_num)
    · exact h
  rw [wc_to_utf8str_eq_utf8Std _ (by omega)]
  have h1 := u32_le_iff c.val 0x7f (by norm_num)
  have h2 := u32_le_iff c.val 0x7ff (by norm_num)
  have h3 := u32_le_iff c.val 0xffff (by norm_num)
  have s6 := u32_toNat_shr c.val 6 (by decide)
  have s12 := u32_toNat_shr c.val 12 (by decide)
  have s18 := u32_toNat_shr c.val 18 (by decide)
  have k6 : (6 : UInt32).toNat = 6 := rfl
  have k12 : (12 : UInt32).toNat = 12 := rfl
  have k18 : (18 : UInt32).toNat = 18 := rfl
  rw [k6] at s6; rw [k12] at s12; rw [k18] at s18
  have c1 : (0x1f : UInt8).toNat = 0x1f := rfl
  have c2 : (0x3f : UInt8).toNat = 0x3f := rfl
  have c3 : (0x0f : UInt8).toNat = 0x0f := rfl
  have c4 : (0x07 : UInt8).toNat = 0x07 := rfl
  have c5 : (0xc0 : UInt8).toNat = 0xc0 := rfl
  have c6 : (0x80 : UInt8).toNat = 0x80 := rfl
  have c7 : (0xe0 : UInt8).toNat = 0xe0 := rfl
  have c8 : (0xf0 : UInt8).toNat = 0xf0 := rfl
  have cont : ∀ b, b < 256 → (b &&& 0x3f) ||| 0x80 = 0x80 + b % 64 := by decide
  have l2 : ∀ b, b < 32 → (b &&& 0x1f) ||| 0xc0 = 0xc0 + b := by decide
  have l3 : ∀ b, b < 16 → (b &&& 0x0f) ||| 0xe0 = 0xe0 + b := by decide
  have l4 : ∀ b, b < 8 → (b &&& 0x07) ||| 0xf0 = 0xf0 + b := by decide
  have hm : ∀ n : Nat, n % 256 % 64 = n % 64 := fun n => by omega
  have e1 : (0x7f : UInt32) = UInt32.ofNat 0x7f := rfl
  have e2 : (0x7ff : UInt32) = UInt32.ofNat 0x7ff := rfl
  have e3 : (0xffff : UInt32) = UInt32.ofNat 0xffff := rfl
  unfold String.utf8EncodeChar utf8Std
  simp only [e1, e2, e3, h1, h2, h3]
  by_cases g1 : c.val.toNat ≤ 0x7f
  · have : c.val.toNat < 0x80 := by omega
    simp only [g1, this, if_true, List.map_cons, List.map_nil, u32_toUInt8_toNat]
    rw [Nat.mod_eq_of_lt (by omega)]
  · by_cases g2 : c.val.toNat ≤ 0x7ff
    · have a1 : ¬ c.val.toNat < 0x80 := by omega
      have a2 : c.val.toNat < 0x800 := by omega
      simp only [g1, g2, a1, a2, if_true, if_false, List.map_cons, List.map_nil,
        u8_toNat_or, u8_toNat_and, u32_toUInt8_toNat, s6, c1, c2, c5, c6]
      rw [cont _ (Nat.mod_lt _ (by norm_num)), hm,
        Nat.mod_eq_of_lt (show c.val.toNat / 2 ^ 6 < 256 by omega), l2 _ (by omega)]
      norm_num
    · by_cases g3 : c.val.toNat ≤ 0xffff
      · have a1 : ¬ c.val.toNat < 0x80 := by omega
        have a2 : ¬ c.val.toNat < 0x800 := by omega
        have a3 : c.val.toNat < 0x10000 := by omega
        simp only [g1, g2, g3, a1, a2, a3, if_true, if_false, List.map_cons, List.map_nil,
          u8_toNat_or, u8_toNat_and, u32_toUInt8_toNat, s6, s12, c2, c3, c6, c7]
        rw [cont _ (Nat.mod_lt _ (by norm_num)), cont _ (Nat.mod_lt _ (by norm_num)), hm, hm,
          Nat.mod_eq_of_lt (show c.val.toNat / 2 ^ 12 < 256 by omega), l3 _ (by omega)]
        norm_num
      · have a1 : ¬ c.val.toNat < 0x80 := by omega
        have a2 : ¬ c.val.toNat < 0x800 := by omega
        have a3 : ¬ c.val.toNat < 0x10000 := by omega
        have a4 : c.val.toNat < 0x200000 := by omega
        simp only [g1, g2, g3, a1, a2, a3, a4, if_true, if_false, List.map_cons, List.map_nil,
          u8_toNat_or, u8_toNat_and, u32_toUInt8_toNat, s6, s12, s18, c2, c4, c6, c8]
        rw [cont _ (Nat.mod_lt _ (by norm_num)), cont _ (Nat.mod_lt _ (by norm_num)),
          cont _ (Nat.mod_lt _ (by norm_num)), hm, hm, hm,
          Nat.mod_eq_of_lt (show c.val.toNat / 2 ^ 18 < 256 by omega), l4 _ (by omega)]
        norm_num

/-! ## Claims about `cfg_unescapeu` -/

/-- Whenever `decode` returns, its output is no longer than its input. -/
theorem decode_length_le {x out : List Nat} (h : decode x = .ok out) : out.length ≤ x.length := by
  rw [decode_eq_scan] at h
  have := scan_length_lt _ _ _ (Nat.le_refl _) h
  simp only [List.length_append, List.length_singleton] at this
  omega

/-- The only fault of `decode` is a read past the source object. -/
theorem decode_fault {x : List Nat} {e : Fault} (h : decode x = .fault e) : e = .srcOverrun := by
  rw [decode_eq_scan] at h
  suffices hs : ∀ (n : Nat) (v : List Nat), v.length ≤ n → scan v = .fault e → e = .srcOverrun from
    hs _ _ (Nat.le_refl _) h
  intro n
  induction n with
  | zero =>
    intro v hv hf
    have : v = [] := List.eq_nil_of_length_eq_zero (by omega)
    subst this; simp [scan_nil] at hf; exact hf.symm
  | succ n ih =>
    intro v hv hf
    cases v with
    | nil => simp [scan_nil] at hf; exact hf.symm
    | cons c t =>
      by_cases hc : c = 0
      · subst hc; simp [scan_zero] at hf
      · rw [scan_step rfl hc] at hf
        cases hit : iterView (c :: t) with
        | fault e1 => rw [hit] at hf; simp at hf; subst hf; exact iterView_fault hit
        | ok r =>
          obtain ⟨h1, h2, _⟩ := iterView_bounds hit
          simp only [List.length_cons] at h2 hv
          rw [hit] at hf
          simp only [Res.bind_ok] at hf
          cases hs : scan (List.drop r.2 (c :: t)) with
          | fault e1 =>
            rw [hs] at hf; simp at hf; subst hf
            exact ih _ (by simp only [List.length_drop, List.length_cons]; omega) hs
          | ok out => rw [hs] at hf; simp at hf

/-- A run of `cfg_unescapeu` from a state that satisfies the invariant never
exhausts the iteration budget of the embedding. -/
theorem cfg_unescapeu_ne_outOfFuel (L : Limits) (m : List Nat) (d s : Nat)
    (hI : Inv L ⟨m, d, s⟩) : cfg_unescapeu L m d s ≠ .fault .outOfFuel := by
  intro h
  have := cfg_unescapeu_eq_scan L m d s hI
  rw [h] at this
  exact scan_ne_outOfFuel _ _ (Nat.le_refl _) this.symm

/-- A string without a backslash decodes to itself. -/
theorem decode_plain (x : List Nat) (h0 : ∀ c ∈ x, c ≠ 0) (h92 : ∀ c ∈ x, c ≠ 92) :
    decode x = .ok x := by
  rw [decode_eq_scan]
  induction x with
  | nil => exact scan_zero []
  | cons c t ih =>
    rw [List.cons_append, scan_plain _ (h0 c (List.mem_cons_self _ _))
      (h92 c (List.mem_cons_self _ _)),
      ih (fun x hx => h0 x (List.mem_cons_of_mem _ hx))
        (fun x hx => h92 x (List.mem_cons_of_mem _ hx))]
    rfl

/-- C1 (defect in the code): the claim bounds the output by the input
length for every NUL-terminated input, but on the one-byte string `\`
(byte 92, then the terminator) `cfg_unescapeu` copies the backslash and the
terminator in its `default` case and then steps the source pointer past the
terminator.  With the source object ending at the terminator the next read
is outside it; with stale bytes `a b NUL` behind the terminator in the same
buffer the run emits the four bytes `\ NUL a b` before its own terminator,
for an input of length one, in place and into a separate buffer alike. -/
theorem C1_cfg_unescapeu_overruns_lone_backslash :
    decode [92] = .fault .srcOverrun ∧
    decodeInPlace [92, 0, 97, 98, 0] = .ok [92, 0, 97, 98] ∧
    decodeSeparate [92, 0, 97, 98, 0] = .ok [92, 0, 97, 98] ∧
    ([92] : List Nat).length < ([92, 0, 97, 98] : List Nat).length := by
  decide

theorem unescBody_inv {L : Limits} {st st1 : UState} (hI : Inv L st)
    (hb : unescBody L st = .ok st1) :
    Inv L st1 ∧ (st.d ≤ st.s → st1.d ≤ st1.s) ∧ st.s < st1.s ∧
      st1.mem.length = st.mem.length ∧ view L st1.mem st1.s = view L st.mem st1.s := by
  obtain ⟨hd, hs, hroom, hdis⟩ := hI
  have hvl := view_length L st.mem st.s hs
  rw [unescBody_sim rfl hd (by omega) hdis] at hb
  cases hit : iterView (view L st.mem st.s) with
  | fault e => rw [hit] at hb; simp at hb
  | ok r =>
    obtain ⟨h1, h2, h3⟩ := iterView_bounds hit
    rw [hit] at hb
    simp only [Res.bind_ok, Res.ok.injEq] at hb
    subst hb
    refine ⟨⟨?_, ?_, ?_, ?_⟩, ?_, ?_, ?_, ?_⟩
    · simpa [blit_length] using hd
    · simpa [blit_length] using hs
    · simp only; omega
    · simp only; omega
    · simp only; omega
    · simp only; omega
    · simp only [blit_length]
    · show view L (blit st.mem st.d r.1) (st.s + r.2) = view L st.mem (st.s + r.2)
      exact view_blit _ _ _ _ (by omega)

theorem loopHead_inv (L : Limits) : ∀ (k : Nat) (st st1 : UState), Inv L st →
    loopHead L k st = some st1 →
    Inv L st1 ∧ (st.d ≤ st.s → st1.d ≤ st1.s) ∧ st.s ≤ st1.s ∧
      st1.mem.length = st.mem.length ∧ view L st1.mem st1.s = view L st.mem st1.s := by
  intro k
  induction k with
  | zero =>
    intro st st1 hI h
    simp only [loopHead, Option.some.injEq] at h
    subst h
    exact ⟨hI, fun h => h, Nat.le_refl _, rfl, rfl⟩
  | succ k ih =>
    intro st st1 hI h
    simp only [loopHead] at h
    split at h
    · split at h
      · simp at h
      · split at h
        · rename_i st2 hb
          obtain ⟨hI2, hds, hlt, hlen2, hview2⟩ := unescBody_inv hI hb
          obtain ⟨hI1, hds1, hle, hlen1, hview1⟩ := ih st2 st1 hI2 h
          refine ⟨hI1, fun h0 => hds1 (hds h0), by omega, by rw [hlen1, hlen2], ?_⟩
          obtain ⟨r, hr⟩ : ∃ r, st1.s = st2.s + r := ⟨st1.s - st2.s, by omega⟩
          rw [hview1, hr, view_add, view_add, hview2]
        · simp at h
    · simp at h

/-- C2: for every source object `src` (a NUL-terminated string with whatever
follows it in its buffer), at the head of every iteration of the in-place
run of `cfg_unescapeu` the destination index is at most the source index
and the bytes at and after the source index are still those of `src`; and
the in-place run has exactly the result of the run into a separate
destination buffer: the same emitted bytes, or the same fault.  The memory
of the embedding is shared in the in-place run, so a write onto a byte that
is read later would show as a difference. -/
theorem C2_cfg_unescapeu_in_place (src : List Nat) :
    (∀ (k : Nat) (st : UState),
      loopHead { slim := src.length, dlim := src.length } k { mem := src, d := 0, s := 0 }
        = some st → st.d ≤ st.s ∧ st.mem.drop st.s = src.drop st.s) ∧
    decodeInPlace src = decodeSeparate src := by
  refine ⟨?_, ?_⟩
  · intro k st h
    have hI : Inv { slim := src.length, dlim := src.length } { mem := src, d := 0, s := 0 } := by
      refine ⟨?_, ?_, ?_, ?_⟩ <;> simp
    obtain ⟨_, hds, _, hlen, hview⟩ := loopHead_inv _ k _ _ hI h
    refine ⟨hds (Nat.le_refl _), ?_⟩
    simp only [view] at hview hlen
    rw [← hlen, List.take_length, hlen, List.take_length] at hview
    exact hview
  · rw [decodeInPlace_eq_scan, decodeSeparate_eq_scan]

/-- C2 at the ten characters `a\tb\u00e9`: after four iterations the
in-place run is at destination index 5 and source index 10, and both runs
emit the same five bytes. -/
theorem C2_cfg_unescapeu_in_place_witness :
    (loopHead { slim := 11, dlim := 11 } 4
        { mem := [97, 92, 116, 98, 92, 117, 48, 48, 101, 57, 0], d := 0, s := 0 }
      = some { mem := [97, 9, 98, 195, 169, 117, 48, 48, 101, 57, 0], d := 5, s := 10 } ∧
      5 ≤ 10 ∧
      ([97, 9, 98, 195, 169, 117, 48, 48, 101, 57, 0] : List Nat).drop 10
        = [97, 92, 116, 98, 92, 117, 48, 48, 101, 57, 0].drop 10) ∧
    decodeInPlace [97, 92, 116, 98, 92, 117, 48, 48, 101, 57, 0] = .ok [97, 9, 98, 195, 169] ∧
    decodeSeparate [97, 92, 116, 98, 92, 117, 48, 48, 101, 57, 0] = .ok [97, 9, 98, 195, 169] := by
  have h := C2_cfg_unescapeu_in_place [97, 92, 116, 98, 92, 117, 48, 48, 101, 57, 0]
  have h1 : loopHead { slim := 11, dlim := 11 } 4
        { mem := [97, 92, 116, 98, 92, 117, 48, 48, 101, 57, 0], d := 0, s := 0 }
      = some { mem := [97, 9, 98, 195, 169, 117, 48, 48, 101, 57, 0], d := 5, s := 10 } := by
    decide
  refine ⟨⟨h1, (h.1 4 _ h1).1, (h.1 4 _ h1).2⟩, ?_, ?_⟩
  · decide
  · rw [← h.2]; decide

theorem decode_unicode {c n : Nat} {h : List Nat} (rest : List Nat)
    (hc : c = 117 ∧ n = 4 ∨ c = 85 ∧ n = 6) (hlen : h.length = n) (hh : AllHex h) :
    decode (92 :: c :: (h ++ rest))
      = (decode rest).map (fun out => wc_to_utf8str (hexValue h) ++ out) := by
  have hv : hexValue h < 16 ^ n := hlen ▸ hexValue_lt hh
  have hn : n ≤ 6 := by omega
  have hv2 : hexValue h < 2 ^ 24 :=
    lt_of_lt_of_le hv (by
      calc 16 ^ n ≤ 16 ^ 6 := Nat.pow_le_pow_right (by norm_num) hn
        _ = 2 ^ 24 := by norm_num)
  have hto : tohex h = hexValue h := by
    rw [tohex_eq_hexValue hh]; exact Nat.mod_eq_of_lt (by omega)
  have hne := wc_to_utf8str_ne_nil (show hexValue h < 2 ^ 31 by omega)
  have hesc : escView (c :: (h ++ (rest ++ [0]))) = .ok (wc_to_utf8str (hexValue h), n + 1) := by
    have hA := allHexL_append hh (rest ++ [0])
    rw [hlen] at hA
    have htake : List.take n (h ++ (rest ++ [0])) = h := by
      rw [← hlen]; simp
    rcases hc with ⟨rfl, rfl⟩ | ⟨rfl, rfl⟩ <;>
      simp [escView, escByte, isodigit, uniView, hA, htake, hto, hne]
  have hdrop : List.drop (n + 1) (c :: (h ++ (rest ++ [0]))) = rest ++ [0] := by
    rw [← hlen]; simp
  rw [decode_eq_scan, decode_eq_scan]
  show scan (92 :: c :: (h ++ rest) ++ [0]) = _
  rw [show (92 :: c :: (h ++ rest) ++ [0]) = 92 :: (c :: (h ++ (rest ++ [0]))) by simp]
  rw [scan_escape hesc, hdrop]

theorem decode_unicode_invalid {c n : Nat} (rest : List Nat)
    (hc : c = 117 ∧ n = 4 ∨ c = 85 ∧ n = 6)
    (hbad : ¬ (n ≤ rest.length ∧ AllHex (rest.take n))) :
    decode (92 :: c :: rest) = (decode rest).map (fun out => 92 :: c :: out) := by
  have hA := allHexL_false n rest hbad
  have hesc : escView (c :: (rest ++ [0])) = .ok ([92, c], 1) := by
    rcases hc with ⟨rfl, rfl⟩ | ⟨rfl, rfl⟩ <;>
      simp [escView, escByte, isodigit, uniView, hA]
  rw [decode_eq_scan, decode_eq_scan]
  show scan (92 :: (c :: (rest ++ [0]))) = _
  rw [scan_escape hesc]
  rfl

/-- A 32-bit value has no encoding exactly when bit 31 is set. -/
theorem wc_to_utf8str_eq_nil_iff (wc : Nat) (hwc : wc < 2 ^ 32) :
    wc_to_utf8str wc = [] ↔ 2 ^ 31 ≤ wc := by
  rw [wc_to_utf8str_eq_utf8Std wc hwc]
  unfold utf8Std
  split_ifs <;> simp <;> omega

/-- C3: a backslash, `u` and exactly four hexadecimal digits (or `U` and
exactly six) decode to the bytes `wc_to_utf8str` stores for their value,
followed by the decoding of the rest; on every Unicode scalar value
`wc_to_utf8str` stores the bytes of the UTF-8 encoder of Lean's library,
and on every 32-bit value UTF-8 by arithmetic, so one byte below 0x80, two
below 0x800, three below 0x10000, four below 0x200000, five below 0x4000000
and six below 0x80000000;
it stores nothing exactly when bit 31 is set, which the value of at most six
digits never has; and the six characters `\u0041` decode to `A`, the six
characters `\u00e9` to the two bytes 0xC3 0xA9. -/
theorem C3_unicode_escapes :
    (∀ h rest : List Nat, h.length = 4 → AllHex h →
      decode (92 :: 117 :: (h ++ rest))
        = (decode rest).map (fun out => wc_to_utf8str (hexValue h) ++ out)) ∧
    (∀ h rest : List Nat, h.length = 6 → AllHex h →
      decode (92 :: 85 :: (h ++ rest))
        = (decode rest).map (fun out => wc_to_utf8str (hexValue h) ++ out)) ∧
    (∀ c : Char, wc_to_utf8str c.val.toNat = (String.utf8EncodeChar c).map UInt8.toNat) ∧
    (∀ wc : Nat, wc < 2 ^ 32 → wc_to_utf8str wc = utf8Std wc) ∧
    (∀ wc : Nat, wc < 2 ^ 32 →
      ((wc_to_utf8str wc).length = 1 ↔ wc < 0x80) ∧
      ((wc_to_utf8str wc).length = 2 ↔ 0x80 ≤ wc ∧ wc < 0x800) ∧
      ((wc_to_utf8str wc).length = 3 ↔ 0x800 ≤ wc ∧ wc < 0x10000) ∧
      ((wc_to_utf8str wc).length = 4 ↔ 0x10000 ≤ wc ∧ wc < 0x200000) ∧
      ((wc_to_utf8str wc).length = 5 ↔ 0x200000 ≤ wc ∧ wc < 0x4000000) ∧
      ((wc_to_utf8str wc).length = 6 ↔ 0x4000000 ≤ wc ∧ wc < 0x80000000) ∧
      (wc_to_utf8str wc = [] ↔ 2 ^ 31 ≤ wc)) ∧
    (∀ h : List Nat, h.length ≤ 6 → AllHex h →
      tohex h = hexValue h ∧ hexValue h < 2 ^ 24 ∧ wc_to_utf8str (tohex h) ≠ []) ∧
    decode [92, 117, 48, 48, 52, 49] = .ok [65] ∧
    decode [92, 117, 48, 48, 101, 57] = .ok [0xc3, 0xa9] := by
  refine ⟨?_, ?_, wc_to_utf8str_eq_utf8EncodeChar, wc_to_utf8str_eq_utf8Std, ?_, ?_,
    by decide, by decide⟩
  · intro h rest hl hh
    exact decode_unicode rest (Or.inl ⟨rfl, rfl⟩) hl hh
  · intro h rest hl hh
    exact decode_unicode rest (Or.inr ⟨rfl, rfl⟩) hl hh
  · intro wc hwc
    refine ⟨?_, ?_, ?_, ?_, ?_, ?_, wc_to_utf8str_eq_nil_iff wc hwc⟩ <;>
    · rw [wc_to_utf8str_eq_utf8Std wc hwc]
      unfold utf8Std
      split_ifs <;> simp <;> omega
  · intro h hl hh
    have hv : hexValue h < 16 ^ h.length := hexValue_lt hh
    have hv2 : hexValue h < 2 ^ 24 :=
      lt_of_lt_of_le hv (by
        calc 16 ^ h.length ≤ 16 ^ 6 := Nat.pow_le_pow_right (by norm_num) hl
          _ = 2 ^ 24 := by norm_num)
    have hto : tohex h = hexValue h := by
      rw [tohex_eq_hexValue hh]; exact Nat.mod_eq_of_lt (by omega)
    refine ⟨hto, hv2, ?_⟩
    rw [hto]
    intro hnil
    have := wc_to_utf8str_ne_nil (show hexValue h < 2 ^ 31 by omega)
    rw [hnil] at this
    exact this rfl

/-- C3 at the euro sign and at an emoji: `\u20acX` decodes to E2 82 AC and
then `X`, `\U01f600` to F0 9F 98 80, and U+20AC has the three-byte
encoding of RFC 3629. -/
theorem C3_unicode_escapes_witness :
    decode (92 :: 117 :: ([50, 48, 97, 99] ++ [88])) = .ok [0xe2, 0x82, 0xac, 88] ∧
    decode (92 :: 85 :: ([48, 49, 102, 54, 48, 48] ++ [])) = .ok [0xf0, 0x9f, 0x98, 0x80] ∧
    wc_to_utf8str 0x20ac = [0xe2, 0x82, 0xac] ∧
    (wc_to_utf8str 0x20ac).length = 3 := by
  have hA4 : AllHex [50, 48, 97, 99] := by intro c hc; revert c; decide
  have hA6 : AllHex [48, 49, 102, 54, 48, 48] := by intro c hc; revert c; decide
  refine ⟨?_, ?_, ?_, ?_⟩
  · rw [C3_unicode_escapes.1 [50, 48, 97, 99] [88] rfl hA4]; decide
  · rw [C3_unicode_escapes.2.1 [48, 49, 102, 54, 48, 48] [] rfl hA6]; decide
  · rw [C3_unicode_escapes.2.2.2.1 0x20ac (by norm_num)]; decide
  · exact ((C3_unicode_escapes.2.2.2.2.1 0x20ac (by norm_num)).2.2.1).2 (by decide)

/-- C4: a backslash and `u` not followed by four hexadecimal digits (the
text may also end earlier) decode to themselves followed by the decoding
of the rest, likewise `U` not followed by six; no fault arises from the
escape itself, and the six characters `\u00zz` decode to themselves. -/
theorem C4_invalid_unicode_escapes :
    (∀ rest : List Nat, ¬ (4 ≤ rest.length ∧ AllHex (rest.take 4)) →
      decode (92 :: 117 :: rest) = (decode rest).map (fun out => 92 :: 117 :: out)) ∧
    (∀ rest : List Nat, ¬ (6 ≤ rest.length ∧ AllHex (rest.take 6)) →
      decode (92 :: 85 :: rest) = (decode rest).map (fun out => 92 :: 85 :: out)) ∧
    decode [92, 117, 48, 48, 122, 122] = .ok [92, 117, 48, 48, 122, 122] := by
  refine ⟨?_, ?_, by decide⟩
  · intro rest h
    exact decode_unicode_invalid rest (Or.inl ⟨rfl, rfl⟩) h
  · intro rest h
    exact decode_unicode_invalid rest (Or.inr ⟨rfl, rfl⟩) h

/-- C4 at `\u12` (too short) and at `\U0000g0` (a non-digit in place five). -/
theorem C4_invalid_unicode_escapes_witness :
    decode (92 :: 117 :: [49, 50]) = .ok [92, 117, 49, 50] ∧
    decode (92 :: 85 :: [48, 48, 48, 48, 103, 48]) = .ok [92, 85, 48, 48, 48, 48, 103, 48] := by
  refine ⟨?_, ?_⟩
  · rw [C4_invalid_unicode_escapes.1 [49, 50] (by intro h; exact absurd h.1 (by decide))]
    decide
  · rw [C4_invalid_unicode_escapes.2.1 [48, 48, 48, 48, 103, 48]
      (by intro h; exact absurd (h.2 103 (by decide)) (by decide))]
    decide

theorem hexValue_append (a b : List Nat) :
    hexValue (a ++ b) = hexValue a * 16 ^ b.length + hexValue b := by
  unfold hexValue
  rw [List.foldl_append]
  generalize List.foldl (fun acc c => acc * 16 + hexVal c) 0 a = r
  induction b generalizing r with
  | nil => simp
  | cons c cs ih =>
    simp only [List.foldl_cons, List.length_cons]
    rw [ih (r * 16 + hexVal c), ih (0 * 16 + hexVal c)]
    ring

theorem decode_hex {h : List Nat} (rest : List Nat) (hne : h ≠ [])
    (hh : AllHex h) (hr : NotStartsWith isxdigit rest) :
    decode (92 :: 120 :: (h ++ rest))
      = (decode rest).map (fun out => hexValue h % 256 :: out) := by
  have hC := countHex_append hh hr
  rw [List.append_assoc] at hC
  have htake : List.take h.length (h ++ (rest ++ [0])) = h := by simp
  have hpos : 0 < h.length := List.length_pos.mpr hne
  have hto : tohex h % 256 = hexValue h % 256 := by
    rw [tohex_eq_hexValue hh]
    exact Nat.mod_mod_of_dvd _ (by norm_num)
  have hesc : escView (120 :: (h ++ rest ++ [0])) = .ok ([hexValue h % 256], h.length + 1) := by
    simp [escView, escByte, isodigit, hC, hpos, hto, htake]
  rw [decode_eq_scan, decode_eq_scan]
  show scan (92 :: 120 :: (h ++ rest) ++ [0]) = _
  rw [show (92 :: 120 :: (h ++ rest) ++ [0]) = 92 :: (120 :: (h ++ rest ++ [0])) by simp]
  rw [scan_escape hesc]
  simp

theorem decode_hex_none (rest : List Nat) (hr : NotStartsWith isxdigit rest) :
    decode (92 :: 120 :: rest) = (decode rest).map (fun out => 92 :: 120 :: out) := by
  have hC : countHex (rest ++ [0]) = .ok 0 := by
    have := countHex_append (h := []) (by intro c hc; simp at hc) hr
    simpa using this
  have hesc : escView (120 :: (rest ++ [0])) = .ok ([92, 120], 1) := by
    simp [escView, escByte, isodigit, hC]
  rw [decode_eq_scan, decode_eq_scan]
  show scan (92 :: (120 :: (rest ++ [0]))) = _
  rw [scan_escape hesc]
  rfl

/-- C5: a backslash, `x` and one or more hexadecimal digits, followed by
something that is not a hexadecimal digit, decode to the single byte
`value mod 256` and the decoding of the rest, all digits being consumed;
`tohex` computes the base-16 value modulo `2^32`; with two or more digits
the byte is the value of the last two; without any digit the two
characters are kept; `\x41\x42` decodes to `AB` and `\x414` to the byte
0x14. -/
theorem C5_hex_escapes :
    (∀ h rest : List Nat, h ≠ [] → AllHex h → NotStartsWith isxdigit rest →
      decode (92 :: 120 :: (h ++ rest))
        = (decode rest).map (fun out => hexValue h % 256 :: out)) ∧
    (∀ h : List Nat, AllHex h → tohex h = hexValue h % 2 ^ 32) ∧
    (∀ (h : List Nat) (a b : Nat), isxdigit a = true → isxdigit b = true →
      hexValue (h ++ [a, b]) % 256 = 16 * hexVal a + hexVal b) ∧
    (∀ rest : List Nat, NotStartsWith isxdigit rest →
      decode (92 :: 120 :: rest) = (decode rest).map (fun out => 92 :: 120 :: out)) ∧
    decode [92, 120, 52, 49, 92, 120, 52, 50] = .ok [65, 66] ∧
    decode [92, 120, 52, 49, 52] = .ok [0x14] := by
  refine ⟨fun h rest => decode_hex rest, fun h hh => tohex_eq_hexValue hh, ?_,
    decode_hex_none, by decide, by decide⟩
  intro h a b ha hb
  have h1 := hexVal_lt ha
  have h2 := hexVal_lt hb
  rw [hexValue_append]
  have : hexValue [a, b] = 16 * hexVal a + hexVal b := by
    simp [hexValue]; ring
  rw [this]
  simp only [List.length_cons, List.length_nil]
  omega

/-- C5 at `\x1234567890aBZ` (twelve digits: the byte is 0xAB, `Z` stays)
and at `\xg`. -/
theorem C5_hex_escapes_witness :
    decode (92 :: 120 :: ([49, 50, 51, 52, 53, 54, 55, 56, 57, 48, 97, 66] ++ [90]))
      = .ok [0xab, 90] ∧
    tohex [49, 50, 51, 52, 53, 54, 55, 56, 57, 48, 97, 66] = 0x567890ab ∧
    hexValue ([49, 50, 51, 52, 53, 54, 55, 56, 57, 48] ++ [97, 66]) % 256 = 16 * 10 + 11 ∧
    decode (92 :: 120 :: [103]) = .ok [92, 120, 103] := by
  have hA : AllHex [49, 50, 51, 52, 53, 54, 55, 56, 57, 48, 97, 66] := by
    intro c hc; revert c; decide
  refine ⟨?_, ?_, ?_, ?_⟩
  · rw [C5_hex_escapes.1 _ [90] (by decide) hA (by intro c hc; cases hc; decide)]
    decide
  · rw [C5_hex_escapes.2.1 _ hA]; decide
  · exact C5_hex_escapes.2.2.1 _ 97 66 (by decide) (by decide)
  · rw [C5_hex_escapes.2.2.2.1 [103] (by intro c hc; cases hc; decide)]
    decide

theorem escByte_odigit {a : Nat} (ha : isodigit a = true) :
    escByte a = none ∧ ¬ (a = 10 ∨ a = 13) := by
  have hall : ∀ c, c < 56 → isodigit c = true → escByte c = none ∧ ¬ (c = 10 ∨ c = 13) := by
    decide
  have hlt : a < 56 := by
    simp only [isodigit, Bool.and_eq_true, decide_eq_true_eq] at ha; omega
  exact hall a hlt ha

theorem escView_oct1 {a : Nat} {t : List Nat} (ha : isodigit a = true)
    (hn : ∀ c u, t = c :: u → isodigit c = false) (ht : t ≠ []) :
    escView (a :: t) = .ok ([octValue [a] % 256], 1) := by
  obtain ⟨hE, hnl⟩ := escByte_odigit ha
  cases t with
  | nil => exact absurd rfl ht
  | cons c u =>
    have hc := hn c u rfl
    simp [escView, hE, hnl, ha, hc, octValue]

theorem escView_oct2 {a b : Nat} {t : List Nat} (ha : isodigit a = true) (hb : isodigit b = true)
    (hn : ∀ c u, t = c :: u → isodigit c = false) (ht : t ≠ []) :
    escView (a :: b :: t) = .ok ([octValue [a, b] % 256], 2) := by
  obtain ⟨hE, hnl⟩ := escByte_odigit ha
  cases t with
  | nil => exact absurd rfl ht
  | cons c u =>
    have hc := hn c u rfl
    simp [escView, hE, hnl, ha, hb, hc, octValue]

theorem escView_oct3 {a b c : Nat} (t : List Nat) (ha : isodigit a = true)
    (hb : isodigit b = true) (hc : isodigit c = true) :
    escView (a :: b :: c :: t) = .ok ([octValue [a, b, c] % 256], 3) := by
  obtain ⟨hE, hnl⟩ := escByte_odigit ha
  simp [escView, hE, hnl, ha, hb, hc, octValue]

theorem decode_octal {o : List Nat} (rest : List Nat) (h1 : 1 ≤ o.length) (h3 : o.length ≤ 3)
    (ho : AllOct o) (hmax : o.length = 3 ∨ NotStartsWith isodigit rest) :
    decode (92 :: (o ++ rest)) = (decode rest).map (fun out => octValue o % 256 :: out) := by
  have hnext : o.length < 3 → ∀ c t, rest ++ [0] = c :: t → isodigit c = false := by
    intro hlt c t hct
    rcases hmax with h | h
    · omega
    · cases rest with
      | nil =>
        simp only [List.nil_append, List.cons.injEq] at hct
        rw [← hct.1]; rfl
      | cons r rs =>
        simp only [List.cons_append, List.cons.injEq] at hct
        rw [← hct.1]; exact h r rfl
  have hne : rest ++ [0] ≠ [] := by simp
  rw [decode_eq_scan, decode_eq_scan]
  cases o with
  | nil => simp at h1
  | cons a o1 =>
    have ha : isodigit a = true := ho a (List.mem_cons_self _ _)
    cases o1 with
    | nil =>
      simp only [List.cons_append, List.nil_append]
      rw [scan_escape (escView_oct1 ha (hnext (by simp)) hne)]
      simp only [List.drop_succ_cons, List.drop_zero, List.singleton_append]
    | cons b o2 =>
      have hb : isodigit b = true := ho b (by simp)
      cases o2 with
      | nil =>
        simp only [List.cons_append, List.nil_append]
        rw [scan_escape (escView_oct2 ha hb (hnext (by simp)) hne)]
        simp only [List.drop_succ_cons, List.drop_zero, List.singleton_append]
      | cons c o3 =>
        have hc : isodigit c = true := ho c (by simp)
        cases o3 with
        | nil =>
          simp only [List.cons_append, List.nil_append]
          rw [scan_escape (escView_oct3 _ ha hb hc)]
          simp only [List.drop_succ_cons, List.drop_zero, List.singleton_append]
        | cons _ _ => simp only [List.length_cons] at h3; omega

/-- C6: a backslash and a maximal run of one to three octal digits (three
digits, or fewer followed by something that is not an octal digit) decode
to the single byte `value mod 256` and the decoding of the rest; a fourth
octal digit is copied as an ordinary character; `\101\102` decodes to `AB`
and `\777` to the byte 0xFF. -/
theorem C6_octal_escapes :
    (∀ o rest : List Nat, 1 ≤ o.length → o.length ≤ 3 → AllOct o →
      (o.length = 3 ∨ NotStartsWith isodigit rest) →
      decode (92 :: (o ++ rest)) = (decode rest).map (fun out => octValue o % 256 :: out)) ∧
    (∀ (o : List Nat) (c : Nat) (rest : List Nat), o.length = 3 → AllOct o →
      isodigit c = true →
      decode (92 :: (o ++ c :: rest))
        = (decode rest).map (fun out => octValue o % 256 :: c :: out)) ∧
    decode [92, 49, 48, 49, 92, 49, 48, 50] = .ok [65, 66] ∧
    decode [92, 55, 55, 55] = .ok [0xff] := by
  refine ⟨fun o rest => decode_octal rest, ?_, by decide, by decide⟩
  intro o c rest hl ho hc
  rw [decode_octal (c :: rest) (by omega) (by omega) ho (Or.inl hl)]
  have hc0 : c ≠ 0 ∧ c ≠ 92 := by
    simp only [isodigit, Bool.and_eq_true, decide_eq_true_eq] at hc; omega
  rw [decode_eq_scan, decode_eq_scan]
  simp only [List.cons_append]
  rw [scan_plain _ hc0.1 hc0.2]
  cases scan (rest ++ [0]) <;> rfl

/-- C6 at `\7x`, at `\18` (8 is not an octal digit) and at `\3777`. -/
theorem C6_octal_escapes_witness :
    decode (92 :: ([55] ++ [120])) = .ok [7, 120] ∧
    decode (92 :: ([49] ++ [56])) = .ok [1, 56] ∧
    decode (92 :: ([51, 55, 55] ++ 55 :: [])) = .ok [0xff, 55] := by
  refine ⟨?_, ?_, ?_⟩
  · rw [C6_octal_escapes.1 [55] [120] (by decide) (by decide)
      (by intro c hc; revert c; decide) (Or.inr (by intro c hc; cases hc; decide))]
    decide
  · rw [C6_octal_escapes.1 [49] [56] (by decide) (by decide)
      (by intro c hc; revert c; decide) (Or.inr (by intro c hc; cases hc; decide))]
    decide
  · rw [C6_octal_escapes.2.1 [51, 55, 55] 55 [] rfl (by intro c hc; revert c; decide) (by decide)]
    decide

theorem escTable_eq (c : Nat) (hnl : ¬ (c = 10 ∨ c = 13)) :
    escTable c = match escByte c with
      | some b => [b]
      | none => [92, c] := by
  by_cases hlt : c < 128
  · have hall : ∀ c, c < 128 → ¬ (c = 10 ∨ c = 13) →
        escTable c = match escByte c with
          | some b => [b]
          | none => [92, c] := by
      decide
    exact hall c hlt hnl
  · have e1 : escByte c = none := by
      unfold escByte
      simp only [show c ≠ 110 by omega, show c ≠ 116 by omega, show c ≠ 97 by omega,
        show c ≠ 98 by omega, show c ≠ 101 by omega, show c ≠ 102 by omega,
        show c ≠ 114 by omega, show c ≠ 118 by omega, show c ≠ 63 by omega,
        show c ≠ 96 by omega, show c ≠ 34 by omega, show c ≠ 39 by omega,
        show c ≠ 92 by omega, if_false]
    have e2 : escTable c = [92, c] := by
      unfold escTable
      simp only [show c ≠ 110 by omega, show c ≠ 116 by omega, show c ≠ 97 by omega,
        show c ≠ 98 by omega, show c ≠ 101 by omega, show c ≠ 102 by omega,
        show c ≠ 114 by omega, show c ≠ 118 by omega, show c ≠ 63 by omega,
        show c ≠ 96 by omega, show c ≠ 34 by omega, show c ≠ 39 by omega,
        show c ≠ 92 by omega, show c ≠ 10 by omega, show c ≠ 13 by omega, if_false,
        or_self]
    rw [e1, e2]

theorem decode_single (c : Nat) (rest : List Nat) (ho : isodigit c = false)
    (hx : c ≠ 120) (hu : c ≠ 117) (hU : c ≠ 85) :
    decode (92 :: c :: rest) = (decode rest).map (fun out => escTable c ++ out) := by
  have hesc : escView (c :: (rest ++ [0])) = .ok (escTable c, 1) := by
    by_cases hnl : c = 10 ∨ c = 13
    · have : escTable c = [] := by
        rcases hnl with rfl | rfl <;> rfl
      simp [escView, hnl, this]
    · rw [escTable_eq c hnl]
      cases hE : escByte c with
      | some b => simp [escView, hnl, hE]
      | none => simp [escView, hnl, hE, ho, hx, hu, hU]
  rw [decode_eq_scan, decode_eq_scan]
  simp only [List.cons_append]
  rw [scan_escape hesc]
  simp only [List.drop_succ_cons, List.drop_zero]

/-- C7: a backslash followed by a character `c` that is not NUL, an octal
digit, `x`, `u` or `U` decodes to `escTable c` followed by the decoding of
the rest: the control bytes 10, 9, 7, 8, 12, 13, 11 for `n t a b f r v`,
0x1B for `e`, the character itself for `?`, backquote, the two quotes and
the backslash, nothing for a line feed or carriage return, and the
backslash and `c` unchanged for every other `c`; the six characters
`\n\t\\` decode to newline, tab, backslash. -/
theorem C7_single_character_escapes :
    (∀ (c : Nat) (rest : List Nat), c ≠ 0 → isodigit c = false → c ≠ 120 → c ≠ 117 → c ≠ 85 →
      decode (92 :: c :: rest) = (decode rest).map (fun out => escTable c ++ out)) ∧
    ([110, 116, 97, 98, 102, 114, 118, 101].map escTable
      = [[10], [9], [7], [8], [12], [13], [11], [27]]) ∧
    ([63, 96, 34, 39, 92].map escTable = [[63], [96], [34], [39], [92]]) ∧
    escTable 10 = [] ∧ escTable 13 = [] ∧
    (∀ c : Nat, c ∉ [110, 116, 97, 98, 102, 114, 118, 101, 63, 96, 34, 39, 92, 10, 13] →
      escTable c = [92, c]) ∧
    decode [92, 110, 92, 116, 92, 92] = .ok [10, 9, 92] := by
  refine ⟨fun c rest _ ho hx hu hU => decode_single c rest ho hx hu hU,
    by decide, by decide, by decide, by decide, ?_, by decide⟩
  intro c hc
  simp only [List.mem_cons, List.mem_singleton, List.not_mem_nil, or_false, not_or] at hc
  obtain ⟨h1, h2, h3, h4, h5, h6, h7, h8, h9, h10, h11, h12, h13, h14, h15⟩ := hc
  unfold escTable
  simp only [h1, h2, h3, h4, h5, h6, h7, h8, h9, h10, h11, h12, h13, h14, h15, if_false,
    or_self]

/-- C7 at `\eZ`, at a backslash before a line feed, and at `\q`. -/
theorem C7_single_character_escapes_witness :
    decode (92 :: 101 :: [90]) = .ok [27, 90] ∧
    decode (92 :: 10 :: [90]) = .ok [90] ∧
    decode (92 :: 113 :: [90]) = .ok [92, 113, 90] ∧
    escTable 113 = [92, 113] := by
  refine ⟨?_, ?_, ?_, ?_⟩
  · rw [C7_single_character_escapes.1 101 [90] (by decide) (by decide) (by decide) (by decide)
      (by decide)]
    decide
  · rw [C7_single_character_escapes.1 10 [90] (by decide) (by decide) (by decide) (by decide)
      (by decide)]
    decide
  · rw [C7_single_character_escapes.1 113 [90] (by decide) (by decide) (by decide) (by decide)
      (by decide)]
    decide
  · exact C7_single_character_escapes.2.2.2.2.2.1 113 (by decide)

/-! ## Claims about `cfg_escape` -/

theorem escapeChar_length (c : Nat) :
    1 ≤ (escapeChar c).1.length ∧ (escapeChar c).1.length ≤ 4 := by
  unfold escapeChar
  split_ifs <;> simp [octalEscape]

theorem escapeChar_ne_zero {c : Nat} (hc : c ≠ 0) : ∀ b ∈ (escapeChar c).1, b ≠ 0 := by
  unfold escapeChar
  split_ifs <;> simp [octalEscape, hc]

set_option maxRecDepth 100000 in
/-- On a non-NUL byte the code stores what the specification says. -/
theorem escapeChar_eq_escapeSpec {c : Nat} (h0 : 0 < c) (h256 : c < 256) :
    (escapeChar c).1 = escapeSpec c := by
  have hall : ∀ c, c < 256 → 0 < c → (escapeChar c).1 = escapeSpec c := by decide
  exact hall c h256 h0

theorem escapeStep_eq (buf : List Nat) (c : Nat) (hroom : buf.length + 5 ≤ escBufSize) :
    escapeStep buf c = .ok (buf ++ (escapeChar c).1) := by
  have hl := escapeChar_length c
  have hst : ∀ bs : List Nat, bs.length ≤ 5 → store buf bs = .ok (buf ++ bs) := by
    intro bs hbs
    have : buf.length + bs.length ≤ escBufSize := by omega
    simp [store, this]
  unfold escapeStep
  split
  · rw [hst _ (by simp only [List.length_append, List.length_singleton]; omega)]
    simp only [Res.bind_ok, List.take_append, List.take_left']
  · exact hst _ (by omega)

theorem escapeLoop_eq : ∀ (s buf : List Nat), buf.length ≤ escBufSize - 4 →
    ∃ k : Nat, k ≤ s.length ∧
      escapeLoop s buf = .ok (buf ++ (s.take k).flatMap fun c => (escapeChar c).1) ∧
      (buf ++ (s.take k).flatMap fun c => (escapeChar c).1).length ≤ escBufSize - 4 ∧
      (∀ c ∈ s.take k, c ≠ 0) ∧
      (∀ j, j < k →
        buf.length + ((s.take j).flatMap fun c => (escapeChar c).1).length < escBufSize - 7) ∧
      (k < s.length → s[k]? = some 0 ∨
        escBufSize - 7 ≤ (buf ++ (s.take k).flatMap fun c => (escapeChar c).1).length) ∧
      ((∀ c ∈ s, c ≠ 0) →
        (∀ j, j < s.length →
          buf.length + ((s.take j).flatMap fun c => (escapeChar c).1).length < escBufSize - 7) →
        k = s.length) := by
  intro s
  induction s with
  | nil =>
    intro buf hlen
    exact ⟨0, by simp, by simp [escapeLoop], by simpa using hlen, by simp, by simp, by simp,
      by simp⟩
  | cons c s ih =>
    intro buf hlen
    have hB : escBufSize = 51200 := rfl
    have hl := escapeChar_length c
    by_cases hg : c ≠ 0 ∧ buf.length < escBufSize - 7
    · have he := escapeStep_eq buf c (by omega)
      have hlen1 : (buf ++ (escapeChar c).1).length ≤ escBufSize - 4 := by
        simp only [List.length_append]; omega
      obtain ⟨k, hk, hloop, hlen2, hnz, hfitk, hstop, hall⟩ :=
        ih (buf ++ (escapeChar c).1) hlen1
      refine ⟨k + 1, by simp only [List.length_cons]; omega, ?_, ?_, ?_, ?_, ?_, ?_⟩
      · rw [escapeLoop, if_pos hg, he, Res.bind_ok, hloop, List.take_succ_cons,
          List.flatMap_cons, List.append_assoc]
      · simpa only [List.take_succ_cons, List.flatMap_cons, List.append_assoc] using hlen2
      · intro x hx
        simp only [List.take_succ_cons, List.mem_cons] at hx
        rcases hx with rfl | hx
        · exact hg.1
        · exact hnz x hx
      · intro j hj
        cases j with
        | zero => simpa using hg.2
        | succ j =>
          have := hfitk j (by omega)
          simp only [List.length_append] at this
          simp only [List.take_succ_cons, List.flatMap_cons, List.length_append]
          omega
      · intro hk1
        simp only [List.length_cons, Nat.add_lt_add_iff_right] at hk1
        simpa only [List.getElem?_cons_succ, List.take_succ_cons, List.flatMap_cons,
          List.append_assoc] using hstop hk1
      · intro hs0 hfit
        have := hall (fun x hx => hs0 x (List.mem_cons_of_mem _ hx)) (by
          intro j hj
          have := hfit (j + 1) (by simp only [List.length_cons]; omega)
          simp only [List.take_succ_cons, List.flatMap_cons, List.length_append] at this
          simp only [List.length_append]
          omega)
        simp only [List.length_cons]; omega
    · refine ⟨0, by simp, ?_, by simpa using hlen, by simp, by simp, ?_, ?_⟩
      · rw [escapeLoop, if_neg hg]; simp
      · intro _
        by_cases hc0 : c = 0
        · left; simp [hc0]
        · right
          have : ¬ buf.length < escBufSize - 7 := fun h => hg ⟨hc0, h⟩
          simp only [List.take_zero, List.flatMap_nil, List.append_nil]; omega
      · intro hs0 hfit
        exfalso
        apply hg
        refine ⟨hs0 c (List.mem_cons_self _ _), ?_⟩
        have := hfit 0 (by simp)
        simpa using this

theorem cfg_escape_eq (s : List Nat) :
    ∃ k : Nat, k ≤ s.length ∧
      cfg_escape s = .ok (34 :: ((s.take k).flatMap fun c => (escapeChar c).1) ++ [34]) ∧
      (34 :: ((s.take k).flatMap fun c => (escapeChar c).1) ++ [34]).length ≤ escBufSize - 3 ∧
      (∀ j, j < k → s[j]? ≠ some 0 ∧
        1 + ((s.take j).flatMap fun c => (escapeChar c).1).length < escBufSize - 7) ∧
      (k < s.length → s[k]? = some 0 ∨
        escBufSize - 7 ≤ 1 + ((s.take k).flatMap fun c => (escapeChar c).1).length) ∧
      ((∀ c ∈ s, c ≠ 0) →
        (∀ j, j < s.length →
          1 + ((s.take j).flatMap fun c => (escapeChar c).1).length < escBufSize - 7) →
        k = s.length) := by
  have hB : escBufSize = 51200 := rfl
  obtain ⟨k, hk, hloop, hlen, hnz, hfitk, hstop, hall⟩ := escapeLoop_eq s [34] (by simp [hB])
  refine ⟨k, hk, ?_, ?_, ?_, ?_, ?_⟩
  · have hs0 : store [] [34] = .ok [34] := by simp [store, hB]
    have hlen' : ([34] ++ (s.take k).flatMap fun c => (escapeChar c).1).length + 1
        ≤ escBufSize := by omega
    have hs1 : store ([34] ++ (s.take k).flatMap fun c => (escapeChar c).1) [34]
        = .ok (([34] ++ (s.take k).flatMap fun c => (escapeChar c).1) ++ [34]) := by
      simp only [store, List.length_singleton, hlen', if_true]
    have hlen'' : (([34] ++ (s.take k).flatMap fun c => (escapeChar c).1) ++ [34]).length + 1
        ≤ escBufSize := by
      simp only [List.length_append, List.length_singleton] at hlen ⊢; omega
    have hs2 : store (([34] ++ (s.take k).flatMap fun c => (escapeChar c).1) ++ [34]) [0]
        = .ok ((([34] ++ (s.take k).flatMap fun c => (escapeChar c).1) ++ [34]) ++ [0]) := by
      simp only [store, List.length_singleton, hlen'', if_true]
    have hnz2 : ∀ b ∈ (([34] ++ (s.take k).flatMap fun c => (escapeChar c).1) ++ [34]),
        (b != 0) = true := by
      intro b hb
      simp only [List.mem_append, List.mem_singleton, List.mem_flatMap] at hb
      simp only [bne_iff_ne, ne_eq]
      rcases hb with (rfl | ⟨c, hc, hbc⟩) | rfl
      · decide
      · exact escapeChar_ne_zero (hnz c hc) b hbc
      · decide
    unfold cfg_escape
    rw [hs0, Res.bind_ok, hloop, Res.bind_ok, hs1, Res.bind_ok, hs2, Res.bind_ok]
    unfold cstr
    rw [List.takeWhile_append, (List.takeWhile_eq_self_iff.mpr hnz2)]
    simp
  · simp only [List.length_append, List.length_cons, List.length_singleton, List.length_nil]
      at hlen ⊢
    omega
  · intro j hj
    refine ⟨?_, by simpa using hfitk j hj⟩
    intro h0
    have hmem : (0 : Nat) ∈ s.take k := by
      rw [List.mem_iff_getElem?]
      exact ⟨j, by rw [List.getElem?_take, if_pos hj]; exact h0⟩
    exact hnz 0 hmem rfl
  · intro h
    rcases hstop h with h1 | h1
    · exact Or.inl h1
    · right
      simp only [List.length_append, List.length_singleton] at h1
      omega
  · intro h0 hfit
    exact hall h0 (by
      intro j hj
      have := hfit j hj
      simp only [List.length_singleton]
      omega)

/-- C8: for every input, `cfg_escape` stays inside its 51200-byte buffer
and returns a text that starts and ends with a double quote and has at
most 51198 characters; the text between the quotes is the concatenation of
the whole escapes of the first `k` characters of the input, where `k` is
the first position at which the input ends, holds a NUL, or the buffer
index has reached `sizeof buf - 7`. -/
theorem C8_cfg_escape_quoted_and_bounded (s : List Nat) :
    ∃ (k : Nat) (out : List Nat), cfg_escape s = .ok out ∧
      out.head? = some 34 ∧ out.getLast? = some 34 ∧
      out.length ≤ 51198 ∧ out.length + 1 ≤ escBufSize ∧
      k ≤ s.length ∧
      out = 34 :: ((s.take k).flatMap fun c => (escapeChar c).1) ++ [34] ∧
      (∀ j, j < k → s[j]? ≠ some 0 ∧
        1 + ((s.take j).flatMap fun c => (escapeChar c).1).length < escBufSize - 7) ∧
      (k < s.length → s[k]? = some 0 ∨
        escBufSize - 7 ≤ 1 + ((s.take k).flatMap fun c => (escapeChar c).1).length) := by
  have hB : escBufSize = 51200 := rfl
  obtain ⟨k, hk, heq, hlen, hbefore, hstop, _⟩ := cfg_escape_eq s
  refine ⟨k, _, heq, by simp, ?_, by omega, by omega, hk, rfl, hbefore, hstop⟩
  exact List.getLast?_concat _

/-- C8 at the four characters `a`, newline, `"`, DEL. -/
theorem C8_cfg_escape_quoted_and_bounded_example :
    cfg_escape [97, 10, 34, 127] = .ok [34, 97, 92, 110, 92, 34, 92, 49, 55, 55, 34] := by
  decide

theorem flatMap_congr_mem {l : List Nat} {f g : Nat → List Nat} (h : ∀ c ∈ l, f c = g c) :
    l.flatMap f = l.flatMap g := by
  induction l with
  | nil => rfl
  | cons a l ih =>
    rw [List.flatMap_cons, List.flatMap_cons, h a (List.mem_cons_self _ _),
      ih (fun c hc => h c (List.mem_cons_of_mem _ hc))]

/-- C9: for a string of non-NUL bytes that no iteration of the loop finds
the buffer index at or beyond `sizeof buf - 7`, `cfg_escape` returns a
quote, the concatenation of `escapeSpec c` over the bytes `c` of the
string, and a quote. -/
theorem C9_cfg_escape_maps_each_byte (s : List Nat)
    (hbytes : ∀ c ∈ s, 0 < c ∧ c < 256)
    (hfit : ∀ j, j < s.length → 1 + ((s.take j).flatMap escapeSpec).length < escBufSize - 7) :
    cfg_escape s = .ok (34 :: s.flatMap escapeSpec ++ [34]) := by
  have hconv : ∀ l : List Nat, (∀ c ∈ l, c ∈ s) →
      (l.flatMap fun c => (escapeChar c).1) = l.flatMap escapeSpec := by
    intro l hl
    exact flatMap_congr_mem (fun c hc =>
      escapeChar_eq_escapeSpec (hbytes c (hl c hc)).1 (hbytes c (hl c hc)).2)
  obtain ⟨k, hk, heq, _, _, _, hall⟩ := cfg_escape_eq s
  have hks : k = s.length := by
    apply hall (fun c hc => Nat.pos_iff_ne_zero.mp (hbytes c hc).1)
    intro j hj
    rw [hconv _ (fun c hc => List.mem_of_mem_take hc)]
    exact hfit j hj
  rw [heq, hks, List.take_length, hconv s (fun c hc => hc)]

/-- Strings of at most 12798 bytes are never truncated by `cfg_escape`. -/
theorem cfg_escape_fits (s : List Nat) (hlen : s.length ≤ 12798) (j : Nat) (hj : j < s.length) :
    1 + ((s.take j).flatMap escapeSpec).length < escBufSize - 7 := by
  have hB : escBufSize = 51200 := rfl
  have h4 : ∀ l : List Nat, (l.flatMap escapeSpec).length ≤ 4 * l.length := by
    intro l
    induction l with
    | nil => simp
    | cons a l ih =>
      have : (escapeSpec a).length ≤ 4 := by
        unfold escapeSpec; split_ifs <;> simp
      simp only [List.flatMap_cons, List.length_append, List.length_cons]
      omega
  have := h4 (s.take j)
  simp only [List.length_take] at this
  omega

/-- C9 at the six bytes `A`, tab, `\`, `'`, 0x01, 0xE9. -/
theorem C9_cfg_escape_maps_each_byte_witness :
    cfg_escape [65, 9, 92, 39, 1, 233]
      = .ok (34 :: [65, 9, 92, 39, 1, 233].flatMap escapeSpec ++ [34]) ∧
    (34 :: [65, 9, 92, 39, 1, 233].flatMap escapeSpec ++ [34])
      = [34, 65, 92, 116, 92, 39, 92, 48, 48, 49, 233, 34] :=
  ⟨C9_cfg_escape_maps_each_byte [65, 9, 92, 39, 1, 233] (by decide)
      (cfg_escape_fits _ (by decide)),
    by decide⟩

/-! ### The invariant of the interning cache -/

theorem liveOf_append {l r : List Nat} (hl : ∀ q ∈ l, q ≠ 0) : liveOf (l ++ 0 :: r) = l := by
  unfold liveOf
  induction l with
  | nil => simp [List.takeWhile]
  | cons a l ih =>
    have ha : a ≠ 0 := hl a (List.mem_cons_self _ _)
    simp only [List.cons_append, List.takeWhile_cons, bne_iff_ne, ne_eq, ha, not_false_eq_true,
      if_true, decide_True]
    rw [ih (fun q hq => hl q (List.mem_cons_of_mem _ hq))]

theorem mem_liveOf_ne_zero {arr : List Nat} {q : Nat} (h : q ∈ liveOf arr) : q ≠ 0 := by
  have := List.mem_takeWhile_imp h
  simpa using this

theorem scanSlots_live (heap : List (List Nat)) (p rest : List Nat) :
    ∀ (live : List Nat) (k : Nat), (∀ q ∈ live, q ≠ 0 ∧ ∃ str, heap[q - 1]? = some str) →
    (∃ q, q ∈ live ∧ heap[q - 1]? = some p ∧
        scanSlots heap p (live ++ 0 :: rest) k = .ok (.inl q)) ∨
    ((∀ q ∈ live, heap[q - 1]? ≠ some p) ∧
        scanSlots heap p (live ++ 0 :: rest) k = .ok (.inr (k + live.length))) := by
  intro live
  induction live with
  | nil => intro k _; right; simp [scanSlots]
  | cons q live ih =>
    intro k hl
    obtain ⟨hq0, str, hstr⟩ := hl q (List.mem_cons_self _ _)
    by_cases hp : p = str
    · left
      refine ⟨q, List.mem_cons_self _ _, by rw [hstr, hp], ?_⟩
      simp [scanSlots, hq0, hstr, hp]
    · rcases ih (k + 1) (fun x hx => hl x (List.mem_cons_of_mem _ hx)) with
        ⟨q1, hq1, hh, hs⟩ | ⟨hno, hs⟩
      · left
        refine ⟨q1, List.mem_cons_of_mem _ hq1, hh, ?_⟩
        simp [scanSlots, hq0, hstr, hp, hs]
      · right
        refine ⟨?_, ?_⟩
        · intro x hx
          rcases List.mem_cons.mp hx with rfl | hx
          · rw [hstr]; intro h; exact hp (Option.some.inj h).symm
          · exact hno x hx
        · rw [show k + (q :: live).length = k + 1 + live.length by
            simp only [List.length_cons]; omega, ← hs]
          simp [scanSlots, hq0, hstr, hp]

theorem insert_slots (live rest : List Nat) (x q : Nat) :
    ((setSlot (live ++ 0 :: x :: rest) (live.length + 1) 0).bind fun arr1 =>
      (setSlot arr1 live.length q).bind fun arr2 => Res.ok arr2)
      = .ok ((live ++ [q]) ++ 0 :: rest) := by
  have h1 : live.length + 1 < (live ++ 0 :: x :: rest).length := by
    simp only [List.length_append, List.length_cons]; omega
  have e1 : (live ++ 0 :: x :: rest).set (live.length + 1) 0 = live ++ 0 :: 0 :: rest := by
    rw [List.set_append_right _ _ (by omega)]
    simp
  have h2 : live.length < (live ++ 0 :: 0 :: rest).length := by
    simp only [List.length_append, List.length_cons]; omega
  have e2 : (live ++ 0 :: 0 :: rest).set live.length q = live ++ q :: 0 :: rest := by
    rw [List.set_append_right _ _ (Nat.le_refl _)]
    simp
  simp only [setSlot, h1, if_true, Res.bind_ok, e1, h2, e2]
  simp

theorem bucketOK_mono {heap : List (List Nat)} {h : Nat} {arr : List Nat} (ext : List (List Nat))
    (hb : BucketOK heap h arr) : BucketOK (heap ++ ext) h arr := by
  obtain ⟨h1, h2, h3⟩ := hb
  refine ⟨h1, h2, ?_⟩
  intro q hq
  obtain ⟨str, hs, hh⟩ := h3 q hq
  refine ⟨str, ?_, hh⟩
  have hlt : q - 1 < heap.length := by
    by_contra hge
    rw [List.getElem?_eq_none (by omega)] at hs
    exact absurd hs (by simp)
  rw [List.getElem?_append_left hlt]
  exact hs

theorem cache_string_found {junk : Nat → Nat} {p : Option (List Nat)} {c : Cache}
    {arr : List Nat} {q : Nat}
    (hb : c.hstrings[strhash (p.getD nullText) % nBuckets]? = some (some arr))
    (hs : scanSlots c.heap (p.getD nullText) arr 0 = .ok (.inl q)) :
    cache_string junk p c = .ok (q, c) := by
  have hget : (c.hstrings.getD (strhash (p.getD nullText) % nBuckets) none).getD
      (List.replicate (16 + 1) 0) = arr := by
    rw [List.getD_eq_getElem?_getD, hb]; rfl
  have hset : c.hstrings.set (strhash (p.getD nullText) % nBuckets) (some arr) = c.hstrings := by
    apply List.ext_getElem?
    intro i
    rw [List.getElem?_set]
    split
    · rename_i hi
      subst hi
      have hlt : strhash (p.getD nullText) % nBuckets < c.hstrings.length := by
        by_contra hge
        rw [List.getElem?_eq_none (by omega)] at hb
        exact absurd hb (by simp)
      simp [hlt, hb]
    · rfl
  unfold cache_string
  simp only [hget, hset, hs, Res.bind_ok]

theorem cache_string_insert (junk : Nat → Nat) (p : Option (List Nat)) (c : Cache)
    (hs live rest : List Nat) (x : Nat)
    (hget : (c.hstrings.getD (strhash (p.getD nullText) % nBuckets) none).getD
      (List.replicate (16 + 1) 0) = hs)
    (hscan : scanSlots c.heap (p.getD nullText) hs 0 = .ok (.inr live.length))
    (harr : (if live.length ≠ 0 ∧ live.length % 16 = 0
        then reallocSlots junk hs (live.length + 16 + 1) else hs) = live ++ 0 :: x :: rest) :
    cache_string junk p c = .ok (c.heap.length + 1,
      { heap := c.heap ++ [p.getD nullText],
        hstrings := c.hstrings.set (strhash (p.getD nullText) % nBuckets)
          (some ((live ++ [c.heap.length + 1]) ++ 0 :: rest)) }) := by
  have hins := insert_slots live rest x (c.heap.length + 1)
  unfold cache_string
  simp only [hget, hscan, Res.bind_ok, harr, List.set_set]
  cases h1 : setSlot (live ++ 0 :: x :: rest) (live.length + 1) 0 with
  | fault e => rw [h1] at hins; simp at hins
  | ok arr1 =>
    rw [h1] at hins
    simp only [Res.bind_ok] at hins ⊢
    cases h2 : setSlot arr1 live.length (c.heap.length + 1) with
    | fault e => rw [h2] at hins; simp at hins
    | ok arr2 =>
      rw [h2] at hins
      simp only [Res.bind_ok, Res.ok.injEq] at hins ⊢
      rw [hins]

theorem cacheInv_insert {c : Cache} {P live rest : List Nat}
    (hI : CacheInv c) (hP : P ∉ c.heap)
    (hold : c.hstrings[strhash P % nBuckets]? = some none ∧ live = [] ∨
      ∃ arr, c.hstrings[strhash P % nBuckets]? = some (some arr) ∧ liveOf arr = live)
    (hlen : ((live ++ [c.heap.length + 1]) ++ 0 :: rest).length = 17 + 16 * (live.length / 16)) :
    CacheInv { heap := c.heap ++ [P],
               hstrings := c.hstrings.set (strhash P % nBuckets)
                 (some ((live ++ [c.heap.length + 1]) ++ 0 :: rest)) } := by
  obtain ⟨hn, hbk, hnd, hreach⟩ := hI
  have hlive : ∀ q ∈ live, q ≠ 0 ∧
      ∃ str, c.heap[q - 1]? = some str ∧ strhash str % nBuckets = strhash P % nBuckets := by
    intro q hq
    rcases hold with ⟨_, rfl⟩ | ⟨arr, harr, rfl⟩
    · simp at hq
    · exact ⟨mem_liveOf_ne_zero hq, (hbk _ arr harr).2.2 q hq⟩
  have hnz : ∀ q ∈ live ++ [c.heap.length + 1], q ≠ 0 := by
    intro q hq
    rcases List.mem_append.mp hq with h | h
    · exact (hlive q h).1
    · simp only [List.mem_singleton] at h; omega
  have hlo : liveOf ((live ++ [c.heap.length + 1]) ++ 0 :: rest) = live ++ [c.heap.length + 1] :=
    liveOf_append hnz
  have hlt : strhash P % nBuckets < c.hstrings.length := by
    rw [hn]; exact Nat.mod_lt _ (by norm_num [nBuckets])
  refine ⟨by simpa using hn, ?_, ?_, ?_⟩
  · intro h arr harr
    simp only at harr ⊢
    rw [List.getElem?_set] at harr
    split at harr
    · rename_i hh
      subst hh
      simp only [hlt, if_true, Option.some.injEq] at harr
      subst harr
      refine ⟨⟨rest, by rw [hlo]⟩, ?_, ?_⟩
      · rw [hlo, hlen]; simp
      · rw [hlo]
        intro q hq
        rcases List.mem_append.mp hq with h | h
        · obtain ⟨_, str, hs, hh⟩ := hlive q h
          refine ⟨str, ?_, hh⟩
          have hq1 : q - 1 < c.heap.length := by
            by_contra hge
            rw [List.getElem?_eq_none (by omega)] at hs
            exact absurd hs (by simp)
          rw [List.getElem?_append_left hq1]; exact hs
        · simp only [List.mem_singleton] at h
          subst h
          exact ⟨P, by simp, rfl⟩
    · exact bucketOK_mono [P] (hbk h arr harr)
  · simp only
    rw [List.nodup_append]
    refine ⟨hnd, by simp, ?_⟩
    intro a ha hb
    simp only [List.mem_singleton] at hb
    subst hb
    exact hP ha
  · intro a str ha
    simp only at ha ⊢
    by_cases hal : a < c.heap.length
    · rw [List.getElem?_append_left hal] at ha
      obtain ⟨arr, harr, hmem⟩ := hreach a str ha
      by_cases hh : strhash str % nBuckets = strhash P % nBuckets
      · rw [hh] at harr ⊢
        refine ⟨(live ++ [c.heap.length + 1]) ++ 0 :: rest,
          by rw [List.getElem?_set]; simp [hlt], ?_⟩
        rw [hlo]
        apply List.mem_append_left
        rcases hold with ⟨hnone, _⟩ | ⟨arr1, harr1, rfl⟩
        · rw [hnone] at harr; simp at harr
        · rw [harr1] at harr
          simp only [Option.some.injEq] at harr
          subst harr; exact hmem
      · refine ⟨arr, ?_, hmem⟩
        rw [List.getElem?_set]
        simp only [Ne.symm hh, if_false]
        exact harr
    · have hae : a = c.heap.length := by
        by_contra hne
        rw [List.getElem?_eq_none (by simp; omega)] at ha
        exact absurd ha (by simp)
      subst hae
      have : str = P := by simpa using ha.symm
      subst this
      refine ⟨(live ++ [c.heap.length + 1]) ++ 0 :: rest,
        by rw [List.getElem?_set]; simp [hlt], ?_⟩
      rw [hlo]
      exact List.mem_append_right _ (by simp)

/-- One call of `cache_string` from a cache that satisfies the invariant:
it returns a non-null pointer to a string with the content of its argument,
keeps the invariant and every string allocated before, and changes nothing
when the content is already in the cache. -/
theorem cache_string_spec (junk : Nat → Nat) (p : Option (List Nat)) (c : Cache)
    (hI : CacheInv c) :
    ∃ (q : Nat) (c1 : Cache), cache_string junk p c = .ok (q, c1) ∧ CacheInv c1 ∧ q ≠ 0 ∧
      c1.heap[q - 1]? = some (p.getD nullText) ∧ (∃ ext, c1.heap = c.heap ++ ext) ∧
      (p.getD nullText ∈ c.heap → c1 = c) := by
  obtain ⟨hn, hbk, hnd, hreach⟩ := hI
  have hI : CacheInv c := ⟨hn, hbk, hnd, hreach⟩
  have hlt : strhash (p.getD nullText) % nBuckets < c.hstrings.length := by
    rw [hn]; exact Nat.mod_lt _ (by norm_num [nBuckets])
  have hnew : (c.heap ++ [p.getD nullText])[c.heap.length + 1 - 1]? = some (p.getD nullText) := by
    simp
  cases hb : c.hstrings[strhash (p.getD nullText) % nBuckets]? with
  | none => rw [List.getElem?_eq_none_iff] at hb; omega
  | some b =>
    cases b with
    | none =>
      have hP : p.getD nullText ∉ c.heap := by
        intro hmem
        obtain ⟨a, ha⟩ := List.mem_iff_getElem?.mp hmem
        obtain ⟨arr, harr, _⟩ := hreach a _ ha
        rw [hb] at harr; simp at harr
      have hget : (c.hstrings.getD (strhash (p.getD nullText) % nBuckets) none).getD
          (List.replicate (16 + 1) 0) = List.replicate (16 + 1) 0 := by
        rw [List.getD_eq_getElem?_getD, hb]; rfl
      have hcomp := cache_string_insert junk p c (List.replicate (16 + 1) 0) []
        (List.replicate 15 0) 0 hget (by simp [scanSlots, List.replicate_succ]) (by simp [List.replicate_succ])
      refine ⟨_, _, hcomp, ?_, by omega, hnew, ⟨_, rfl⟩, fun h => absurd h hP⟩
      exact cacheInv_insert hI hP (Or.inl ⟨hb, rfl⟩) (by simp)
    | some arr =>
      obtain ⟨⟨rest, hdec⟩, hcap, hvalid⟩ := hbk _ arr hb
      have hget : (c.hstrings.getD (strhash (p.getD nullText) % nBuckets) none).getD
          (List.replicate (16 + 1) 0) = arr := by
        rw [List.getD_eq_getElem?_getD, hb]; rfl
      have hlv : ∀ q ∈ liveOf arr, q ≠ 0 ∧ ∃ str, c.heap[q - 1]? = some str := by
        intro q hq
        obtain ⟨str, hs, _⟩ := hvalid q hq
        exact ⟨mem_liveOf_ne_zero hq, str, hs⟩
      rcases scanSlots_live c.heap (p.getD nullText) rest (liveOf arr) 0 hlv with
        ⟨q, hq, hcont, hscan⟩ | ⟨hno, hscan⟩
      · rw [← hdec] at hscan
        refine ⟨q, c, cache_string_found hb hscan, hI, mem_liveOf_ne_zero hq, hcont,
          ⟨[], by simp⟩, fun _ => rfl⟩
      · rw [← hdec, Nat.zero_add] at hscan
        have hP : p.getD nullText ∉ c.heap := by
          intro hmem
          obtain ⟨a, ha⟩ := List.mem_iff_getElem?.mp hmem
          obtain ⟨arr1, harr1, hmem1⟩ := hreach a _ ha
          rw [hb] at harr1
          simp only [Option.some.injEq] at harr1
          subst harr1
          have := hno (a + 1) hmem1
          simp only [Nat.add_sub_cancel] at this
          exact this ha
        have hal : arr.length = (liveOf arr).length + 1 + rest.length := by
          conv_lhs => rw [hdec]
          simp only [List.length_append, List.length_cons]; omega
        by_cases hre : (liveOf arr).length ≠ 0 ∧ (liveOf arr).length % 16 = 0
        · have hrest : rest = [] := List.eq_nil_of_length_eq_zero (by omega)
          have h16 : (liveOf arr).length + 16 + 1 - arr.length = 16 := by omega
          have hJ : ∃ x J, ((List.range 16).map fun i => junk (arr.length + i)) = x :: J ∧
              J.length = 15 := by
            refine ⟨junk (arr.length + 0), (List.range 15).map fun i => junk (arr.length + (i + 1)),
              ?_, by simp⟩
            rw [List.range_succ_eq_map]
            simp [Function.comp_def]
          obtain ⟨x, J, hJe, hJl⟩ := hJ
          have harr : (if (liveOf arr).length ≠ 0 ∧ (liveOf arr).length % 16 = 0
              then reallocSlots junk arr ((liveOf arr).length + 16 + 1) else arr)
              = liveOf arr ++ 0 :: x :: J := by
            rw [if_pos hre]
            unfold reallocSlots
            rw [h16, hJe, List.take_of_length_le (by
              simp only [List.length_append, List.length_cons]; omega)]
            conv_lhs => rw [hdec, hrest]
            simp
          have hcomp := cache_string_insert junk p c arr (liveOf arr) _ _ hget hscan harr
          refine ⟨_, _, hcomp, ?_, by omega, hnew, ⟨_, rfl⟩, fun h => absurd h hP⟩
          exact cacheInv_insert hI hP (Or.inr ⟨arr, hb, rfl⟩) (by
            simp only [List.length_append, List.length_cons, List.length_nil]; omega)
        · obtain ⟨x, rest1, hr1⟩ : ∃ x rest1, rest = x :: rest1 := by
            cases rest with
            | nil => simp only [List.length_nil] at hal; omega
            | cons x r => exact ⟨x, r, rfl⟩
          have harr : (if (liveOf arr).length ≠ 0 ∧ (liveOf arr).length % 16 = 0
              then reallocSlots junk arr ((liveOf arr).length + 16 + 1) else arr)
              = liveOf arr ++ 0 :: x :: rest1 := by
            rw [if_neg hre, ← hr1]; exact hdec
          have hcomp := cache_string_insert junk p c arr (liveOf arr) _ _ hget hscan harr
          refine ⟨_, _, hcomp, ?_, by omega, hnew, ⟨_, rfl⟩, fun h => absurd h hP⟩
          exact cacheInv_insert hI hP (Or.inr ⟨arr, hb, rfl⟩) (by
            rw [hr1] at hal
            simp only [List.length_append, List.length_cons, List.length_nil] at hal ⊢
            omega)

theorem cacheInv_empty : CacheInv Cache.empty := by
  refine ⟨by simp [Cache.empty], ?_, by simp [Cache.empty], ?_⟩
  · intro h arr harr
    simp only [Cache.empty, List.getElem?_replicate] at harr
    split at harr <;> simp at harr
  · intro a str ha
    simp [Cache.empty] at ha

/-! ## Claims about `cache_string` -/

theorem internAll_append (junk : Nat → Nat) : ∀ (a b : List (Option (List Nat))) (c : Cache),
    internAll junk (a ++ b) c
      = (internAll junk a c).bind fun r1 =>
          (internAll junk b r1.2).bind fun r2 => .ok (r1.1 ++ r2.1, r2.2) := by
  intro a
  induction a with
  | nil =>
    intro b c
    simp only [List.nil_append, internAll, Res.bind_ok]
    cases internAll junk b c <;> rfl
  | cons p ps ih =>
    intro b c
    show internAll junk (p :: (ps ++ b)) c = _
    simp only [internAll]
    cases cache_string junk p c with
    | fault e => rfl
    | ok r =>
      simp only [Res.bind_ok]
      rw [ih]
      cases internAll junk ps r.2 with
      | fault e => rfl
      | ok r1 =>
        simp only [Res.bind_ok]
        cases internAll junk b r1.2 <;> rfl

/-- A sequence of calls from a cache that satisfies the invariant: every
call returns, the invariant holds afterwards, the strings allocated before
are kept, and the pointer of each call points to the content of its
argument. -/
theorem internAll_spec (junk : Nat → Nat) : ∀ (args : List (Option (List Nat))) (c : Cache),
    CacheInv c →
    ∃ (qs : List Nat) (c1 : Cache), internAll junk args c = .ok (qs, c1) ∧ CacheInv c1 ∧
      qs.length = args.length ∧ (∃ ext, c1.heap = c.heap ++ ext) ∧
      ∀ (i : Nat) (p : Option (List Nat)) (q : Nat), args[i]? = some p → qs[i]? = some q →
        q ≠ 0 ∧ c1.heap[q - 1]? = some (p.getD nullText) := by
  intro args
  induction args with
  | nil =>
    intro c hI
    exact ⟨[], c, rfl, hI, rfl, ⟨[], by simp⟩, by intro i p q h; simp at h⟩
  | cons a args ih =>
    intro c hI
    obtain ⟨q0, c0, hcall, hI0, hq0, hcont, ⟨ext0, hext0⟩, _⟩ := cache_string_spec junk a c hI
    obtain ⟨qs, c1, hrest, hI1, hlen, ⟨ext1, hext1⟩, hall⟩ := ih c0 hI0
    refine ⟨q0 :: qs, c1, ?_, hI1, by simp [hlen], ⟨ext0 ++ ext1, by
      rw [hext1, hext0, List.append_assoc]⟩, ?_⟩
    · simp only [internAll, hcall, Res.bind_ok, hrest]
    · intro i p q hp hq
      cases i with
      | zero =>
        simp only [List.getElem?_cons_zero, Option.some.injEq] at hp hq
        subst hp; subst hq
        refine ⟨hq0, ?_⟩
        have hlt : q0 - 1 < c0.heap.length := by
          by_contra hge
          rw [List.getElem?_eq_none (by omega)] at hcont
          exact absurd hcont (by simp)
        rw [hext1, List.getElem?_append_left hlt]
        exact hcont
      | succ i =>
        simp only [List.getElem?_cons_succ] at hp hq
        exact hall i p q hp hq

theorem heap_pointer_inj {heap : List (List Nat)} (hnd : heap.Nodup) {q1 q2 : Nat} {s : List Nat}
    (h1 : q1 ≠ 0) (h2 : q2 ≠ 0) (e1 : heap[q1 - 1]? = some s) (e2 : heap[q2 - 1]? = some s) :
    q1 = q2 := by
  have hlt : q1 - 1 < heap.length := by
    by_contra hge
    rw [List.getElem?_eq_none (by omega)] at e1
    exact absurd e1 (by simp)
  have := (List.getElem?_inj hlt hnd (e1.trans e2.symm))
  omega

set_option maxRecDepth 100000 in
/-- C10: for every sequence of `cache_string` calls from the empty cache,
every call returns a non-null pointer; two calls return the same pointer
exactly when their arguments have equal content, a null argument counting
as the text `(NULL)`; in the final cache each returned pointer still points
to the content of its argument, and calling again with that argument,
whatever the allocator leaves in fresh slots, returns the same pointer and
leaves the cache as it is; the pointers returned by the first `m` calls
are those of the run of the first `m` calls alone, whose strings the final
heap keeps in place; and `foo`, `bar`, `foo` get the pointers 1, 2, 1. -/
theorem C10_cache_string_identity (junk : Nat → Nat) (args : List (Option (List Nat))) :
    ∃ (qs : List Nat) (c : Cache),
      internAll junk args Cache.empty = .ok (qs, c) ∧ qs.length = args.length ∧
      (∀ (i j : Nat) (p1 p2 : Option (List Nat)) (q1 q2 : Nat),
        args[i]? = some p1 → args[j]? = some p2 →
        qs[i]? = some q1 → qs[j]? = some q2 →
        (q1 = q2 ↔ p1.getD nullText = p2.getD nullText)) ∧
      (∀ (i : Nat) (p : Option (List Nat)) (q : Nat), args[i]? = some p → qs[i]? = some q →
        q ≠ 0 ∧ c.heap[q - 1]? = some (p.getD nullText) ∧
        ∀ junk2 : Nat → Nat, cache_string junk2 p c = .ok (q, c)) ∧
      (∀ m : Nat, ∃ cm : Cache, internAll junk (args.take m) Cache.empty = .ok (qs.take m, cm) ∧
        ∃ ext, c.heap = cm.heap ++ ext) ∧
      (internAll (fun _ => 0xdead)
          [some [102, 111, 111], some [98, 97, 114], some [102, 111, 111]] Cache.empty).map
        Prod.fst = .ok [1, 2, 1] := by
  obtain ⟨qs, c, hrun, hI, hlen, _, hall⟩ := internAll_spec junk args Cache.empty cacheInv_empty
  refine ⟨qs, c, hrun, hlen, ?_, ?_, ?_, by decide⟩
  · intro i j p1 p2 q1 q2 hp1 hp2 hq1 hq2
    obtain ⟨h1, e1⟩ := hall i p1 q1 hp1 hq1
    obtain ⟨h2, e2⟩ := hall j p2 q2 hp2 hq2
    constructor
    · intro h
      subst h
      exact Option.some.inj (e1.symm.trans e2)
    · intro h
      rw [h] at e1
      exact heap_pointer_inj hI.2.2.1 h1 h2 e1 e2
  · intro i p q hp hq
    obtain ⟨h1, e1⟩ := hall i p q hp hq
    refine ⟨h1, e1, ?_⟩
    intro junk2
    obtain ⟨q2, c2, hcall, _, h2, e2, _, hsame⟩ := cache_string_spec junk2 p c hI
    have hmem : p.getD nullText ∈ c.heap := List.mem_iff_getElem?.mpr ⟨_, e1⟩
    have hc := hsame hmem
    subst hc
    rw [hcall, heap_pointer_inj hI.2.2.1 h2 h1 e2 e1]
  · intro m
    have happ := internAll_append junk (args.take m) (args.drop m) Cache.empty
    rw [List.take_append_drop, hrun] at happ
    obtain ⟨qs1, c1, hrun1, hI1, hlen1, _, _⟩ :=
      internAll_spec junk (args.take m) Cache.empty cacheInv_empty
    obtain ⟨qs2, c2, hrun2, _, _, hext2, _⟩ := internAll_spec junk (args.drop m) c1 hI1
    rw [hrun1, Res.bind_ok, hrun2, Res.bind_ok] at happ
    simp only [Res.ok.injEq, Prod.mk.injEq] at happ
    obtain ⟨hqs, hc⟩ := happ
    refine ⟨c1, ?_, ?_⟩
    · rw [hrun1, hqs]
      have : (qs1 ++ qs2).take m = qs1 := by
        by_cases hm : m ≤ args.length
        · have : qs1.length = m := by rw [hlen1, List.length_take]; omega
          rw [← this, List.take_left']
          rfl
        · have h1 : qs1.length = args.length := by rw [hlen1, List.length_take]; omega
          have h2 : qs2 = [] := by
            apply List.eq_nil_of_length_eq_zero
            have := congrArg List.length hqs
            simp only [List.length_append] at this
            omega
          rw [h2, List.append_nil, List.take_of_length_le (by omega)]
      rw [this]
    · rw [hc]; exact hext2


/-! ## The store of comment lists -/

theorem ladd_length {α : Type} (hp : Store α) (l : Nat) (x : α) :
    (ladd hp l x).length = hp.length := by
  induction hp generalizing l with
  | nil => rfl
  | cons xs rest ih =>
    cases l with
    | zero => rfl
    | succ l => simp [ladd, ih]

theorem ladd_same {α : Type} (hp : Store α) (l : Nat) (x : α) :
    (ladd hp l x)[l]? = hp[l]?.map fun xs => xs ++ [x] := by
  induction hp generalizing l with
  | nil => rfl
  | cons xs rest ih =>
    cases l with
    | zero => simp [ladd]
    | succ l => simp [ladd, ih]

theorem ladd_other {α : Type} (hp : Store α) (l l2 : Nat) (x : α) (h : l2 ≠ l) :
    (ladd hp l x)[l2]? = hp[l2]? := by
  induction hp generalizing l l2 with
  | nil => rfl
  | cons xs rest ih =>
    cases l with
    | zero =>
      cases l2 with
      | zero => exact absurd rfl h
      | succ l2 => simp [ladd]
    | succ l =>
      cases l2 with
      | zero => simp [ladd]
      | succ l2 =>
        simp only [ladd, List.getElem?_cons_succ]
        exact ih l l2 (fun e => h (by rw [e]))

theorem ladd_append_new {α : Type} (hp : Store α) (x : α) :
    ladd (hp ++ [[]]) hp.length x = hp ++ [[x]] := by
  induction hp with
  | nil => rfl
  | cons xs rest ih =>
    show xs :: ladd (rest ++ [[]]) rest.length x = xs :: (rest ++ [[x]])
    rw [ih]

theorem ladd_lcreat {α : Type} (hp : Store α) (x : α) :
    ladd (lcreat hp).2 (lcreat hp).1 x = hp ++ [[x]] :=
  ladd_append_new hp x

theorem addcomment_none (rhs : Int) (st : Tracker) (h : st.lkw = none) :
    addcomment rhs st = st := by
  unfold addcomment
  rw [h]

theorem addcomment_attaches (rhs : Int) (st : Tracker) (k : String) (hk : st.lkw = some k)
    (hok : handleOK st.heap st.cfg_strctcomms) :
    Attaches st (addcomment rhs st) { kw := some k, rhs := rhs, comms := st.cfg_comms } := by
  unfold addcomment
  rw [hk]
  cases hs : st.cfg_strctcomms with
  | none =>
    simp only [ladd_lcreat]
    refine ⟨?_, ?_, rfl, rfl, hk.symm, rfl, rfl, rfl, ?_, ?_⟩
    · simp [Tracker.current, items, hs, lcreat]
    · simp [lcreat, hs]
    · intro l hl _
      simp only []
      rw [List.getElem?_append_left hl]
    · simp
  | some l =>
    rw [hs] at hok
    have hl : l < st.heap.length := hok
    refine ⟨?_, ?_, rfl, rfl, hk.symm, rfl, rfl, rfl, ?_, ?_⟩
    · simp only [Tracker.current, items, hs, ladd_same]
      rw [List.getElem?_eq_getElem hl]
      rfl
    · simp [hs]
    · intro l2 _ hne
      exact ladd_other _ _ _ _ (fun e => hne (by rw [e, hs]))
    · simp [ladd_length]

theorem items_some_lt {α : Type} (hp : Store α) (l : LISTID) (xs : List α)
    (h : items hp l = some xs) : handleOK hp l := by
  cases l with
  | none => trivial
  | some n =>
    simp only [items] at h
    by_contra hc
    rw [List.getElem?_eq_none (Nat.le_of_not_lt hc)] at h
    exact Option.noConfusion h

theorem handleOK_mono {α : Type} (hp hp2 : Store α) (l : LISTID) (h : handleOK hp l)
    (hle : hp.length ≤ hp2.length) : handleOK hp2 l := by
  cases l with
  | none => trivial
  | some n => exact Nat.lt_of_lt_of_le h hle

theorem addcomment_pushed (rhs : Int) (st : Tracker) :
    (addcomment rhs st).cfg_pushed = st.cfg_pushed ∧
    (addcomment rhs st).cfg_pushedcomms = st.cfg_pushedcomms := by
  unfold addcomment
  cases st.lkw with
  | none => exact ⟨rfl, rfl⟩
  | some k => cases st.cfg_strctcomms <;> exact ⟨rfl, rfl⟩

theorem addcomment_saved (rhs : Int) (st : Tracker)
    (hok : handleOK st.heap st.cfg_strctcomms) (hp : handleOK st.heap st.cfg_pushedcomms)
    (hne : st.cfg_strctcomms = none ∨ st.cfg_strctcomms ≠ st.cfg_pushedcomms) :
    (addcomment rhs st).saved = st.saved := by
  cases hk : st.lkw with
  | none => rw [addcomment_none rhs st hk]
  | some k =>
    have ha := addcomment_attaches rhs st k hk hok
    unfold Tracker.saved
    rw [ha.pushedcomms]
    cases hP : st.cfg_pushedcomms with
    | none => rfl
    | some p =>
      rw [hP] at hp
      simp only [items]
      apply ha.others p hp
      rcases hne with h | h
      · rw [h]; exact fun e => Option.noConfusion e
      · rw [hP] at h; exact h

theorem addcomment_WF (rhs : Int) (st : Tracker) (h : st.WF) : (addcomment rhs st).WF := by
  cases hk : st.lkw with
  | none => rw [addcomment_none rhs st hk]; exact h
  | some k =>
    obtain ⟨h1, h2, h3⟩ := h
    have ha := addcomment_attaches rhs st k hk h1
    refine ⟨items_some_lt _ _ _ ha.current, ?_, ?_⟩
    · rw [ha.pushedcomms]
      exact handleOK_mono _ _ _ h2 ha.length.1
    · intro hpu
      rw [ha.pushed] at hpu
      right
      rw [ha.handle, ha.pushedcomms]
      cases hs : st.cfg_strctcomms with
      | none =>
        intro e
        rw [← e] at h2
        exact Nat.lt_irrefl _ h2
      | some l =>
        rcases h3 hpu with h | h
        · rw [hs] at h; exact Option.noConfusion h
        · rw [hs] at h; exact h

theorem capture_comment_str_eq (text : String) (line : Int) (st : Tracker) :
    capture_comment_str text line st
      = if st.lkw.isSome ∧ st.lkw_lineno = line then
          addcomment 1 { st with cfg_comms := some (st.cfg_comms.getD [] ++ [text]) }
        else { st with cfg_comms := some (st.cfg_comms.getD [] ++ [text]) } := by
  unfold capture_comment_str
  cases st.cfg_comms <;> rfl

theorem capture_lvalue_kw_plain (kw : String) (line : Int) (st : Tracker)
    (h : kw ≠ "memory" ∨ st.cfg_pushed = true) :
    capture_lvalue_kw kw line st
      = if st.cfg_comms.isSome then
          addcomment 0 { st with lkw := some (normKw kw), lkw_lineno := line }
        else { st with lkw := some (normKw kw), lkw_lineno := line } := by
  unfold capture_lvalue_kw normKw
  rcases h with h | h
  · simp only [h, if_false]
  · simp only [h, not_true_eq_false, if_false, ite_self]

theorem capture_lvalue_kw_memory (line : Int) (st : Tracker) (h : st.cfg_pushed = false) :
    capture_lvalue_kw "memory" line st
      = if st.cfg_comms.isSome then
          addcomment 0 { st with lkw := some "*", lkw_lineno := line, cfg_pushed := true,
                                 cfg_pushedcomms := st.cfg_strctcomms, cfg_strctcomms := none }
        else { st with lkw := some "*", lkw_lineno := line, cfg_pushed := true,
                       cfg_pushedcomms := st.cfg_strctcomms, cfg_strctcomms := none } := by
  unfold capture_lvalue_kw
  simp [h]

theorem memory_case (kw : String) (st : Tracker)
    (hm : ¬ (kw ≠ "memory" ∨ st.cfg_pushed = true)) :
    kw = "memory" ∧ st.cfg_pushed = false := by
  constructor
  · by_contra hc
    exact hm (Or.inl hc)
  · cases hpp : st.cfg_pushed with
    | false => rfl
    | true => exact absurd (Or.inr hpp) hm

theorem capture_comment_str_WF (text : String) (line : Int) (st : Tracker) (h : st.WF) :
    (capture_comment_str text line st).WF := by
  rw [capture_comment_str_eq]
  split
  · exact addcomment_WF _ _ h
  · exact h

theorem capture_lvalue_kw_WF (kw : String) (line : Int) (st : Tracker) (h : st.WF) :
    (capture_lvalue_kw kw line st).WF := by
  by_cases hm : kw ≠ "memory" ∨ st.cfg_pushed = true
  · rw [capture_lvalue_kw_plain kw line st hm]
    split
    · exact addcomment_WF _ _ h
    · exact h
  · obtain ⟨hk, hp⟩ := memory_case kw st hm
    subst hk
    rw [capture_lvalue_kw_memory line st hp]
    have hwf : Tracker.WF
        { st with
            lkw := some "*", lkw_lineno := line, cfg_pushed := true,
            cfg_pushedcomms := st.cfg_strctcomms, cfg_strctcomms := none } :=
      ⟨trivial, h.1, fun _ => Or.inl rfl⟩
    split
    · exact addcomment_WF _ _ hwf
    · exact hwf

theorem cfg_move_comments_WF (st : Tracker) (h : st.WF) : (cfg_move_comments st).2.WF := by
  have h1 := capture_lvalue_kw_WF ";" (-1) st h
  exact ⟨trivial, h1.2.1, fun _ => Or.inl rfl⟩

theorem cfg_pop_comms_WF (st : Tracker) (h : st.WF) : (cfg_pop_comms st).WF := by
  unfold cfg_pop_comms
  split
  · exact ⟨h.2.1, h.2.1, fun hh => Bool.noConfusion hh⟩
  · exact h

theorem apply_WF (e : Event) (st : Tracker) (h : st.WF) : (e.apply st).WF := by
  cases e with
  | comment text line => exact capture_comment_str_WF text line st h
  | keyword kw line => exact capture_lvalue_kw_WF kw line st h
  | structureEnd => exact cfg_move_comments_WF st h
  | prologue => exact h
  | memoryEnd => exact cfg_pop_comms_WF st h

theorem runEvents_WF (evs : List Event) (st : Tracker) (h : st.WF) : (runEvents evs st).WF := by
  induction evs generalizing st with
  | nil => exact h
  | cons e es ih => exact ih _ (apply_WF e st h)

theorem init_WF : Tracker.init.WF := ⟨trivial, trivial, fun h => Bool.noConfusion h⟩

theorem addcomment_comms (rhs : Int) (st : Tracker) :
    (addcomment rhs st).cfg_comms = if st.lkw.isSome then none else st.cfg_comms := by
  unfold addcomment
  cases st.lkw with
  | none => rfl
  | some k => cases st.cfg_strctcomms <;> rfl

theorem addcomment_lkw (rhs : Int) (st : Tracker) :
    (addcomment rhs st).lkw = st.lkw ∧ (addcomment rhs st).lkw_lineno = st.lkw_lineno := by
  cases hk : st.lkw with
  | none => rw [addcomment_none rhs st hk]; exact ⟨hk, rfl⟩
  | some k =>
    unfold addcomment
    simp only [hk]
    cases st.cfg_strctcomms <;> exact ⟨rfl, rfl⟩

theorem addcomment_Saved (rhs : Int) (st : Tracker) (P : LISTID)
    (X : Option (List (Option COMMENT))) (h : Saved P X st) : Saved P X (addcomment rhs st) := by
  obtain ⟨hwf, hpu, hP, hX⟩ := h
  refine ⟨addcomment_WF rhs st hwf, ?_, ?_, ?_⟩
  · rw [(addcomment_pushed rhs st).1]; exact hpu
  · rw [(addcomment_pushed rhs st).2]; exact hP
  · rw [addcomment_saved rhs st hwf.1 hwf.2.1 (hwf.2.2 hpu)]; exact hX

theorem apply_Saved (e : Event) (st : Tracker) (P : LISTID)
    (X : Option (List (Option COMMENT))) (he : e ≠ Event.memoryEnd) (h : Saved P X st) :
    Saved P X (e.apply st) := by
  cases e with
  | comment text line =>
    show Saved P X (capture_comment_str text line st)
    rw [capture_comment_str_eq]
    split
    · exact addcomment_Saved _ _ _ _ h
    · exact h
  | keyword kw line =>
    show Saved P X (capture_lvalue_kw kw line st)
    rw [capture_lvalue_kw_plain kw line st (Or.inr h.2.1)]
    split
    · exact addcomment_Saved _ _ _ _ h
    · exact h
  | structureEnd =>
    show Saved P X (cfg_move_comments st).2
    have h1 : Saved P X (capture_lvalue_kw ";" (-1) st) := by
      rw [capture_lvalue_kw_plain ";" (-1) st (Or.inr h.2.1)]
      split
      · exact addcomment_Saved _ _ _ _ h
      · exact h
    obtain ⟨hwf, hpu, hP, hX⟩ := h1
    exact ⟨⟨trivial, hwf.2.1, fun _ => Or.inl rfl⟩, hpu, hP, hX⟩
  | prologue => exact h
  | memoryEnd => exact absurd rfl he

theorem runEvents_Saved (evs : List Event) (st : Tracker) (P : LISTID)
    (X : Option (List (Option COMMENT))) (he : ∀ e ∈ evs, e ≠ Event.memoryEnd)
    (h : Saved P X st) : Saved P X (runEvents evs st) := by
  induction evs generalizing st with
  | nil => exact h
  | cons e es ih =>
    exact ih _ (fun x hx => he x (List.mem_cons_of_mem _ hx))
      (apply_Saved e st P X (he e (List.mem_cons_self _ _)) h)

theorem capture_lvalue_kw_memory_Saved (line : Int) (st : Tracker) (hwf : st.WF)
    (hp : st.cfg_pushed = false) :
    Saved st.cfg_strctcomms st.current (capture_lvalue_kw "memory" line st) := by
  rw [capture_lvalue_kw_memory line st hp]
  have h0 : Saved st.cfg_strctcomms st.current
      { st with
          lkw := some "*", lkw_lineno := line, cfg_pushed := true,
          cfg_pushedcomms := st.cfg_strctcomms, cfg_strctcomms := none } :=
    ⟨⟨trivial, hwf.1, fun _ => Or.inl rfl⟩, rfl, rfl, rfl⟩
  split
  · exact addcomment_Saved _ _ _ _ h0
  · exact h0

theorem cfg_pop_comms_of_Saved (st : Tracker) (P : LISTID)
    (X : Option (List (Option COMMENT))) (h : Saved P X st) :
    (cfg_pop_comms st).cfg_strctcomms = P ∧ (cfg_pop_comms st).current = X ∧
    (cfg_pop_comms st).cfg_pushed = false := by
  obtain ⟨_, hpu, hP, hX⟩ := h
  unfold cfg_pop_comms
  rw [if_pos hpu]
  exact ⟨hP, hX, rfl⟩

theorem apply_comms_ne_nil (e : Event) (st : Tracker) (h : st.cfg_comms ≠ some []) :
    (e.apply st).cfg_comms ≠ some [] := by
  have hadd : ∀ (rhs : Int) (s : Tracker), s.cfg_comms ≠ some [] →
      (addcomment rhs s).cfg_comms ≠ some [] := by
    intro rhs s hs
    rw [addcomment_comms]
    split
    · exact fun e => Option.noConfusion e
    · exact hs
  have hkw : ∀ (kw : String) (line : Int),
      (capture_lvalue_kw kw line st).cfg_comms ≠ some [] := by
    intro kw line
    by_cases hm : kw ≠ "memory" ∨ st.cfg_pushed = true
    · rw [capture_lvalue_kw_plain kw line st hm]
      split
      · exact hadd _ _ h
      · exact h
    · obtain ⟨hk, hp⟩ := memory_case kw st hm
      subst hk
      rw [capture_lvalue_kw_memory line st hp]
      split
      · exact hadd _ _ h
      · exact h
  cases e with
  | comment text line =>
    show (capture_comment_str text line st).cfg_comms ≠ some []
    rw [capture_comment_str_eq]
    split
    · apply hadd
      simp
    · simp
  | keyword kw line => exact hkw kw line
  | structureEnd => exact hkw ";" (-1)
  | prologue => exact fun e => Option.noConfusion e
  | memoryEnd =>
    show (cfg_pop_comms st).cfg_comms ≠ some []
    unfold cfg_pop_comms
    split <;> exact h

theorem runEvents_comms_ne_nil (evs : List Event) (st : Tracker) (h : st.cfg_comms ≠ some []) :
    (runEvents evs st).cfg_comms ≠ some [] := by
  induction evs generalizing st with
  | nil => exact h
  | cons e es ih => exact ih _ (apply_comms_ne_nil e st h)

theorem capture_comment_str_same_line (st : Tracker) (k text : String) (L : Int)
    (hok : handleOK st.heap st.cfg_strctcomms) (hk : st.lkw = some k) (hl : st.lkw_lineno = L) :
    Attaches st (capture_comment_str text L st)
      { kw := some k, rhs := 1, comms := some (st.cfg_comms.getD [] ++ [text]) } := by
  rw [capture_comment_str_eq, if_pos ⟨by rw [hk]; rfl, hl⟩]
  have ha := addcomment_attaches 1
    { st with cfg_comms := some (st.cfg_comms.getD [] ++ [text]) } k hk hok
  exact ⟨ha.current, ha.handle, ha.pending, ha.prologue, ha.lkw, ha.lineno, ha.pushedcomms,
    ha.pushed, ha.others, ha.length⟩

theorem capture_comment_str_other_line (st : Tracker) (text : String) (line : Int)
    (h : st.lkw = none ∨ st.lkw_lineno ≠ line) :
    capture_comment_str text line st
      = { st with cfg_comms := some (st.cfg_comms.getD [] ++ [text]) } := by
  rw [capture_comment_str_eq, if_neg]
  rcases h with h | h
  · simp [h]
  · exact fun hh => h hh.2

theorem capture_lvalue_kw_pending (st : Tracker) (k : String) (line : Int) (C : List String)
    (hok : handleOK st.heap st.cfg_strctcomms) (hC : st.cfg_comms = some C) :
    (capture_lvalue_kw k line st).current
      = some ((if k = "memory" ∧ st.cfg_pushed = false then [] else st.current.getD []) ++
          [some { kw := some (normKw k), rhs := 0, comms := some C }]) ∧
    (capture_lvalue_kw k line st).cfg_comms = none ∧
    (capture_lvalue_kw k line st).lkw = some (normKw k) ∧
    (capture_lvalue_kw k line st).lkw_lineno = line := by
  by_cases hm : k ≠ "memory" ∨ st.cfg_pushed = true
  · have hc : ¬ (k = "memory" ∧ st.cfg_pushed = false) := by
      rintro ⟨h1, h2⟩
      rcases hm with h | h
      · exact h h1
      · rw [h2] at h; exact Bool.noConfusion h
    have h1 : st.cfg_comms.isSome = true := by rw [hC]; rfl
    rw [capture_lvalue_kw_plain k line st hm, if_neg hc, if_pos h1]
    have ha := addcomment_attaches 0
      { st with lkw := some (normKw k), lkw_lineno := line } (normKw k) rfl hok
    refine ⟨?_, ha.pending, ha.lkw, ha.lineno⟩
    rw [ha.current]
    show some (st.current.getD [] ++ [some (COMMENT.mk (some (normKw k)) 0 st.cfg_comms)]) = _
    rw [hC]
  · obtain ⟨hk, hp⟩ := memory_case k st hm
    subst hk
    have h1 : st.cfg_comms.isSome = true := by rw [hC]; rfl
    have h2 : "memory" = "memory" ∧ st.cfg_pushed = false := ⟨rfl, hp⟩
    have hn : normKw "memory" = "*" := by decide
    rw [capture_lvalue_kw_memory line st hp, if_pos h1, if_pos h2, hn]
    have ha := addcomment_attaches 0
      { st with
          lkw := some "*", lkw_lineno := line, cfg_pushed := true,
          cfg_pushedcomms := st.cfg_strctcomms, cfg_strctcomms := none } "*" rfl trivial
    refine ⟨?_, ha.pending, ha.lkw, ha.lineno⟩
    rw [ha.current]
    show some ([] ++ [some (COMMENT.mk (some "*") 0 st.cfg_comms)]) = _
    rw [hC]

theorem capture_lvalue_kw_no_pending (st : Tracker) (k : String) (line : Int)
    (hC : st.cfg_comms = none) :
    (capture_lvalue_kw k line st).heap = st.heap ∧
    (capture_lvalue_kw k line st).cfg_comms = none ∧
    (capture_lvalue_kw k line st).lkw = some (normKw k) ∧
    (capture_lvalue_kw k line st).lkw_lineno = line ∧
    (capture_lvalue_kw k line st).cfg_strctcomms
      = (if k = "memory" ∧ st.cfg_pushed = false then none else st.cfg_strctcomms) := by
  by_cases hm : k ≠ "memory" ∨ st.cfg_pushed = true
  · have hc : ¬ (k = "memory" ∧ st.cfg_pushed = false) := by
      rintro ⟨h1, h2⟩
      rcases hm with h | h
      · exact h h1
      · rw [h2] at h; exact Bool.noConfusion h
    have h1 : ¬ st.cfg_comms.isSome = true := by rw [hC]; simp
    rw [capture_lvalue_kw_plain k line st hm, if_neg hc, if_neg h1]
    exact ⟨rfl, hC, rfl, rfl, rfl⟩
  · obtain ⟨hk, hp⟩ := memory_case k st hm
    subst hk
    have h1 : ¬ st.cfg_comms.isSome = true := by rw [hC]; simp
    have h2 : "memory" = "memory" ∧ st.cfg_pushed = false := ⟨rfl, hp⟩
    have hn : normKw "memory" = "*" := by decide
    rw [capture_lvalue_kw_memory line st hp, if_neg h1, if_pos h2, hn]
    exact ⟨rfl, hC, rfl, rfl, rfl⟩

theorem locate_cond (w : String) (r : Int) (c : COMMENT) :
    (r = c.rhs ∧ c.kw.isSome ∧ c.kw = some w) ↔ (c.kw = some w ∧ c.rhs = r) := by
  constructor
  · rintro ⟨h1, _, h3⟩
    exact ⟨h3, h1.symm⟩
  · rintro ⟨h1, h2⟩
    exact ⟨h2.symm, by rw [h1]; rfl, h1⟩

theorem locateFrom_cons_some (w : String) (r : Int) (c : COMMENT) (rest : List (Option COMMENT)) :
    locateFrom w r (some c :: rest)
      = if c.kw = some w ∧ c.rhs = r then some c else locateFrom w r rest := by
  simp only [locateFrom]
  by_cases h : c.kw = some w ∧ c.rhs = r
  · rw [if_pos h, if_pos ((locate_cond w r c).2 h)]
  · rw [if_neg h, if_neg (fun hh => h ((locate_cond w r c).1 hh))]

theorem locateFrom_cons_none (w : String) (r : Int) (rest : List (Option COMMENT)) :
    locateFrom w r (none :: rest) = locateFrom w r rest := rfl

theorem locateFrom_eq_none_iff (w : String) (r : Int) (xs : List (Option COMMENT)) :
    locateFrom w r xs = none ↔ ∀ c, some c ∈ xs → ¬ (c.kw = some w ∧ c.rhs = r) := by
  induction xs with
  | nil => simp [locateFrom]
  | cons n rest ih =>
    cases n with
    | none =>
      rw [locateFrom_cons_none, ih]
      simp
    | some c =>
      rw [locateFrom_cons_some]
      by_cases h : c.kw = some w ∧ c.rhs = r
      · rw [if_pos h]
        constructor
        · intro hh; exact Option.noConfusion hh
        · intro hh; exact absurd h (hh c (List.mem_cons_self _ _))
      · rw [if_neg h, ih]
        constructor
        · intro hh d hd
          rcases List.mem_cons.1 hd with e | e
          · cases e; exact h
          · exact hh d e
        · intro hh d hd
          exact hh d (List.mem_cons_of_mem _ hd)

theorem locateFrom_first (w : String) (r : Int) (pre post : List (Option COMMENT)) (c : COMMENT)
    (hpre : ∀ d, some d ∈ pre → ¬ (d.kw = some w ∧ d.rhs = r))
    (hc : c.kw = some w ∧ c.rhs = r) :
    locateFrom w r (pre ++ some c :: post) = some c := by
  induction pre with
  | nil => rw [List.nil_append, locateFrom_cons_some, if_pos hc]
  | cons n rest ih =>
    have ih2 := ih (fun d hd => hpre d (List.mem_cons_of_mem _ hd))
    cases n with
    | none => rw [List.cons_append, locateFrom_cons_none, ih2]
    | some d =>
      rw [List.cons_append, locateFrom_cons_some, if_neg (hpre d (List.mem_cons_self _ _)), ih2]

theorem locateFrom_some (w : String) (r : Int) (xs : List (Option COMMENT)) (c : COMMENT)
    (h : locateFrom w r xs = some c) :
    ∃ pre post, xs = pre ++ some c :: post ∧ (c.kw = some w ∧ c.rhs = r) ∧
      ∀ d, some d ∈ pre → ¬ (d.kw = some w ∧ d.rhs = r) := by
  induction xs with
  | nil => exact Option.noConfusion h
  | cons n rest ih =>
    cases n with
    | none =>
      rw [locateFrom_cons_none] at h
      obtain ⟨pre, post, e, hc, hpre⟩ := ih h
      refine ⟨none :: pre, post, by rw [e]; rfl, hc, ?_⟩
      intro d hd
      rcases List.mem_cons.1 hd with e2 | e2
      · exact Option.noConfusion e2
      · exact hpre d e2
    | some d0 =>
      rw [locateFrom_cons_some] at h
      by_cases hd0 : d0.kw = some w ∧ d0.rhs = r
      · rw [if_pos hd0] at h
        cases h
        exact ⟨[], rest, rfl, hd0, fun d hd => absurd hd (List.not_mem_nil _)⟩
      · rw [if_neg hd0] at h
        obtain ⟨pre, post, e, hc, hpre⟩ := ih h
        refine ⟨some d0 :: pre, post, by rw [e]; rfl, hc, ?_⟩
        intro d hd
        rcases List.mem_cons.1 hd with e2 | e2
        · cases e2; exact hd0
        · exact hpre d e2

theorem locateFrom_append_of_none (w : String) (r : Int) (xs ys : List (Option COMMENT))
    (h : locateFrom w r ys = none) : locateFrom w r (xs ++ ys) = locateFrom w r xs := by
  induction xs with
  | nil => rw [List.nil_append, h]; rfl
  | cons n rest ih =>
    cases n with
    | none => rw [List.cons_append, locateFrom_cons_none, locateFrom_cons_none, ih]
    | some c => rw [List.cons_append, locateFrom_cons_some, locateFrom_cons_some, ih]

theorem cfg_move_comments_fields (st : Tracker) :
    (cfg_move_comments st).2.cfg_strctcomms = none ∧
    (cfg_move_comments st).2.cfg_comms = none ∧
    (cfg_move_comments st).2.cfg_pushedcomms = st.cfg_pushedcomms ∧
    (cfg_move_comments st).2.cfg_pushed = st.cfg_pushed := by
  have hp := capture_lvalue_kw_plain ";" (-1) st (Or.inl (by decide))
  show _ ∧ (capture_lvalue_kw ";" (-1) st).cfg_comms = none ∧
    (capture_lvalue_kw ";" (-1) st).cfg_pushedcomms = st.cfg_pushedcomms ∧
    (capture_lvalue_kw ";" (-1) st).cfg_pushed = st.cfg_pushed
  rw [hp]
  refine ⟨rfl, ?_⟩
  cases hc : st.cfg_comms with
  | none => exact ⟨rfl, rfl, rfl⟩
  | some C =>
    simp only [Option.isSome_some, if_true]
    refine ⟨?_, (addcomment_pushed _ _).2, (addcomment_pushed _ _).1⟩
    rw [addcomment_comms]
    rfl

/-- After `cfg_pop_comms` the variables `cfg_strctcomms` and
`cfg_pushedcomms` name one list object, with `cfg_pushed` clear: a record
that `cfg_move_comments` then flushes is appended to this one list, so it
also shows through `cfg_pushedcomms`, which is not read again before the
next `memory` keyword overwrites it. -/
theorem cfg_move_comments_shared_list :
    (runEvents [.keyword "a" 1, .comment "c" 2, .keyword "b" 3, .keyword "memory" 4,
        .memoryEnd, .comment "d" 9] Tracker.init).cfg_pushed = false ∧
    (runEvents [.keyword "a" 1, .comment "c" 2, .keyword "b" 3, .keyword "memory" 4,
        .memoryEnd, .comment "d" 9] Tracker.init).cfg_strctcomms = some 0 ∧
    (runEvents [.keyword "a" 1, .comment "c" 2, .keyword "b" 3, .keyword "memory" 4,
        .memoryEnd, .comment "d" 9] Tracker.init).cfg_pushedcomms = some 0 ∧
    (runEvents [.keyword "a" 1, .comment "c" 2, .keyword "b" 3, .keyword "memory" 4,
        .memoryEnd, .comment "d" 9] Tracker.init).saved
      = some [some { kw := some "b", rhs := 0, comms := some ["c"] }] ∧
    (cfg_move_comments
        (runEvents [.keyword "a" 1, .comment "c" 2, .keyword "b" 3, .keyword "memory" 4,
          .memoryEnd, .comment "d" 9] Tracker.init)).2.saved
      = some [some { kw := some "b", rhs := 0, comms := some ["c"] },
              some { kw := some ";", rhs := 0, comms := some ["d"] }] := by
  decide

/-! ## `strtoul` in base 16 and `hexnumber` -/

theorem digitValue_lt_iff (c : Nat) : digitValue c < 16 ↔ isxdigit c = true := by
  unfold digitValue isxdigit
  simp only [Bool.or_eq_true, Bool.and_eq_true, decide_eq_true_eq]
  split
  · omega
  · split
    · omega
    · split
      · omega
      · omega

theorem digitValue_eq_hexVal {c : Nat} (hc : isxdigit c = true) : digitValue c = hexVal c := by
  unfold isxdigit at hc
  simp only [Bool.or_eq_true, Bool.and_eq_true, decide_eq_true_eq] at hc
  unfold digitValue hexVal
  split_ifs <;> omega

theorem takeWhile_digit_eq (r : List Nat) :
    (r.takeWhile fun c => decide (digitValue c < 16)) = r.takeWhile isxdigit := by
  congr 1
  funext c
  by_cases h : isxdigit c = true
  · rw [h]; exact decide_eq_true ((digitValue_lt_iff c).2 h)
  · have h2 : isxdigit c = false := by simpa using h
    rw [h2]
    exact decide_eq_false (fun hh => h ((digitValue_lt_iff c).1 hh))

theorem foldl_digit_eq (ds : List Nat) (hds : AllHex ds) (acc : Nat) :
    ds.foldl (fun a c => a * 16 + digitValue c) acc
      = ds.foldl (fun a c => a * 16 + hexVal c) acc := by
  induction ds generalizing acc with
  | nil => rfl
  | cons c cs ih =>
    simp only [List.foldl_cons]
    rw [digitValue_eq_hexVal (hds c (List.mem_cons_self _ _))]
    exact ih (fun x hx => hds x (List.mem_cons_of_mem _ hx)) _

theorem isspace_not_xdigit {c : Nat} (h : isxdigit c = true) : isspace c = false := by
  unfold isxdigit at h
  simp only [Bool.or_eq_true, Bool.and_eq_true, decide_eq_true_eq] at h
  unfold isspace
  simp only [Bool.or_eq_false_iff, Bool.and_eq_false_iff, decide_eq_false_iff_not]
  omega

theorem takeWhile_all {p : Nat → Bool} (ds : List Nat) (h : ∀ c ∈ ds, p c = true) :
    ds.takeWhile p = ds := by
  induction ds with
  | nil => rfl
  | cons c cs ih =>
    rw [List.takeWhile_cons_of_pos (h c (List.mem_cons_self _ _)),
      ih (fun x hx => h x (List.mem_cons_of_mem _ hx))]

theorem dropWhile_append_stop {p : Nat → Bool} (ws rest : List Nat)
    (hws : ∀ c ∈ ws, p c = true) (hrest : ∀ c, rest.head? = some c → p c = false) :
    (ws ++ rest).dropWhile p = rest := by
  induction ws with
  | nil =>
    cases rest with
    | nil => rfl
    | cons c cs =>
      rw [List.nil_append, List.dropWhile_cons_of_neg]
      rw [hrest c rfl]
      exact Bool.false_ne_true
  | cons c cs ih =>
    rw [List.cons_append, List.dropWhile_cons_of_pos (hws c (List.mem_cons_self _ _))]
    exact ih (fun x hx => hws x (List.mem_cons_of_mem _ hx))

/-- The shape of what `strtoul` skips before the digits. -/
theorem skip_shape (text : List Nat) :
    ∃ ws sg pre, text = ws ++ sg ++ pre ++ skipHexMark (skipSign (text.dropWhile isspace)) ∧
      (∀ c ∈ ws, isspace c = true) ∧ (sg = [] ∨ sg = [43] ∨ sg = [45]) ∧
      (pre = [] ∨ pre = [48, 120] ∨ pre = [48, 88]) := by
  have h1 : text = text.takeWhile isspace ++ text.dropWhile isspace :=
    (List.takeWhile_append_dropWhile _ _).symm
  have hws : ∀ c ∈ text.takeWhile isspace, isspace c = true :=
    fun c hc => List.mem_takeWhile_imp hc
  generalize text.dropWhile isspace = r1 at h1
  have h2 : ∃ sg, r1 = sg ++ skipSign r1 ∧ (sg = [] ∨ sg = [43] ∨ sg = [45]) := by
    unfold skipSign
    cases r1 with
    | nil => exact ⟨[], by simp, Or.inl rfl⟩
    | cons c cs =>
      by_cases hc : c = 43 ∨ c = 45
      · rw [if_pos (by simpa using hc)]
        rcases hc with hc | hc
        · exact ⟨[43], by simp [hc], Or.inr (Or.inl rfl)⟩
        · exact ⟨[45], by simp [hc], Or.inr (Or.inr rfl)⟩
      · rw [if_neg (by simpa using hc)]
        exact ⟨[], by simp, Or.inl rfl⟩
  obtain ⟨sg, hsg, hsg2⟩ := h2
  generalize skipSign r1 = r2 at hsg
  have h3 : ∃ pre, r2 = pre ++ skipHexMark r2 ∧ (pre = [] ∨ pre = [48, 120] ∨ pre = [48, 88]) := by
    unfold skipHexMark
    split
    · rename_i x d rest
      by_cases hx : (x = 120 ∨ x = 88) ∧ digitValue d < 16
      · rw [if_pos hx]
        rcases hx.1 with h | h
        · exact ⟨[48, 120], by simp [h], Or.inr (Or.inl rfl)⟩
        · exact ⟨[48, 88], by simp [h], Or.inr (Or.inr rfl)⟩
      · rw [if_neg hx]
        exact ⟨[], by simp, Or.inl rfl⟩
    · exact ⟨[], by simp, Or.inl rfl⟩
  obtain ⟨pre, hpre, hpre2⟩ := h3
  refine ⟨text.takeWhile isspace, sg, pre, ?_, hws, hsg2, hpre2⟩
  rw [List.append_assoc, List.append_assoc, ← hpre, ← hsg]
  exact h1

/-- A text of the form white space, sign, mark, digits is skipped up to its
digits. -/
theorem skip_of_shape (ws sg pre ds : List Nat) (hws : ∀ c ∈ ws, isspace c = true)
    (hsg : sg = [] ∨ sg = [43] ∨ sg = [45])
    (hpre : pre = [] ∨ pre = [48, 120] ∨ pre = [48, 88]) (hne : ds ≠ []) (hds : AllHex ds) :
    (ws ++ sg ++ pre ++ ds).dropWhile isspace = sg ++ pre ++ ds ∧
    skipSign (sg ++ pre ++ ds) = pre ++ ds ∧ skipHexMark (pre ++ ds) = ds := by
  obtain ⟨d, dt, rfl⟩ := List.exists_cons_of_ne_nil hne
  have hd : isxdigit d = true := hds d (List.mem_cons_self _ _)
  have hd2 : digitValue d < 16 := (digitValue_lt_iff d).2 hd
  have hdx : d ≠ 120 ∧ d ≠ 88 ∧ d ≠ 43 ∧ d ≠ 45 := by
    unfold isxdigit at hd
    simp only [Bool.or_eq_true, Bool.and_eq_true, decide_eq_true_eq] at hd
    omega
  refine ⟨?_, ?_, ?_⟩
  · have h := dropWhile_append_stop ws (sg ++ pre ++ d :: dt) hws (by
      intro c hc
      rcases hsg with rfl | rfl | rfl
      · rcases hpre with rfl | rfl | rfl
        · simp only [List.nil_append, List.head?_cons, Option.some.injEq] at hc
          rw [← hc]; exact isspace_not_xdigit hd
        · simp only [List.nil_append, List.cons_append, List.head?_cons,
            Option.some.injEq] at hc
          rw [← hc]; rfl
        · simp only [List.nil_append, List.cons_append, List.head?_cons,
            Option.some.injEq] at hc
          rw [← hc]; rfl
      · simp only [List.cons_append, List.head?_cons, Option.some.injEq] at hc
        rw [← hc]; rfl
      · simp only [List.cons_append, List.head?_cons, Option.some.injEq] at hc
        rw [← hc]; rfl)
    simpa [List.append_assoc] using h
  · unfold skipSign
    rcases hsg with rfl | rfl | rfl
    · rcases hpre with rfl | rfl | rfl
      · simp [hdx.2.2.1, hdx.2.2.2]
      · simp
      · simp
    · simp
    · simp
  · rcases hpre with rfl | rfl | rfl
    · rw [List.nil_append]
      unfold skipHexMark
      split
      · rename_i x d2 rest heq
        simp only [List.cons.injEq] at heq
        have hx : isxdigit x = true := hds x (by rw [heq.2]; simp)
        have hx2 : x ≠ 120 ∧ x ≠ 88 := by
          unfold isxdigit at hx
          simp only [Bool.or_eq_true, Bool.and_eq_true, decide_eq_true_eq] at hx
          omega
        rw [if_neg]
        rintro ⟨h, _⟩
        rcases h with h | h
        · exact hx2.1 h
        · exact hx2.2 h
      · rfl
    · simp [skipHexMark, hd2]
    · simp [skipHexMark, hd2]

theorem getD_at_length (a rest : List Nat) :
    (a ++ rest).getD a.length 0 = rest.getD 0 0 := by
  induction a with
  | nil => rfl
  | cons c cs ih => simpa using ih

/-- When `strtoul` in base 16 consumes a whole string: exactly when what
follows the white space, the sign and the mark is a non-empty run of
hexadecimal digits. -/
theorem strtoul16_accept (M : Nat) (text : List Nat) (hnul : ∀ c ∈ text, c ≠ 0) :
    ((strtoul16 M text).2 ≠ 0 ∧ (text ++ [0]).getD (strtoul16 M text).2 0 = 0) ↔
      (skipHexMark (skipSign (text.dropWhile isspace)) ≠ [] ∧
        AllHex (skipHexMark (skipSign (text.dropWhile isspace)))) := by
  obtain ⟨ws, sg, pre, htext, -, -, -⟩ := skip_shape text
  unfold strtoul16
  simp only [takeWhile_digit_eq]
  generalize skipHexMark (skipSign (text.dropWhile isspace)) = r3 at htext ⊢
  have hsplit : r3.takeWhile isxdigit ++ r3.dropWhile isxdigit = r3 :=
    List.takeWhile_append_dropWhile _ _
  have hall : ∀ c ∈ r3.takeWhile isxdigit, isxdigit c = true :=
    fun c hc => List.mem_takeWhile_imp hc
  by_cases hds : r3.takeWhile isxdigit = []
  · rw [if_pos hds]
    constructor
    · intro h; exact absurd rfl h.1
    · rintro ⟨hne, hh⟩
      rw [takeWhile_all r3 hh] at hds
      exact absurd hds hne
  · rw [if_neg hds]
    simp only []
    have hl3 : r3.length = (r3.takeWhile isxdigit).length + (r3.dropWhile isxdigit).length := by
      rw [← List.length_append, hsplit]
    have hpos : 0 < (r3.takeWhile isxdigit).length := List.length_pos.2 hds
    have hlen : text.length - (r3.length - (r3.takeWhile isxdigit).length)
        = (ws ++ sg ++ pre ++ r3.takeWhile isxdigit).length := by
      rw [htext]
      simp only [List.length_append]
      omega
    rw [hlen]
    have htext2 : text ++ [0]
        = (ws ++ sg ++ pre ++ r3.takeWhile isxdigit) ++ (r3.dropWhile isxdigit ++ [0]) := by
      rw [htext]
      conv_lhs => rw [← hsplit]
      simp only [List.append_assoc]
    rw [htext2, getD_at_length]
    cases hrem : r3.dropWhile isxdigit with
    | nil =>
      rw [hrem, List.append_nil] at hsplit
      constructor
      · intro _
        rw [← hsplit]
        exact ⟨hds, hall⟩
      · intro _
        refine ⟨?_, rfl⟩
        simp only [List.length_append]
        omega
    | cons c cs =>
      constructor
      · rintro ⟨_, h0⟩
        have hc : c ∈ text := by
          rw [htext, ← hsplit, hrem]
          simp
        exact absurd h0 (hnul c hc)
      · rintro ⟨_, hh⟩
        have h1 := takeWhile_all r3 hh
        rw [h1, hrem] at hl3
        simp only [List.length_cons] at hl3
        omega

theorem hexnumber_eq (w : Nat) (f : Option (List Nat)) (l : Int) (text : List Nat) :
    hexnumber w f l text
      = if (strtoul16 (2 ^ w - 1) text).2 = 0 ∨
            (text ++ [0]).getD (strtoul16 (2 ^ w - 1) text).2 0 ≠ 0 then
          (none, [yyerror f l text])
        else
          (some { primary := .TKN_NUMBER, type := .V_NUM,
                  number := toInt32 (strtoul16 (2 ^ w - 1) text).1 }, []) := rfl

theorem hexnumber_isSome_iff (w : Nat) (f : Option (List Nat)) (l : Int) (text : List Nat)
    (hnul : ∀ c ∈ text, c ≠ 0) :
    (hexnumber w f l text).1.isSome = true ↔
      (skipHexMark (skipSign (text.dropWhile isspace)) ≠ [] ∧
        AllHex (skipHexMark (skipSign (text.dropWhile isspace)))) := by
  rw [← strtoul16_accept (2 ^ w - 1) text hnul, hexnumber_eq]
  by_cases h : (strtoul16 (2 ^ w - 1) text).2 = 0 ∨
      (text ++ [0]).getD (strtoul16 (2 ^ w - 1) text).2 0 ≠ 0
  · rw [if_pos h]
    constructor
    · intro hh; exact Bool.noConfusion hh
    · rintro ⟨h1, h2⟩
      rcases h with h | h
      · exact absurd h h1
      · exact absurd h2 h
  · rw [if_neg h]
    constructor
    · intro _
      exact ⟨fun e => h (Or.inl e), by
        by_contra hc
        exact h (Or.inr hc)⟩
    · intro _; rfl

/-- The value and the end that `strtoul` in base 16 gives for a non-empty
run of hexadecimal digits. -/
theorem strtoul16_digits (M : Nat) (ds : List Nat) (hne : ds ≠ []) (hds : AllHex ds) :
    strtoul16 M ds = (if M < hexValue ds then M else hexValue ds, ds.length) := by
  obtain ⟨h1, h2, h3⟩ := skip_of_shape [] [] [] ds (fun c hc => absurd hc (List.not_mem_nil _))
    (Or.inl rfl) (Or.inl rfl) hne hds
  simp only [List.nil_append] at h1 h2 h3
  unfold strtoul16
  simp only [takeWhile_digit_eq, h1, h2, h3, takeWhile_all ds hds, if_neg hne]
  have hhead : ¬ ds.head? = some 45 := by
    obtain ⟨d, dt, rfl⟩ := List.exists_cons_of_ne_nil hne
    have hd : isxdigit d = true := hds d (List.mem_cons_self _ _)
    unfold isxdigit at hd
    simp only [Bool.or_eq_true, Bool.and_eq_true, decide_eq_true_eq] at hd
    simp only [List.head?_cons, Option.some.injEq]
    omega
  rw [if_neg hhead, foldl_digit_eq ds hds]
  simp only [Nat.sub_self, Nat.sub_zero]
  rfl

theorem toInt32_small (v : Nat) (h : v < 2 ^ 31) : toInt32 v = v := by
  unfold toInt32
  rw [Nat.mod_eq_of_lt (by omega)]
  push_cast
  omega

/-! ## Claims about the comment tracker -/

/-- C11: when the last keyword `k` is set and has line `L`, a comment on
line `L` appends the one record `(k, 1, pending ++ [text])` to the current
list of comment records, changes no other list of the store and leaves the
pending lines `NULL`; a comment on another line (or with no last keyword)
only appends its text to the pending lines; and after the keyword `x` and
the comment `note`, both on line `L`, `locate_comment` finds for `x` on the
right side the record holding `note` and finds nothing for `x` on the
before side. -/
theorem C11_comment_on_keyword_line :
    (∀ (st : Tracker) (k text : String) (L : Int),
      handleOK st.heap st.cfg_strctcomms → st.lkw = some k → st.lkw_lineno = L →
        (capture_comment_str text L st).current
          = some (st.current.getD [] ++
              [some { kw := some k, rhs := 1,
                      comms := some (st.cfg_comms.getD [] ++ [text]) }]) ∧
        (capture_comment_str text L st).cfg_comms = none ∧
        (∀ l, l < st.heap.length → st.cfg_strctcomms ≠ some l →
          (capture_comment_str text L st).heap[l]? = st.heap[l]?)) ∧
    (∀ (st : Tracker) (text : String) (line : Int), st.lkw = none ∨ st.lkw_lineno ≠ line →
      capture_comment_str text line st
        = { st with cfg_comms := some (st.cfg_comms.getD [] ++ [text]) }) ∧
    (∀ L : Int,
      locate_comment (runEvents [.keyword "x" L, .comment "note" L] Tracker.init).heap
          (runEvents [.keyword "x" L, .comment "note" L] Tracker.init).cfg_strctcomms "x" 1
        = some { kw := some "x", rhs := 1, comms := some ["note"] } ∧
      locate_comment (runEvents [.keyword "x" L, .comment "note" L] Tracker.init).heap
          (runEvents [.keyword "x" L, .comment "note" L] Tracker.init).cfg_strctcomms "x" 0
        = none) := by
  refine ⟨?_, capture_comment_str_other_line, ?_⟩
  · intro st k text L hok hk hl
    have ha := capture_comment_str_same_line st k text L hok hk hl
    exact ⟨ha.current, ha.pending, ha.others⟩
  · intro L
    have hrun : runEvents [.keyword "x" L, .comment "note" L] Tracker.init
        = { Tracker.init with
              heap := [[some { kw := some "x", rhs := 1, comms := some ["note"] }]],
              lkw := some "x", lkw_lineno := L, cfg_strctcomms := some 0 } := by
      simp [runEvents, Event.apply, capture_lvalue_kw, capture_comment_str, addcomment,
        Tracker.init, lcreat, ladd]
    rw [hrun]
    constructor
    · simp [locate_comment, items, locateFrom]
    · simp [locate_comment, items, locateFrom]

/-- C11 at a state with one pending line, the last keyword `id` on line 7
and one record in the current list. -/
theorem C11_comment_on_keyword_line_witness :
    (capture_comment_str "two" 7
        { Tracker.init with
            heap := [[some { kw := some "*", rhs := 0, comms := some ["zero"] }]],
            cfg_strctcomms := some 0,
            cfg_comms := some ["one"], lkw := some "id", lkw_lineno := 7 }).current
      = some [some { kw := some "*", rhs := 0, comms := some ["zero"] },
              some { kw := some "id", rhs := 1, comms := some ["one", "two"] }] ∧
    capture_comment_str "two" 8
        { Tracker.init with cfg_comms := some ["one"], lkw := some "id", lkw_lineno := 7 }
      = { Tracker.init with
            cfg_comms := some ["one", "two"], lkw := some "id", lkw_lineno := 7 } :=
  ⟨(C11_comment_on_keyword_line.1 _ "id" "two" 7 (by decide) rfl rfl).1,
   C11_comment_on_keyword_line.2.1 _ "two" 8 (Or.inr (by decide))⟩

/-- C12: with pending lines `C`, `capture_lvalue_kw(k, line)` appends the
one record `(normKw k, 0, C)` to the current list of comment records (for
`memory` with no save active the old current list has just been saved and
the record starts a new list), leaves the pending lines `NULL` and sets the
last keyword to `normKw k` with the given line; with no pending lines no
list of the store changes; `normKw` is `*` on `programmer`, `part` and
`memory` and the identity on every other keyword; and in every state
reachable from the initial one the pending lines are `NULL` or non-empty
and the list variables are valid. -/
theorem C12_keyword_attaches_pending :
    (∀ (st : Tracker) (k : String) (line : Int) (C : List String),
      handleOK st.heap st.cfg_strctcomms → st.cfg_comms = some C →
        (capture_lvalue_kw k line st).current
          = some ((if k = "memory" ∧ st.cfg_pushed = false then [] else st.current.getD []) ++
              [some { kw := some (normKw k), rhs := 0, comms := some C }]) ∧
        (capture_lvalue_kw k line st).cfg_comms = none ∧
        (capture_lvalue_kw k line st).lkw = some (normKw k) ∧
        (capture_lvalue_kw k line st).lkw_lineno = line) ∧
    (∀ (st : Tracker) (k : String) (line : Int), st.cfg_comms = none →
        (capture_lvalue_kw k line st).heap = st.heap ∧
        (capture_lvalue_kw k line st).cfg_comms = none ∧
        (capture_lvalue_kw k line st).lkw = some (normKw k) ∧
        (capture_lvalue_kw k line st).lkw_lineno = line ∧
        (capture_lvalue_kw k line st).cfg_strctcomms
          = (if k = "memory" ∧ st.cfg_pushed = false then none else st.cfg_strctcomms)) ∧
    (normKw "programmer" = "*" ∧ normKw "part" = "*" ∧ normKw "memory" = "*" ∧
      ∀ k : String, k ≠ "programmer" → k ≠ "part" → k ≠ "memory" → normKw k = k) ∧
    (∀ evs : List Event,
      (runEvents evs Tracker.init).WF ∧ (runEvents evs Tracker.init).cfg_comms ≠ some []) := by
  refine ⟨capture_lvalue_kw_pending, capture_lvalue_kw_no_pending,
    ⟨by decide, by decide, by decide, ?_⟩, ?_⟩
  · intro k h1 h2 h3
    unfold normKw
    rw [if_neg]
    rintro (h | h | h)
    · exact h1 h
    · exact h2 h
    · exact h3 h
  · intro evs
    exact ⟨runEvents_WF evs _ init_WF,
      runEvents_comms_ne_nil evs _ (fun e => Option.noConfusion e)⟩

/-- C12 for the keyword `part` at a state with one record in the current
list and two pending lines. -/
theorem C12_keyword_attaches_pending_witness :
    (capture_lvalue_kw "part" 12
        { Tracker.init with
            heap := [[some { kw := some "id", rhs := 1, comms := some ["zero"] }]],
            cfg_strctcomms := some 0,
            cfg_comms := some ["one", "two"], lkw := some "id", lkw_lineno := 7 }).current
      = some [some { kw := some "id", rhs := 1, comms := some ["zero"] },
              some { kw := some "*", rhs := 0, comms := some ["one", "two"] }] ∧
    (capture_lvalue_kw "desc" 12 Tracker.init).heap = [] :=
  ⟨(C12_keyword_attaches_pending.1 _ "part" 12 ["one", "two"] (by decide) rfl).1,
   (C12_keyword_attaches_pending.2.1 Tracker.init "desc" 12 rfl).1⟩

/-- C13, counterexample: after the keyword `a` on line 1 and a comment on
line 2 the last keyword is `a` and one line is pending; the keyword `b` on
line 3 then records the pending line under `b`, not under the previous
keyword `a`: the current list holds the one record `(b, 0, [c])` and
`locate_comment` finds nothing for `a`. -/
theorem C13_previous_keyword_counterexample :
    (runEvents [.keyword "a" 1, .comment "c" 2] Tracker.init).lkw = some "a" ∧
    (runEvents [.keyword "a" 1, .comment "c" 2] Tracker.init).cfg_comms = some ["c"] ∧
    (capture_lvalue_kw "b" 3
        (runEvents [.keyword "a" 1, .comment "c" 2] Tracker.init)).current
      = some [some { kw := some "b", rhs := 0, comms := some ["c"] }] ∧
    locate_comment
        (capture_lvalue_kw "b" 3 (runEvents [.keyword "a" 1, .comment "c" 2] Tracker.init)).heap
        (capture_lvalue_kw "b" 3
          (runEvents [.keyword "a" 1, .comment "c" 2] Tracker.init)).cfg_strctcomms "a" 0
      = none ∧
    locate_comment
        (capture_lvalue_kw "b" 3 (runEvents [.keyword "a" 1, .comment "c" 2] Tracker.init)).heap
        (capture_lvalue_kw "b" 3
          (runEvents [.keyword "a" 1, .comment "c" 2] Tracker.init)).cfg_strctcomms "b" 0
      = some { kw := some "b", rhs := 0, comms := some ["c"] } := by
  decide

/-- C13, amended: with pending lines `C` and last keyword `p`,
`capture_lvalue_kw(k, line)` first sets the last keyword to `normKw k` and
its line to `line` and then records the pending lines, on the before side,
under this new keyword: the record `(normKw k, 0, C)` becomes the last one
of the current list, the pending lines become `NULL`, and when `p` differs
from `normKw k` a lookup of `p` on the before side finds exactly what it
found in the records that were there before. -/
theorem C13_keyword_attaches_to_new_keyword (st : Tracker) (p k : String) (line : Int)
    (C : List String) (hok : handleOK st.heap st.cfg_strctcomms) (_ : st.lkw = some p)
    (hC : st.cfg_comms = some C) :
    (capture_lvalue_kw k line st).lkw = some (normKw k) ∧
    (capture_lvalue_kw k line st).lkw_lineno = line ∧
    (capture_lvalue_kw k line st).cfg_comms = none ∧
    ((capture_lvalue_kw k line st).current.getD []).getLast?
      = some (some { kw := some (normKw k), rhs := 0, comms := some C }) ∧
    (p ≠ normKw k →
      locate_comment (capture_lvalue_kw k line st).heap
          (capture_lvalue_kw k line st).cfg_strctcomms p 0
        = locateFrom p 0
            (if k = "memory" ∧ st.cfg_pushed = false then [] else st.current.getD [])) := by
  obtain ⟨h1, h2, h3, h4⟩ := capture_lvalue_kw_pending st k line C hok hC
  refine ⟨h3, h4, h2, ?_, ?_⟩
  · rw [h1]
    simp
  · intro hne
    have hcur : items (capture_lvalue_kw k line st).heap
        (capture_lvalue_kw k line st).cfg_strctcomms = _ := h1
    unfold locate_comment
    rw [hcur]
    simp only []
    apply locateFrom_append_of_none
    rw [locateFrom_cons_some, if_neg]
    · rfl
    · rintro ⟨hh, _⟩
      simp only [Option.some.injEq] at hh
      exact hne hh.symm

/-- C13 (amended) at the state after the keyword `a` and a comment on the
next line, for the keyword `b`. -/
theorem C13_keyword_attaches_to_new_keyword_witness :
    (capture_lvalue_kw "b" 3
        { Tracker.init with cfg_comms := some ["c"], lkw := some "a", lkw_lineno := 1 }).lkw
      = some "b" ∧
    ((capture_lvalue_kw "b" 3
        { Tracker.init with
            cfg_comms := some ["c"], lkw := some "a", lkw_lineno := 1 }).current.getD []).getLast?
      = some (some { kw := some "b", rhs := 0, comms := some ["c"] }) :=
  ⟨(C13_keyword_attaches_to_new_keyword _ "a" "b" 3 ["c"] (by decide) rfl rfl).1,
   (C13_keyword_attaches_to_new_keyword _ "a" "b" 3 ["c"] (by decide) rfl rfl).2.2.2.1⟩

/-- C14: from a well-formed state with no save active and current list `P`,
after the keyword `memory`, then any finite sequence of comments, keywords
(further `memory` keywords included), structure ends and prologue captures,
then `cfg_pop_comms`, the current list is the list object `P` again, it
holds exactly the records it held before, and `cfg_pushed` is clear; with
`cfg_pushed` clear `cfg_pop_comms` changes nothing; and every state
reachable from the initial one is well formed. -/
theorem C14_memory_block_restores_list :
    (∀ (st : Tracker) (l : Int) (evs : List Event),
      st.WF → st.cfg_pushed = false → (∀ e ∈ evs, e ≠ Event.memoryEnd) →
        (cfg_pop_comms (runEvents evs (capture_lvalue_kw "memory" l st))).cfg_strctcomms
          = st.cfg_strctcomms ∧
        (cfg_pop_comms (runEvents evs (capture_lvalue_kw "memory" l st))).current
          = st.current ∧
        (cfg_pop_comms (runEvents evs (capture_lvalue_kw "memory" l st))).cfg_pushed
          = false) ∧
    (∀ st : Tracker, st.cfg_pushed = false → cfg_pop_comms st = st) ∧
    (∀ evs : List Event, (runEvents evs Tracker.init).WF) := by
  refine ⟨?_, ?_, fun evs => runEvents_WF evs _ init_WF⟩
  · intro st l evs hwf hp hev
    exact cfg_pop_comms_of_Saved _ _ _
      (runEvents_Saved evs _ _ _ hev (capture_lvalue_kw_memory_Saved l st hwf hp))
  · intro st hp
    unfold cfg_pop_comms
    rw [hp]
    rfl

/-- C14 for a part with one comment record, whose memory block has a
comment before it, a commented field and a nested `memory` keyword. -/
theorem C14_memory_block_restores_list_witness :
    (cfg_pop_comms (runEvents
        [.comment "in" 4, .keyword "size" 5, .comment "right" 5, .keyword "memory" 6,
         .structureEnd, .prologue]
        (capture_lvalue_kw "memory" 3
          { Tracker.init with
              heap := [[some { kw := some "id", rhs := 0, comms := some ["zero"] }]],
              cfg_strctcomms := some 0, cfg_comms := some ["before"],
              lkw := some "id", lkw_lineno := 2 }))).current
      = some [some { kw := some "id", rhs := 0, comms := some ["zero"] }] :=
  (C14_memory_block_restores_list.1
    { Tracker.init with
        heap := [[some { kw := some "id", rhs := 0, comms := some ["zero"] }]],
        cfg_strctcomms := some 0, cfg_comms := some ["before"],
        lkw := some "id", lkw_lineno := 2 } 3
    [.comment "in" 4, .keyword "size" 5, .comment "right" 5, .keyword "memory" 6,
     .structureEnd, .prologue]
    (by decide) rfl (by decide)).2.1

/-- C15: `cfg_move_comments` returns the current list unchanged when no
lines are pending, and the current list followed by the one record
`(";", 0, C)` when the lines `C` are pending; after the call
`cfg_strctcomms` and `cfg_comms` are `NULL` and `cfg_pushedcomms` and
`cfg_pushed` are as before; and the records of the saved list are as before
whenever a save is active, no lines are pending, or the saved list is not
the current one. -/
theorem C15_move_comments :
    (∀ st : Tracker, st.cfg_comms = none →
      (cfg_move_comments st).1 = st.cfg_strctcomms ∧
      (cfg_move_comments st).2.heap = st.heap) ∧
    (∀ (st : Tracker) (C : List String),
      handleOK st.heap st.cfg_strctcomms → st.cfg_comms = some C →
        items (cfg_move_comments st).2.heap (cfg_move_comments st).1
          = some (st.current.getD [] ++ [some { kw := some ";", rhs := 0, comms := some C }])) ∧
    (∀ st : Tracker,
      (cfg_move_comments st).2.cfg_strctcomms = none ∧
      (cfg_move_comments st).2.cfg_comms = none ∧
      (cfg_move_comments st).2.cfg_pushedcomms = st.cfg_pushedcomms ∧
      (cfg_move_comments st).2.cfg_pushed = st.cfg_pushed) ∧
    (∀ st : Tracker, st.WF →
      st.cfg_pushed = true ∨ st.cfg_comms = none ∨ st.cfg_strctcomms ≠ st.cfg_pushedcomms →
        (cfg_move_comments st).2.saved = st.saved) := by
  refine ⟨?_, ?_, cfg_move_comments_fields, ?_⟩
  · intro st hC
    obtain ⟨h1, _, _, _, h5⟩ := capture_lvalue_kw_no_pending st ";" (-1) hC
    refine ⟨?_, h1⟩
    show (capture_lvalue_kw ";" (-1) st).cfg_strctcomms = _
    rw [h5, if_neg]
    rintro ⟨h, _⟩
    exact absurd h (by decide)
  · intro st C hok hC
    obtain ⟨h1, _⟩ := capture_lvalue_kw_pending st ";" (-1) C hok hC
    have hn : normKw ";" = ";" := by decide
    have hif : ¬ (";" = "memory" ∧ st.cfg_pushed = false) := by
      rintro ⟨h, _⟩
      exact absurd h (by decide)
    rw [if_neg hif, hn] at h1
    exact h1
  · intro st hwf hcase
    show items (capture_lvalue_kw ";" (-1) st).heap
      (capture_lvalue_kw ";" (-1) st).cfg_pushedcomms = _
    rw [capture_lvalue_kw_plain ";" (-1) st (Or.inl (by decide))]
    cases hc : st.cfg_comms with
    | none => rfl
    | some C =>
      simp only [Option.isSome_some, if_true]
      have hne : st.cfg_strctcomms = none ∨ st.cfg_strctcomms ≠ st.cfg_pushedcomms := by
        rcases hcase with h | h | h
        · exact hwf.2.2 h
        · rw [hc] at h; exact Option.noConfusion h
        · exact Or.inr h
      exact addcomment_saved 0 _ hwf.1 hwf.2.1 hne

/-- C15 at a state with one record in the current list and one pending
line. -/
theorem C15_move_comments_witness :
    items
        (cfg_move_comments
          { Tracker.init with
              heap := [[some { kw := some "id", rhs := 0, comms := some ["zero"] }]],
              cfg_strctcomms := some 0, cfg_comms := some ["last"] }).2.heap
        (cfg_move_comments
          { Tracker.init with
              heap := [[some { kw := some "id", rhs := 0, comms := some ["zero"] }]],
              cfg_strctcomms := some 0, cfg_comms := some ["last"] }).1
      = some [some { kw := some "id", rhs := 0, comms := some ["zero"] },
              some { kw := some ";", rhs := 0, comms := some ["last"] }] ∧
    (cfg_move_comments Tracker.init).1 = none :=
  ⟨C15_move_comments.2.1 _ ["last"] (by decide) rfl,
   (C15_move_comments.1 Tracker.init rfl).1⟩

/-- C16: `locate_comment` returns `NULL` exactly when the list is absent or
holds no record with the keyword and the side asked for; a record it
returns has this keyword and side and no record before it in the list has;
and the first record with this keyword and side is the one returned,
whatever follows it in the list. -/
theorem C16_locate_comment_first_match (hp : Store (Option COMMENT)) (comments : LISTID)
    (w : String) (rhs : Int) :
    (locate_comment hp comments w rhs = none ↔
      items hp comments = none ∨
      ∃ xs, items hp comments = some xs ∧
        ∀ c, some c ∈ xs → ¬ (c.kw = some w ∧ c.rhs = rhs)) ∧
    (∀ c, locate_comment hp comments w rhs = some c →
      ∃ pre post, items hp comments = some (pre ++ some c :: post) ∧
        (c.kw = some w ∧ c.rhs = rhs) ∧
        ∀ d, some d ∈ pre → ¬ (d.kw = some w ∧ d.rhs = rhs)) ∧
    (∀ pre c post, items hp comments = some (pre ++ some c :: post) →
      (c.kw = some w ∧ c.rhs = rhs) →
      (∀ d, some d ∈ pre → ¬ (d.kw = some w ∧ d.rhs = rhs)) →
        locate_comment hp comments w rhs = some c) := by
  unfold locate_comment
  cases hi : items hp comments with
  | none =>
    refine ⟨?_, ?_, ?_⟩
    · simp
    · intro c h; exact Option.noConfusion h
    · intro pre c post h; exact Option.noConfusion h
  | some xs =>
    refine ⟨?_, ?_, ?_⟩
    · simp only [locateFrom_eq_none_iff]
      constructor
      · intro h; exact Or.inr ⟨xs, rfl, h⟩
      · rintro (h | ⟨ys, e, h⟩)
        · exact Option.noConfusion h
        · cases e; exact h
    · intro c h
      obtain ⟨pre, post, e, hc, hpre⟩ := locateFrom_some w rhs xs c h
      exact ⟨pre, post, by rw [e], hc, hpre⟩
    · intro pre c post e hc hpre
      cases e
      exact locateFrom_first w rhs pre post c hpre hc

/-- C16 on a list with a `NULL` datum, a record for another side and two
records with the same keyword and side: the first of the two is found. -/
theorem C16_locate_comment_first_match_witness :
    locate_comment
        [[none, some { kw := some "id", rhs := 1, comms := some ["r"] },
          some { kw := some "id", rhs := 0, comms := some ["first"] },
          some { kw := some "id", rhs := 0, comms := some ["second"] }]]
        (some 0) "id" 0
      = some { kw := some "id", rhs := 0, comms := some ["first"] } :=
  (C16_locate_comment_first_match _ (some 0) "id" 0).2.2
    [none, some { kw := some "id", rhs := 1, comms := some ["r"] }]
    { kw := some "id", rhs := 0, comms := some ["first"] }
    [some { kw := some "id", rhs := 0, comms := some ["second"] }]
    rfl ⟨rfl, rfl⟩
    (by
      intro d hd
      simp only [List.mem_cons, List.mem_singleton, Option.some.injEq, List.not_mem_nil,
        or_false, false_or, reduceCtorEq] at hd
      subst hd
      decide)

/-! ## Claims about `hexnumber` -/

set_option maxRecDepth 100000 in
/-- C17, counterexample: the text `0x10` is not a run of hexadecimal
digits (`x` is none), yet `hexnumber` returns the number token 16 for it and
reports nothing; likewise `-1` gives the token -1 and ` 1f` the token 31. -/
theorem C17_hexnumber_counterexample :
    hexnumber 64 none 1 [48, 120, 49, 48]
      = (some { primary := .TKN_NUMBER, type := .V_NUM, number := 16 }, []) ∧
    isxdigit 120 = false ∧
    hexnumber 64 none 1 [45, 49]
      = (some { primary := .TKN_NUMBER, type := .V_NUM, number := -1 }, []) ∧
    isxdigit 45 = false ∧
    hexnumber 64 none 1 [32, 49, 102]
      = (some { primary := .TKN_NUMBER, type := .V_NUM, number := 31 }, []) ∧
    isxdigit 32 = false := by
  decide

/-- C17, amended: for a string `text`, `hexnumber` returns a token exactly
when `text` is white space, then an optional sign, then an optional `0x` or
`0X`, then a non-empty run of hexadecimal digits up to its end (each of the
first three parts may be empty); for a non-empty run of hexadecimal digits
with a value below `2^31` the token is the number token holding the base-16
value and nothing is reported; whenever no token is returned exactly one
error is reported, and whenever a token is returned none is; `FF` gives
255, and `zz` and the empty text give no token and one error. -/
theorem C17_hexnumber_accepts_strtoul_form :
    (∀ (w : Nat) (f : Option (List Nat)) (l : Int) (text : List Nat), (∀ c ∈ text, c ≠ 0) →
      ((hexnumber w f l text).1.isSome = true ↔
        ∃ ws sg pre ds, text = ws ++ sg ++ pre ++ ds ∧ (∀ c ∈ ws, isspace c = true) ∧
          (sg = [] ∨ sg = [43] ∨ sg = [45]) ∧
          (pre = [] ∨ pre = [48, 120] ∨ pre = [48, 88]) ∧ ds ≠ [] ∧ AllHex ds)) ∧
    (∀ (w : Nat) (f : Option (List Nat)) (l : Int) (ds : List Nat),
      32 ≤ w → ds ≠ [] → AllHex ds → hexValue ds < 2 ^ 31 →
        hexnumber w f l ds
          = (some { primary := .TKN_NUMBER, type := .V_NUM, number := hexValue ds }, [])) ∧
    (∀ (w : Nat) (f : Option (List Nat)) (l : Int) (text : List Nat),
      (hexnumber w f l text).1 = none → hexnumber w f l text = (none, [yyerror f l text])) ∧
    (∀ (w : Nat) (f : Option (List Nat)) (l : Int) (text : List Nat),
      (hexnumber w f l text).1.isSome = true → (hexnumber w f l text).2 = []) ∧
    (∀ (w : Nat) (f : Option (List Nat)) (l : Int), 32 ≤ w →
      hexnumber w f l [70, 70]
        = (some { primary := .TKN_NUMBER, type := .V_NUM, number := 255 }, []) ∧
      hexnumber w f l [122, 122] = (none, [yyerror f l [122, 122]]) ∧
      hexnumber w f l [] = (none, [yyerror f l []])) := by
  have hval : ∀ (w : Nat) (f : Option (List Nat)) (l : Int) (ds : List Nat),
      32 ≤ w → ds ≠ [] → AllHex ds → hexValue ds < 2 ^ 31 →
        hexnumber w f l ds
          = (some { primary := .TKN_NUMBER, type := .V_NUM, number := hexValue ds }, []) := by
    intro w f l ds hw hne hds hv
    have hM : ¬ (2 ^ w - 1 < hexValue ds) := by
      have h32 : 2 ^ 32 ≤ 2 ^ w := Nat.pow_le_pow_right (by decide) hw
      omega
    rw [hexnumber_eq, strtoul16_digits _ ds hne hds, if_neg hM]
    simp only []
    have hend : (ds ++ [0]).getD ds.length 0 = 0 := by
      rw [getD_at_length]; rfl
    have hlen : ds.length ≠ 0 := fun e => hne (List.length_eq_zero.1 e)
    rw [if_neg (by rintro (h | h); exact hlen h; exact h hend), toInt32_small _ hv]
  refine ⟨?_, hval, ?_, ?_, ?_⟩
  · intro w f l text hnul
    rw [hexnumber_isSome_iff w f l text hnul]
    constructor
    · rintro ⟨hne, hall⟩
      obtain ⟨ws, sg, pre, htext, hws, hsg, hpre⟩ := skip_shape text
      exact ⟨ws, sg, pre, _, htext, hws, hsg, hpre, hne, hall⟩
    · rintro ⟨ws, sg, pre, ds, rfl, hws, hsg, hpre, hne, hall⟩
      obtain ⟨h1, h2, h3⟩ := skip_of_shape ws sg pre ds hws hsg hpre hne hall
      rw [h1, h2, h3]
      exact ⟨hne, hall⟩
  · intro w f l text h
    rw [hexnumber_eq] at h ⊢
    split
    · rfl
    · rename_i hc
      rw [if_neg hc] at h
      exact Option.noConfusion h
  · intro w f l text h
    rw [hexnumber_eq] at h ⊢
    split
    · rename_i hc
      rw [if_pos hc] at h
      exact Bool.noConfusion h
    · rfl
  · intro w f l hw
    refine ⟨?_, rfl, rfl⟩
    have h := hval w f l [70, 70] hw (by decide) (by intro c hc; revert c; decide) (by decide)
    rw [h]
    rfl

/-- C17 (amended) for the text `0x1F` and for the text `7f`, with a 64-bit
`unsigned long`. -/
theorem C17_hexnumber_accepts_strtoul_form_witness :
    (hexnumber 64 none 1 [48, 120, 49, 70]).1.isSome = true ∧
    hexnumber 64 none 1 [55, 102]
      = (some { primary := .TKN_NUMBER, type := .V_NUM, number := 127 }, []) :=
  ⟨(C17_hexnumber_accepts_strtoul_form.1 64 none 1 [48, 120, 49, 70] (by decide)).2
      ⟨[], [], [48, 120], [49, 70], rfl, by decide, Or.inl rfl, Or.inr (Or.inl rfl),
        by decide, by intro c hc; revert c; decide⟩,
   C17_hexnumber_accepts_strtoul_form.2.1 64 none 1 [55, 102] (by decide) (by decide)
      (by intro c hc; revert c; decide) (by decide)⟩

/-! ## Escaping, then unescaping -/

theorem cfg_escape_spec (s : List Nat) (hbytes : ∀ c ∈ s, 0 < c ∧ c < 256)
    (hlen : s.length ≤ 12798) :
    cfg_escape s = .ok (34 :: s.flatMap escapeSpec ++ [34]) := by
  have hconv : ∀ l : List Nat, (∀ c ∈ l, c ∈ s) →
      (l.flatMap fun c => (escapeChar c).1) = l.flatMap escapeSpec := by
    intro l hl
    exact flatMap_congr_mem (fun c hc =>
      escapeChar_eq_escapeSpec (hbytes c (hl c hc)).1 (hbytes c (hl c hc)).2)
  obtain ⟨k, hk, heq, _, _, _, hall⟩ := cfg_escape_eq s
  have hks : k = s.length := by
    apply hall (fun c hc => Nat.pos_iff_ne_zero.mp (hbytes c hc).1)
    intro j hj
    rw [hconv _ (fun c hc => List.mem_of_mem_take hc)]
    exact cfg_escape_fits s hlen j hj
  rw [heq, hks, List.take_length, hconv s (fun c hc => hc)]

theorem decode_cons_plain (c : Nat) (rest : List Nat) (h0 : c ≠ 0) (h92 : c ≠ 92) :
    decode (c :: rest) = (decode rest).map (fun out => c :: out) := by
  rw [decode_eq_scan, decode_eq_scan, List.cons_append, scan_plain _ h0 h92]

/-- What `cfg_escape` writes for one byte other than a backslash decodes to
that byte. -/
theorem decode_escapeSpec (c : Nat) (rest : List Nat) (h0 : 0 < c) (h256 : c < 256)
    (h92 : c ≠ 92) :
    decode (escapeSpec c ++ rest) = (decode rest).map (fun out => c :: out) := by
  have hsingle : ∀ x : Nat, isodigit x = false → x ≠ 120 → x ≠ 117 → x ≠ 85 →
      escTable x = [c] → decode ([92, x] ++ rest) = (decode rest).map (fun out => c :: out) := by
    intro x h1 h2 h3 h4 h5
    have h := decode_single x rest h1 h2 h3 h4
    rw [h5] at h
    exact h
  unfold escapeSpec
  split
  · rename_i h; subst h; exact hsingle 110 (by decide) (by decide) (by decide) (by decide) rfl
  split
  · rename_i h; subst h; exact hsingle 116 (by decide) (by decide) (by decide) (by decide) rfl
  split
  · rename_i h; subst h; exact hsingle 97 (by decide) (by decide) (by decide) (by decide) rfl
  split
  · rename_i h; subst h; exact hsingle 98 (by decide) (by decide) (by decide) (by decide) rfl
  split
  · rename_i h; subst h; exact hsingle 102 (by decide) (by decide) (by decide) (by decide) rfl
  split
  · rename_i h; subst h; exact hsingle 114 (by decide) (by decide) (by decide) (by decide) rfl
  split
  · rename_i h; subst h; exact hsingle 118 (by decide) (by decide) (by decide) (by decide) rfl
  split
  · rename_i h; subst h; exact hsingle 34 (by decide) (by decide) (by decide) (by decide) rfl
  split
  · rename_i hc
    have hc128 : c < 128 := by omega
    have ho : AllOct [48 + c / 64, 48 + c / 8 % 8, 48 + c % 8] := by
      intro x hx
      simp only [List.mem_cons, List.mem_singleton, List.not_mem_nil, or_false] at hx
      unfold isodigit
      simp only [Bool.and_eq_true, decide_eq_true_eq]
      rcases hx with rfl | rfl | rfl <;> omega
    have hv : octValue [48 + c / 64, 48 + c / 8 % 8, 48 + c % 8] % 256 = c := by
      simp only [octValue, List.foldl_cons, List.foldl_nil]
      omega
    have h := decode_octal (o := [48 + c / 64, 48 + c / 8 % 8, 48 + c % 8]) rest
      (by simp) (by simp) ho (Or.inl rfl)
    rw [hv] at h
    exact h
  · exact decode_cons_plain c rest (by omega) h92

theorem decode_flatMap_escapeSpec (s : List Nat) (hbytes : ∀ c ∈ s, 0 < c ∧ c < 256)
    (h92 : ∀ c ∈ s, c ≠ 92) : decode (s.flatMap escapeSpec) = .ok s := by
  induction s with
  | nil => rw [List.flatMap_nil, decode_eq_scan]; exact scan_zero []
  | cons c t ih =>
    rw [List.flatMap_cons,
      decode_escapeSpec c _ (hbytes c (List.mem_cons_self _ _)).1
        (hbytes c (List.mem_cons_self _ _)).2 (h92 c (List.mem_cons_self _ _)),
      ih (fun x hx => hbytes x (List.mem_cons_of_mem _ hx))
        (fun x hx => h92 x (List.mem_cons_of_mem _ hx))]
    rfl

/-- C18: for a string `s` of at most 12000 bytes, none of them NUL or a
backslash, `cfg_escape` returns a quote, a body and a quote, and
`cfg_unescape` applied to the body (the returned string without its first
and last character) emits exactly `s`, into a separate buffer and in place
alike. -/
theorem C18_unescape_undoes_escape (s : List Nat) (hbytes : ∀ c ∈ s, 0 < c ∧ c < 256)
    (h92 : ∀ c ∈ s, c ≠ 92) (hlen : s.length ≤ 12000) :
    ∃ out : List Nat, cfg_escape s = .ok out ∧
      out.head? = some 34 ∧ out.getLast? = some 34 ∧
      (cfg_unescape
          { slim := ((out.drop 1).dropLast ++ [0]).length,
            dlim := 2 * ((out.drop 1).dropLast ++ [0]).length }
          (((out.drop 1).dropLast ++ [0]) ++
            List.replicate ((out.drop 1).dropLast ++ [0]).length 0)
          ((out.drop 1).dropLast ++ [0]).length 0).map
        (emitted ((out.drop 1).dropLast ++ [0]).length) = .ok s ∧
      (cfg_unescape
          { slim := ((out.drop 1).dropLast ++ [0]).length,
            dlim := ((out.drop 1).dropLast ++ [0]).length }
          ((out.drop 1).dropLast ++ [0]) 0 0).map (emitted 0) = .ok s := by
  refine ⟨_, cfg_escape_spec s hbytes (by omega), by simp, List.getLast?_concat _, ?_⟩
  have hbody : ((34 :: s.flatMap escapeSpec ++ [34]).drop 1).dropLast = s.flatMap escapeSpec := by
    simp
  rw [hbody]
  have hdec := decode_flatMap_escapeSpec s hbytes h92
  constructor
  · exact hdec
  · have hin : decodeInPlace (s.flatMap escapeSpec ++ [0]) = .ok s := by
      rw [decodeInPlace_eq_scan, ← decode_eq_scan]
      exact hdec
    exact hin

/-- C18 at the seven bytes `a`, newline, `"`, DEL, 0x01, `7`, 0xE9. -/
theorem C18_unescape_undoes_escape_witness :
    ∃ out : List Nat, cfg_escape [97, 10, 34, 127, 1, 55, 233] = .ok out ∧
      out.head? = some 34 ∧ out.getLast? = some 34 ∧
      (cfg_unescape
          { slim := ((out.drop 1).dropLast ++ [0]).length,
            dlim := 2 * ((out.drop 1).dropLast ++ [0]).length }
          (((out.drop 1).dropLast ++ [0]) ++
            List.replicate ((out.drop 1).dropLast ++ [0]).length 0)
          ((out.drop 1).dropLast ++ [0]).length 0).map
        (emitted ((out.drop 1).dropLast ++ [0]).length) = .ok [97, 10, 34, 127, 1, 55, 233] ∧
      (cfg_unescape
          { slim := ((out.drop 1).dropLast ++ [0]).length,
            dlim := ((out.drop 1).dropLast ++ [0]).length }
          ((out.drop 1).dropLast ++ [0]) 0 0).map (emitted 0)
        = .ok [97, 10, 34, 127, 1, 55, 233] :=
  C18_unescape_undoes_escape [97, 10, 34, 127, 1, 55, 233] (by decide) (by decide) (by decide)

set_option maxRecDepth 100000 in
/-- C19 (defect in the code): the claim holds the reads and the writes
within index `n` for every input, but for the string `\` (`n = 1`) the
`default` case of the inner `switch` consumes the terminator, so the loop
does not stop there.  With the source object ending at the terminator the
read at index 2 is outside it; with the bytes `a b NUL` behind the
terminator the in-place run stops with both pointers at index 4; and a
separate destination of `n + 1 = 2` bytes is overrun. -/
theorem C19_cfg_unescapeu_passes_terminator :
    cfg_unescapeu { slim := 2, dlim := 2 } [92, 0] 0 0 = .fault .srcOverrun ∧
    cfg_unescapeu { slim := 5, dlim := 5 } [92, 0, 97, 98, 0] 0 0
      = .ok { mem := [92, 0, 97, 98, 0], d := 4, s := 4 } ∧
    cfg_unescapeu { slim := 5, dlim := 7 } [92, 0, 97, 98, 0, 0, 0] 5 0
      = .fault .dstOverrun := by
  decide

/-! ## The capacity of the buckets -/

theorem reallocSlots_length (junk : Nat → Nat) (hs : List Nat) (n : Nat) :
    (reallocSlots junk hs n).length = n := by
  unfold reallocSlots
  simp only [List.length_take, List.length_append, List.length_map, List.length_range]
  omega

/-- C20: after any sequence of `cache_string` calls from the empty table,
every bucket with `k` pointers holds `NULL` in slot `k` and has
`17 + 16 * floor((k - 1) / 16)` slots (17 for `k = 0`); the slot array an
inserting call writes to (the bucket, enlarged to `k + 17` slots when `k`
is a positive multiple of 16) has more than `k + 1` slots, so the stores to
slots `k` and `k + 1` are inside it; and the next call, whatever its
argument, returns without a fault. -/
theorem C20_bucket_capacity (junk : Nat → Nat) (args : List (Option (List Nat))) :
    ∃ (qs : List Nat) (c : Cache), internAll junk args Cache.empty = .ok (qs, c) ∧
      (∀ (h : Nat) (arr : List Nat), c.hstrings[h]? = some (some arr) →
        arr[(liveOf arr).length]? = some 0 ∧
        arr.length = 17 + 16 * (((liveOf arr).length - 1) / 16) ∧
        (liveOf arr).length + 1 <
          (if (liveOf arr).length ≠ 0 ∧ (liveOf arr).length % 16 = 0
            then reallocSlots junk arr ((liveOf arr).length + 16 + 1) else arr).length) ∧
      (∀ (junk2 : Nat → Nat) (p : Option (List Nat)),
        ∃ (q : Nat) (c2 : Cache), cache_string junk2 p c = .ok (q, c2)) := by
  obtain ⟨qs, c, hrun, hI, _, _, _⟩ := internAll_spec junk args Cache.empty cacheInv_empty
  refine ⟨qs, c, hrun, ?_, ?_⟩
  · intro h arr harr
    obtain ⟨⟨rest, hrest⟩, hcap, _⟩ := hI.2.1 h arr harr
    refine ⟨?_, hcap, ?_⟩
    · have harr2 : arr[(liveOf arr).length]?
          = (liveOf arr ++ 0 :: rest)[(liveOf arr).length]? := by rw [← hrest]
      rw [harr2, List.getElem?_append_right (Nat.le_refl _)]
      simp
    · split
      · rw [reallocSlots_length]
        omega
      · rename_i hk
        rw [hcap]
        omega
  · intro junk2 p
    obtain ⟨q, c2, hcall, _⟩ := cache_string_spec junk2 p c hI
    exact ⟨q, c2, hcall⟩

/-- C20 for the table after interning `foo`, `bar` and `foo` again. -/
theorem C20_bucket_capacity_witness :
    ∃ (qs : List Nat) (c : Cache),
      internAll (fun _ => 0xdead)
          [some [102, 111, 111], some [98, 97, 114], some [102, 111, 111]] Cache.empty
        = .ok (qs, c) ∧
      (∀ (h : Nat) (arr : List Nat), c.hstrings[h]? = some (some arr) →
        arr[(liveOf arr).length]? = some 0 ∧
        arr.length = 17 + 16 * (((liveOf arr).length - 1) / 16) ∧
        (liveOf arr).length + 1 <
          (if (liveOf arr).length ≠ 0 ∧ (liveOf arr).length % 16 = 0
            then reallocSlots (fun _ => 0xdead) arr ((liveOf arr).length + 16 + 1)
            else arr).length) ∧
      (∀ (junk2 : Nat → Nat) (p : Option (List Nat)),
        ∃ (q : Nat) (c2 : Cache), cache_string junk2 p c = .ok (q, c2)) :=
  C20_bucket_capacity (fun _ => 0xdead)
    [some [102, 111, 111], some [98, 97, 114], some [102, 111, 111]]

end Avrdude
